import Mathlib

/-!
# Contiguous object pool: a shallow embedding of `objects.h`

The C++ header defines a typed object arena (`ObjectStorage<Ts...>`), one vector of
`ObjectOrHole<T>` slots per kind, and a reference-counted handle type `OHandle`.

Conventions of the embedding:

* a `std::vector` is a `List` and `vec.front()` is `vec[0]`; `vec[i]` outside the vector,
  dereferencing the null pointer returned by `std::get_if`, calling through a null
  `objectStore` pointer and overflow of the signed loop counter of `Clean` are undefined
  behaviour and are reported as `Fault.undefinedBehaviour`;
* `uint16_t` / `uint32_t` values are natural numbers, reduced modulo `2^16` / `2^32` wherever
  the source performs arithmetic on them or converts a wider value to them; `size_t` values
  (vector sizes) are natural numbers;
* the constants are written out: `65536 = 2^16`, `2147483648 = 2^31`,
  `4294967296 = 2^32`, `18446744073709551615 = 2^64 - 1`;
* the `while` loop of `free_capacity` takes a fuel argument and reports `Fault.outOfFuel`
  when the fuel is exhausted;
* the tuple of vectors `std::tuple<ObjectOrHoleVector<Ts>...>` is a function from a finite
  type of kinds `κ` to vectors, the payload type of kind `k` being `T k`;
* all handles live in the world of a single store; the `objectStore` pointer of a handle is
  recorded as a boolean (`false` is `nullptr`).
-/

set_option linter.unusedSectionVars false

namespace Objects

/-- Reasons for which running the code yields no result. -/
inductive Fault where
  | undefinedBehaviour
  | outOfFuel
  deriving DecidableEq, Repr

/-- Holes form a linked list within the object store (`struct Hole`). -/
structure Hole where
  next_hole : Nat := 0
  deriving DecidableEq, Repr

/-- The type `std::variant<Hole, T>`. -/
inductive Variant (T : Type) where
  | hole (h : Hole)
  | object (t : T)
  deriving DecidableEq, Repr

/-- The struct `ObjectOrHole<T>`: a 16-bit counter and the variant. A default-constructed
value has counter 0 and holds `Hole{0}`. -/
structure ObjectOrHole (T : Type) where
  references : Nat := 0
  var : Variant T := Variant.hole {}
  deriving DecidableEq, Repr

namespace ObjectOrHole

variable {T : Type}

/-- If a hole, get the hole (`std::get_if<Hole>`; `none` is the null pointer). -/
def gHole (e : ObjectOrHole T) : Option Hole :=
  match e.var with
  | Variant.hole h => some h
  | Variant.object _ => none

/-- Get the next hole, assuming this is a hole: the pointer of `get_if` is dereferenced
unchecked. -/
def gNextHole (e : ObjectOrHole T) : Except Fault Nat :=
  match e.gHole with
  | some hole => Except.ok hole.next_hole
  | none => Except.error Fault.undefinedBehaviour

/-- Test whether this is an object. -/
def IsObject (e : ObjectOrHole T) : Bool :=
  match e.var with
  | Variant.hole _ => false
  | Variant.object _ => true

/-- Get the object, or `none` (the null pointer) if a hole. -/
def gObject (e : ObjectOrHole T) : Option T :=
  match e.var with
  | Variant.hole _ => none
  | Variant.object t => some t

end ObjectOrHole

/-- Helper for a vector of ObjectOrHoles. -/
abbrev ObjectOrHoleVector (T : Type) := List (ObjectOrHole T)

/-- The handle type `OHandle<T, ObjectStorageType>`, for the kind `k`. -/
structure OHandle (κ : Type) (k : κ) where
  objectStore : Bool := false
  index : Nat := 0
  deriving DecidableEq, Repr

/-- The class `ObjectStorage<Ts...>`: one vector per kind and the private flag. -/
structure ObjectStorage (κ : Type) (T : κ → Type) where
  data : (k : κ) → ObjectOrHoleVector (T k)
  _hasChanged : Bool := false

section Storage

variable {κ : Type} [DecidableEq κ] {T : κ → Type}

/-- The constructor of the store: each vector has 1 element initially, a hole at index 0. -/
def ObjectStorage.new : ObjectStorage κ T :=
  { data := fun _ => [{}], _hasChanged := false }

/-- The store with the vector of kind `k` replaced. -/
def ObjectStorage.setVec (s : ObjectStorage κ T) (k : κ) (vec : ObjectOrHoleVector (T k)) :
    ObjectStorage κ T :=
  { s with data := Function.update s.data k vec }

/-- The member `capacity<T>()`: `vec.size() - 1` in `size_t` arithmetic. -/
def capacity (k : κ) (s : ObjectStorage κ T) : Nat :=
  if (s.data k).length = 0 then 18446744073709551615 else (s.data k).length - 1

/-- The loop of `free_capacity<T>()`:
`while (uint32_t next = vec[index].gNextHole()) { count++; index = next; }`. -/
def free_capacity_loop {U : Type} (vec : ObjectOrHoleVector U) : Nat → Nat → Nat → Except Fault Nat
  | 0, _, _ => Except.error Fault.outOfFuel
  | fuel + 1, index, count =>
    match vec[index]? with
    | none => Except.error Fault.undefinedBehaviour
    | some e =>
      match e.gNextHole with
      | Except.error f => Except.error f
      | Except.ok next =>
        if next = 0 then Except.ok count
        else free_capacity_loop vec fuel next ((count + 1) % 4294967296)

/-- The member `free_capacity<T>()`: the number of holes, excluding the first hole. -/
def free_capacity (fuel : Nat) (k : κ) (s : ObjectStorage κ T) : Except Fault Nat :=
  free_capacity_loop (s.data k) fuel 0 0

/-- The member `RegisterReference`: `vec[handle.index].references++` on a `uint16_t`. -/
def RegisterReference {k : κ} (handle : OHandle κ k) (s : ObjectStorage κ T) :
    Except Fault (ObjectStorage κ T) :=
  match (s.data k)[handle.index]? with
  | none => Except.error Fault.undefinedBehaviour
  | some e =>
    Except.ok (s.setVec k ((s.data k).set handle.index
      { e with references := (e.references + 1) % 65536 }))

/-- The member `DeregisterReference`: `vec[handle.index].references--` on a `uint16_t`. -/
def DeregisterReference {k : κ} (handle : OHandle κ k) (s : ObjectStorage κ T) :
    Except Fault (ObjectStorage κ T) :=
  match (s.data k)[handle.index]? with
  | none => Except.error Fault.undefinedBehaviour
  | some e =>
    Except.ok (s.setVec k ((s.data k).set handle.index
      { e with references := (e.references + 65535) % 65536 }))

/-- The member `GetNumReferences`: `vec[handle.index].references`. -/
def GetNumReferences {k : κ} (handle : OHandle κ k) (s : ObjectStorage κ T) : Except Fault Nat :=
  match (s.data k)[handle.index]? with
  | none => Except.error Fault.undefinedBehaviour
  | some e => Except.ok e.references

/-- The member `Get`: `vec[handle.index].gObject()`; `none` is the null pointer. -/
def Get {k : κ} (handle : OHandle κ k) (s : ObjectStorage κ T) : Except Fault (Option (T k)) :=
  match (s.data k)[handle.index]? with
  | none => Except.error Fault.undefinedBehaviour
  | some e => Except.ok e.gObject

/-- The constructor `OHandle(uint32_t i, ObjectStorageType* os)`: sets the index and the store
and registers a reference. -/
def OHandle.create (k : κ) (i : Nat) (s : ObjectStorage κ T) :
    Except Fault (OHandle κ k × ObjectStorage κ T) :=
  let h : OHandle κ k := { objectStore := true, index := i }
  match RegisterReference h s with
  | Except.error f => Except.error f
  | Except.ok s1 => Except.ok (h, s1)

/-- The member `Create<T>(args...)`; `v` is the value `T(args...)`. -/
def Create (k : κ) (v : T k) (s : ObjectStorage κ T) :
    Except Fault (OHandle κ k × ObjectStorage κ T) :=
  -- _hasChanged = true;
  let s0 : ObjectStorage κ T := { s with _hasChanged := true }
  let vec := s0.data k
  -- const uint32_t next_hole = vec.front().gNextHole();
  match vec[0]? with
  | none => Except.error Fault.undefinedBehaviour
  | some front =>
    match front.gNextHole with
    | Except.error f => Except.error f
    | Except.ok next_hole =>
      if next_hole = 0 then
        -- ObjectOrHole<T> new_variant; new_variant.var = T(...); vec.push_back(new_variant);
        let new_variant : ObjectOrHole (T k) := { references := 0, var := Variant.object v }
        let vec1 := vec ++ [new_variant]
        -- return OHandle<T, OS>(vec.size() - 1, this);  (size_t converted to uint32_t)
        OHandle.create k ((vec1.length - 1) % 4294967296) (s0.setVec k vec1)
      else
        -- const uint32_t next_next_hole = vec[next_hole].gNextHole();
        match vec[next_hole]? with
        | none => Except.error Fault.undefinedBehaviour
        | some e =>
          match e.gNextHole with
          | Except.error f => Except.error f
          | Except.ok next_next_hole =>
            -- vec.front().gHole()->next_hole = next_next_hole;
            let vec1 := vec.set 0 { front with var := Variant.hole { next_hole := next_next_hole } }
            -- vec[next_hole].var = T(...); vec[next_hole].references = 1;
            let vec2 := vec1.set next_hole { references := 1, var := Variant.object v }
            -- return OHandle<T, OS>(next_hole, this);
            OHandle.create k next_hole (s0.setVec k vec2)

/-- The body of the lambda of `Clean` for the entry at position `i` of the vector. -/
def CleanEntry {U : Type} (vec : ObjectOrHoleVector U) (i : Nat) :
    Except Fault (ObjectOrHoleVector U) :=
  match vec[i]? with
  | none => Except.error Fault.undefinedBehaviour
  | some entry =>
    if entry.IsObject && entry.references == 0 then
      -- entry.var = Hole({ vectors.front().gNextHole() });
      match vec[0]? with
      | none => Except.error Fault.undefinedBehaviour
      | some front =>
        match front.gNextHole with
        | Except.error f => Except.error f
        | Except.ok next =>
          let vec1 := vec.set i { entry with var := Variant.hole { next_hole := next } }
          -- vectors.front().gHole()->next_hole = i;
          match vec1[0]? with
          | none => Except.error Fault.undefinedBehaviour
          | some front1 =>
            match front1.gHole with
            | none => Except.error Fault.undefinedBehaviour
            | some _ =>
              Except.ok (vec1.set 0 { front1 with var := Variant.hole { next_hole := i % 4294967296 } })
    else Except.ok vec

/-- The `std::for_each` of `Clean` over one vector, with `n` entries left to visit and the
captured `int i` holding the position of the next entry; `++i` overflows at `2^31 - 1`. -/
def CleanLoop {U : Type} : Nat → Nat → ObjectOrHoleVector U → Except Fault (ObjectOrHoleVector U)
  | 0, _, vec => Except.ok vec
  | n + 1, i, vec =>
    match CleanEntry vec i with
    | Except.error f => Except.error f
    | Except.ok vec1 =>
      if i + 1 < 2147483648 then CleanLoop n (i + 1) vec1
      else Except.error Fault.undefinedBehaviour

/-- The sweep of `Clean` over one vector. -/
def CleanVector {U : Type} (vec : ObjectOrHoleVector U) : Except Fault (ObjectOrHoleVector U) :=
  CleanLoop vec.length 0 vec

/-- The member `Clean`: remove any objects that have no live references, in every vector. -/
def Clean [Fintype κ] (s : ObjectStorage κ T) : Except Fault (ObjectStorage κ T) :=
  if ∀ k, (CleanVector (s.data k)).toBool = true then
    Except.ok { s with data := fun k =>
      match CleanVector (s.data k) with
      | Except.ok vec => vec
      | Except.error _ => s.data k }
  else Except.error Fault.undefinedBehaviour

namespace OHandle

variable {k : κ}

/-- The default constructor `OHandle()`: the empty handle, with a null store pointer. -/
def empty : OHandle κ k :=
  { objectStore := false, index := 0 }

/-- A call `objectStore->f(*this)`: undefined when the pointer is null. -/
def viaStore {α : Type} (h : OHandle κ k) (f : Except Fault α) : Except Fault α :=
  if h.objectStore then f else Except.error Fault.undefinedBehaviour

/-- The destructor `~OHandle()`: deregisters a reference as long as the handle is not empty. -/
def destroy (h : OHandle κ k) (s : ObjectStorage κ T) : Except Fault (ObjectStorage κ T) :=
  if h.index > 0 then h.viaStore (DeregisterReference h s) else Except.ok s

/-- The copy constructor `OHandle(const OHandle& rhs)`: the new handle and the store. -/
def copy (rhs : OHandle κ k) (s : ObjectStorage κ T) :
    Except Fault (OHandle κ k × ObjectStorage κ T) :=
  -- index = rhs.index; objectStore = rhs.objectStore;
  let h : OHandle κ k := { objectStore := rhs.objectStore, index := rhs.index }
  -- if (index > 0) objectStore->RegisterReference(*this);
  if h.index > 0 then
    match h.viaStore (RegisterReference h s) with
    | Except.error f => Except.error f
    | Except.ok s1 => Except.ok (h, s1)
  else Except.ok (h, s)

/-- The copy assignment `lhs = rhs`: the new value of `lhs` and the store. -/
def assign (lhs rhs : OHandle κ k) (s : ObjectStorage κ T) :
    Except Fault (OHandle κ k × ObjectStorage κ T) :=
  -- if (index > 0) objectStore->DeregisterReference(*this);
  match (if lhs.index > 0 then lhs.viaStore (DeregisterReference lhs s) else Except.ok s) with
  | Except.error f => Except.error f
  | Except.ok s1 =>
    -- index = rhs.index; objectStore = rhs.objectStore;
    let h : OHandle κ k := { objectStore := rhs.objectStore, index := rhs.index }
    -- if (index > 0) objectStore->RegisterReference(*this);
    if h.index > 0 then
      match h.viaStore (RegisterReference h s1) with
      | Except.error f => Except.error f
      | Except.ok s2 => Except.ok (h, s2)
    else Except.ok (h, s1)

/-- The move constructor `OHandle(OHandle&& rhs)`: the new handle, the moved-from handle as
the constructor leaves it, and the store. -/
def move (rhs : OHandle κ k) (s : ObjectStorage κ T) :
    Except Fault (OHandle κ k × OHandle κ k × ObjectStorage κ T) :=
  -- index = rhs.index; objectStore = rhs.objectStore;
  let h : OHandle κ k := { objectStore := rhs.objectStore, index := rhs.index }
  -- if (index > 0) objectStore->RegisterReference(*this);
  if h.index > 0 then
    match h.viaStore (RegisterReference h s) with
    | Except.error f => Except.error f
    | Except.ok s1 => Except.ok (h, rhs, s1)
  else Except.ok (h, rhs, s)

/-- The move assignment `lhs = std::move(rhs)`: the new value of `lhs`, the moved-from
handle as the operator leaves it, and the store. -/
def moveAssign (lhs rhs : OHandle κ k) (s : ObjectStorage κ T) :
    Except Fault (OHandle κ k × OHandle κ k × ObjectStorage κ T) :=
  -- if (index > 0) objectStore->DeregisterReference(*this);
  match (if lhs.index > 0 then lhs.viaStore (DeregisterReference lhs s) else Except.ok s) with
  | Except.error f => Except.error f
  | Except.ok s1 =>
    -- index = rhs.index; objectStore = rhs.objectStore;
    let h : OHandle κ k := { objectStore := rhs.objectStore, index := rhs.index }
    -- if (index > 0) objectStore->RegisterReference(*this);
    if h.index > 0 then
      match h.viaStore (RegisterReference h s1) with
      | Except.error f => Except.error f
      | Except.ok s2 => Except.ok (h, rhs, s2)
    else Except.ok (h, rhs, s1)

/-- The member `num_references()`. -/
def num_references (h : OHandle κ k) (s : ObjectStorage κ T) : Except Fault Nat :=
  if h.index > 0 then h.viaStore (GetNumReferences h s) else Except.ok 0

/-- The member `operator->()`: `none` is the null pointer. -/
def operator_arrow (h : OHandle κ k) (s : ObjectStorage κ T) : Except Fault (Option (T k)) :=
  if h.index > 0 then h.viaStore (Get h s) else Except.ok none

/-- The member `operator*()`: `none` is the null pointer. -/
def operator_star (h : OHandle κ k) (s : ObjectStorage κ T) : Except Fault (Option (T k)) :=
  if h.index > 0 then h.viaStore (Get h s) else Except.ok none

end OHandle

/-- The slot at position `i` of the vector of kind `k`. -/
def slot (s : ObjectStorage κ T) (k : κ) (i : Nat) : Option (ObjectOrHole (T k)) :=
  (s.data k)[i]?

/-- The list `L` is the chain of hole indices that starts with the link value `link`: every
index of it is non-zero and holds a hole whose link is the next index; the last link is 0. -/
def Linked {U : Type} (vec : ObjectOrHoleVector U) : Nat → List Nat → Prop
  | link, [] => link = 0
  | link, i :: L =>
    link = i ∧ i ≠ 0 ∧
      match vec[i]? with
      | some e =>
        match e.var with
        | Variant.hole h => Linked vec h.next_hole L
        | Variant.object _ => False
      | none => False

/-- The free list of the vector is well formed and consists of the indices `L`, in order:
slot 0 is a hole, the chain from its link is `L`, and no index occurs twice. -/
def FreeList {U : Type} (vec : ObjectOrHoleVector U) (L : List Nat) : Prop :=
  L.Nodup ∧
    match vec[0]? with
    | some e =>
      match e.var with
      | Variant.hole h => Linked vec h.next_hole L
      | Variant.object _ => False
    | none => False

end Storage

section Sweeps

variable {κ : Type} [DecidableEq κ] [Fintype κ] {T : κ → Type}

/-- The effect of `n` calls of `Clean` in a row. -/
def CleanTimes : Nat → ObjectStorage κ T → Except Fault (ObjectStorage κ T)
  | 0, s => Except.ok s
  | n + 1, s =>
    match Clean s with
    | Except.error f => Except.error f
    | Except.ok s1 => CleanTimes n s1

end Sweeps

/-- Slot 0 of the vector exists and is tagged `Hole`. -/
def Sentinel {U : Type} (vec : ObjectOrHoleVector U) : Prop :=
  ∃ e, vec[0]? = some e ∧ e.IsObject = false

/-- The vector can be swept: slot 0 is a hole and every position fits the `int` counter of
the loop of `Clean`. -/
def Sweepable {U : Type} (vec : ObjectOrHoleVector U) : Prop :=
  Sentinel vec ∧ vec.length < 2147483648

/-- A store with a single kind, whose objects are natural numbers. -/
abbrev NatStore := ObjectStorage Unit (fun _ => Nat)

/-- The store with one vector that holds the sentinel and the object `7` with counter 1. -/
def oneObjectStore : NatStore :=
  { data := fun _ => [{ references := 0, var := Variant.hole { next_hole := 0 } },
      { references := 1, var := Variant.object 7 }],
    _hasChanged := true }

/-- A handle of `oneObjectStore` for its object. -/
def firstHandle : OHandle Unit () :=
  { objectStore := true, index := 1 }

/-- The store with one vector in which slot 2 is the only free slot. -/
def sweptStore : NatStore :=
  { data := fun _ => [{ references := 0, var := Variant.hole { next_hole := 2 } },
      { references := 1, var := Variant.object 7 },
      { references := 0, var := Variant.hole { next_hole := 0 } }],
    _hasChanged := true }

section Traces

variable {κ : Type} [DecidableEq κ] [Fintype κ] {T : κ → Type}

/-- The calls a client makes on a store: `Create<T>(v)`, `RegisterReference` and
`DeregisterReference` through a handle of the store with the given index (what the copy,
move, assignment and destruction of handles amount to), and `Clean`. -/
inductive Op (κ : Type) (T : κ → Type) where
  | create (k : κ) (v : T k)
  | register (k : κ) (i : Nat)
  | deregister (k : κ) (i : Nat)
  | clean

/-- Whether the call is `Clean`. -/
def Op.isClean : Op κ T → Bool
  | Op.clean => true
  | _ => false

/-- Whether the call is `Create<T>` for the kind `k`. -/
def Op.isCreate (k : κ) : Op κ T → Bool
  | Op.create k1 _ => decide (k1 = k)
  | _ => false

/-- One call: the handle that a `Create` returns, if any, and the store after the call. -/
def step (op : Op κ T) (s : ObjectStorage κ T) :
    Except Fault (Option (Sigma (OHandle κ)) × ObjectStorage κ T) :=
  match op with
  | Op.create k v =>
    match Create k v s with
    | Except.error f => Except.error f
    | Except.ok (h, s1) => Except.ok (some ⟨k, h⟩, s1)
  | Op.register k i =>
    match RegisterReference ({ objectStore := true, index := i } : OHandle κ k) s with
    | Except.error f => Except.error f
    | Except.ok s1 => Except.ok (none, s1)
  | Op.deregister k i =>
    match DeregisterReference ({ objectStore := true, index := i } : OHandle κ k) s with
    | Except.error f => Except.error f
    | Except.ok s1 => Except.ok (none, s1)
  | Op.clean =>
    match Clean s with
    | Except.error f => Except.error f
    | Except.ok s1 => Except.ok (none, s1)

/-- A sequence of calls: the handles returned by the `Create` calls, in order, and the final
store. -/
def run : List (Op κ T) → ObjectStorage κ T →
    Except Fault (List (Sigma (OHandle κ)) × ObjectStorage κ T)
  | [], s => Except.ok ([], s)
  | op :: ops, s =>
    match step op s with
    | Except.error f => Except.error f
    | Except.ok (out, s1) =>
      match run ops s1 with
      | Except.error f => Except.error f
      | Except.ok (outs, s2) => Except.ok (out.toList ++ outs, s2)

/-- The indices of the returned handles of kind `k`, in the order of the calls. -/
def createdIndices (k : κ) (outs : List (Sigma (OHandle κ))) : List Nat :=
  outs.filterMap fun p => if p.1 = k then some p.2.index else none

/-- The number of `Create<T>` calls for the kind `k` in a sequence of calls. -/
def creations (k : κ) (ops : List (Op κ T)) : Nat :=
  (ops.filter (Op.isCreate k)).length

/-- The store is reachable from a freshly constructed store by `Create`,
`RegisterReference` / `DeregisterReference` and `Clean` calls that all return. -/
def Reachable (s : ObjectStorage κ T) : Prop :=
  ∃ ops outs, run ops (ObjectStorage.new : ObjectStorage κ T) = Except.ok (outs, s)

end Traces

/-- Every slot tagged `Object` in `s` is tagged `Object`, with the same value, in `s1`. -/
def ObjectsKept {κ : Type} {T : κ → Type} (s s1 : ObjectStorage κ T) : Prop :=
  ∀ (k : κ) (j : Nat) (e : ObjectOrHole (T k)) (x : T k),
    slot s k j = some e → e.var = Variant.object x →
    ∃ e1, slot s1 k j = some e1 ∧ e1.var = Variant.object x

/-- The free list of the vector is empty: slot 0 is a hole whose link is 0. -/
def NoFreeSlot {U : Type} (vec : ObjectOrHoleVector U) : Prop :=
  ∃ front, vec[0]? = some front ∧ front.var = Variant.hole { next_hole := 0 }

/-- The positions `i, ..., i + n - 1` of the vector that hold an object with counter 0, in
ascending order: the slots that the loop of `Clean` turns into holes. -/
def reclaimable {U : Type} (vec : ObjectOrHoleVector U) (i n : Nat) : List Nat :=
  (List.range' i n).filter fun j =>
    match vec[j]? with
    | some e => e.IsObject && e.references == 0
    | none => false

/-- The invariant of a vector of a reachable store: `L` is its free list, the links are
below `2^31`, and every slot other than slot 0 that is not on the free list is tagged
`Object`. -/
def ArenaInv {U : Type} (vec : ObjectOrHoleVector U) (L : List Nat) : Prop :=
  FreeList vec L ∧ (∀ j ∈ L, j < 2147483648) ∧
    ∀ j e, 0 < j → vec[j]? = some e → j ∉ L → e.IsObject = true

/-- The number of slots of the vector that are tagged `Object`. -/
def objectCount {U : Type} (vec : ObjectOrHoleVector U) : Nat :=
  vec.countP fun e => e.IsObject

/-- A store with two kinds, whose objects are natural numbers. -/
abbrev TwoKindStore := ObjectStorage Bool (fun _ => Nat)

/-- A store with two kinds that holds one object, of the kind `true`, with counter 1. -/
def twoKindDemo : TwoKindStore :=
  { data := fun b =>
      match b with
      | true => [{}, { references := 1, var := Variant.object 5 }]
      | false => [{}],
    _hasChanged := true }

/-- A handle of `twoKindDemo` for its object. -/
def twoKindHandle : OHandle Bool true :=
  { objectStore := true, index := 1 }

/-- The indices of the slots of the kind `k` that are tagged `Object` with counter 0, in
ascending order. -/
def reclaimed {κ : Type} {T : κ → Type} (s : ObjectStorage κ T) (k : κ) : List Nat :=
  reclaimable (s.data k) 0 (s.data k).length

/-- A store with one vector in which the objects of the slots 1 and 3 have counter 0. -/
def pendingStore : NatStore :=
  { data := fun _ => [{ references := 0, var := Variant.hole { next_hole := 0 } },
      { references := 0, var := Variant.object 7 },
      { references := 1, var := Variant.object 8 },
      { references := 0, var := Variant.object 9 }],
    _hasChanged := true }

section HandleSequences

variable {κ : Type} [DecidableEq κ] {T : κ → Type} {k : κ}

/-- Move-construct a new handle from `h`, then destroy the moved-from handle (what storing a
temporary handle in a container does): the new handle and the store. -/
def OHandle.moveThenDestroy (h : OHandle κ k) (s : ObjectStorage κ T) :
    Except Fault (OHandle κ k × ObjectStorage κ T) :=
  match h.move s with
  | Except.error f => Except.error f
  | Except.ok (c, r, s1) =>
    match r.destroy s1 with
    | Except.error f => Except.error f
    | Except.ok s2 => Except.ok (c, s2)

/-- The effect of `n` move-then-destroy steps in a row, each on the handle that the previous
step produced. -/
def OHandle.relocate : Nat → OHandle κ k → ObjectStorage κ T →
    Except Fault (OHandle κ k × ObjectStorage κ T)
  | 0, h, s => Except.ok (h, s)
  | n + 1, h, s =>
    match h.moveThenDestroy s with
    | Except.error f => Except.error f
    | Except.ok (c, s1) => OHandle.relocate n c s1

/-- The effect of `n` copy constructions from the handle `h`, none of the handles being
destroyed: the new handles and the store. -/
def OHandle.copies : Nat → OHandle κ k → ObjectStorage κ T →
    Except Fault (List (OHandle κ k) × ObjectStorage κ T)
  | 0, _, s => Except.ok ([], s)
  | n + 1, h, s =>
    match h.copy s with
    | Except.error f => Except.error f
    | Except.ok (c, s1) =>
      match OHandle.copies n h s1 with
      | Except.error f => Except.error f
      | Except.ok (cs, s2) => Except.ok (c :: cs, s2)

end HandleSequences

/-! ## Basic facts about the store and its vectors -/
section Lemmas
variable {κ : Type} [DecidableEq κ] {T : κ → Type}

@[simp] theorem data_setVec_same (s : ObjectStorage κ T) (k : κ) (vec : ObjectOrHoleVector (T k)) :
    (s.setVec k vec).data k = vec := by
  simp [ObjectStorage.setVec]

theorem data_setVec_ne (s : ObjectStorage κ T) {k k' : κ} (vec : ObjectOrHoleVector (T k))
    (h : k' ≠ k) : (s.setVec k vec).data k' = s.data k' := by
  simp [ObjectStorage.setVec, Function.update_noteq h]

@[simp] theorem hasChanged_setVec (s : ObjectStorage κ T) (k : κ) (vec : ObjectOrHoleVector (T k)) :
    (s.setVec k vec)._hasChanged = s._hasChanged := rfl

theorem setVec_self (s : ObjectStorage κ T) (k : κ) : s.setVec k (s.data k) = s := by
  cases s
  simp [ObjectStorage.setVec]

theorem setVec_setVec (s : ObjectStorage κ T) (k : κ) (v w : ObjectOrHoleVector (T k)) :
    (s.setVec k v).setVec k w = s.setVec k w := by
  simp [ObjectStorage.setVec]

theorem RegisterReference_eq {k : κ} (h : OHandle κ k) (s : ObjectStorage κ T)
    {e : ObjectOrHole (T k)} (he : (s.data k)[h.index]? = some e) :
    RegisterReference h s = Except.ok (s.setVec k ((s.data k).set h.index
      { e with references := (e.references + 1) % 65536 })) := by
  simp [RegisterReference, he]

theorem DeregisterReference_eq {k : κ} (h : OHandle κ k) (s : ObjectStorage κ T)
    {e : ObjectOrHole (T k)} (he : (s.data k)[h.index]? = some e) :
    DeregisterReference h s = Except.ok (s.setVec k ((s.data k).set h.index
      { e with references := (e.references + 65535) % 65536 })) := by
  simp [DeregisterReference, he]

theorem getElem?_set_self_of_some {α : Type} (l : List α) (i : Nat) (a b : α)
    (h : l[i]? = some a) : (l.set i b)[i]? = some b := by
  have hi : i < l.length := by
    rcases List.getElem?_eq_some.1 h with ⟨hi, _⟩
    exact hi
  simp [List.getElem?_set, hi]

theorem set_eq_self_of_getElem? {α : Type} (l : List α) (i : Nat) (a : α)
    (h : l[i]? = some a) : l.set i a = l := by
  apply List.ext_getElem?
  intro j
  by_cases hj : i = j
  · subst hj
    rw [getElem?_set_self_of_some l i a a h, h]
  · simp [List.getElem?_set, hj]

end Lemmas

section HandleFacts
variable {κ : Type} [DecidableEq κ] {T : κ → Type}

theorem slot_setVec_same (s : ObjectStorage κ T) (k : κ) (vec : ObjectOrHoleVector (T k)) (i : Nat) :
    slot (s.setVec k vec) k i = vec[i]? := by
  unfold slot
  rw [data_setVec_same]

theorem slot_setVec_ne (s : ObjectStorage κ T) {k k' : κ} (vec : ObjectOrHoleVector (T k))
    (h : k' ≠ k) (i : Nat) : slot (s.setVec k vec) k' i = slot s k' i := by
  unfold slot
  rw [data_setVec_ne s vec h]

/-- The store in which the slot `i` of kind `k` holds `x` and nothing else differs. -/
theorem RegisterReference_slot {k : κ} (h : OHandle κ k) (s : ObjectStorage κ T)
    {e : ObjectOrHole (T k)} (he : slot s k h.index = some e) :
    ∃ s1, RegisterReference h s = Except.ok s1 ∧
      s1 = s.setVec k ((s.data k).set h.index { e with references := (e.references + 1) % 65536 }) ∧
      slot s1 k h.index = some { e with references := (e.references + 1) % 65536 } ∧
      (∀ j, j ≠ h.index → slot s1 k j = slot s k j) ∧
      (∀ k', k' ≠ k → s1.data k' = s.data k') := by
  refine ⟨_, RegisterReference_eq h s he, rfl, ?_, ?_, ?_⟩
  · rw [slot_setVec_same]
    exact getElem?_set_self_of_some _ _ _ _ he
  · intro j hj
    rw [slot_setVec_same, List.getElem?_set_ne (Ne.symm hj)]
    rfl
  · intro k' hk'
    exact data_setVec_ne _ _ hk'

theorem DeregisterReference_slot {k : κ} (h : OHandle κ k) (s : ObjectStorage κ T)
    {e : ObjectOrHole (T k)} (he : slot s k h.index = some e) :
    ∃ s1, DeregisterReference h s = Except.ok s1 ∧
      s1 = s.setVec k ((s.data k).set h.index
        { e with references := (e.references + 65535) % 65536 }) ∧
      slot s1 k h.index = some { e with references := (e.references + 65535) % 65536 } ∧
      (∀ j, j ≠ h.index → slot s1 k j = slot s k j) ∧
      (∀ k', k' ≠ k → s1.data k' = s.data k') := by
  refine ⟨_, DeregisterReference_eq h s he, rfl, ?_, ?_, ?_⟩
  · rw [slot_setVec_same]
    exact getElem?_set_self_of_some _ _ _ _ he
  · intro j hj
    rw [slot_setVec_same, List.getElem?_set_ne (Ne.symm hj)]
    rfl
  · intro k' hk'
    exact data_setVec_ne _ _ hk'

theorem num_references_of_slot {k : κ} (h : OHandle κ k) (s : ObjectStorage κ T)
    {e : ObjectOrHole (T k)} (hstore : h.objectStore = true) (hpos : 0 < h.index)
    (he : slot s k h.index = some e) : h.num_references s = Except.ok e.references := by
  unfold slot at he
  simp [OHandle.num_references, OHandle.viaStore, hstore, hpos, GetNumReferences, he]

theorem copy_of_slot {k : κ} (h : OHandle κ k) (s : ObjectStorage κ T)
    (hstore : h.objectStore = true) (hpos : 0 < h.index) :
    h.copy s = (match RegisterReference h s with
      | Except.error f => Except.error f
      | Except.ok s1 => Except.ok (h, s1)) := by
  obtain ⟨b, i⟩ := h
  simp only at hstore hpos
  subst hstore
  simp [OHandle.copy, OHandle.viaStore, hpos]

theorem destroy_of_slot {k : κ} (h : OHandle κ k) (s : ObjectStorage κ T)
    (hstore : h.objectStore = true) (hpos : 0 < h.index) :
    h.destroy s = DeregisterReference h s := by
  simp [OHandle.destroy, OHandle.viaStore, hstore, hpos]

theorem store_ext_of_slots (s s1 : ObjectStorage κ T) (k : κ)
    (hflag : s1._hasChanged = s._hasChanged)
    (hk : ∀ j, slot s1 k j = slot s k j) (hother : ∀ k', k' ≠ k → s1.data k' = s.data k') :
    s1 = s := by
  obtain ⟨d, c⟩ := s
  obtain ⟨d1, c1⟩ := s1
  simp only at hflag hother
  subst hflag
  congr
  funext k'
  by_cases hk' : k' = k
  · subst hk'
    exact List.ext_getElem? hk
  · exact hother k' hk'

end HandleFacts

section Claims
variable {κ : Type} [DecidableEq κ] {T : κ → Type}

/-- C2: copying a non-empty handle on an in-bounds slot with counter `c < 65535` makes the
counter `c + 1`, both handles report `c + 1`, destroying either of the two restores `c`, and no
other slot of any vector changes. -/
theorem copy_then_destroy_reference_count {k : κ} (s : ObjectStorage κ T) (h : OHandle κ k)
    (e : ObjectOrHole (T k)) (hstore : h.objectStore = true) (hpos : 0 < h.index)
    (hslot : slot s k h.index = some e) (hc : e.references < 65535) :
    ∃ h2 s1, h.copy s = Except.ok (h2, s1) ∧
      slot s1 k h.index = some { e with references := e.references + 1 } ∧
      h.num_references s1 = Except.ok (e.references + 1) ∧
      h2.num_references s1 = Except.ok (e.references + 1) ∧
      (∀ j, j ≠ h.index → slot s1 k j = slot s k j) ∧
      (∀ k', k' ≠ k → s1.data k' = s.data k') ∧
      ∃ s2, h2.destroy s1 = Except.ok s2 ∧ h.destroy s1 = Except.ok s2 ∧
        slot s2 k h.index = some e ∧
        h.num_references s2 = Except.ok e.references ∧
        h2.num_references s2 = Except.ok e.references ∧
        (∀ j, j ≠ h.index → slot s2 k j = slot s k j) ∧
        (∀ k', k' ≠ k → s2.data k' = s.data k') := by
  have hmod1 : (e.references + 1) % 65536 = e.references + 1 := Nat.mod_eq_of_lt (by omega)
  have hmod2 : (e.references + 1 + 65535) % 65536 = e.references := by omega
  obtain ⟨s1, hreg, hs1, hslot1, hframe1, hother1⟩ := RegisterReference_slot h s hslot
  rw [hmod1] at hslot1
  obtain ⟨s2, hdereg, hs2, hslot2, hframe2, hother2⟩ := DeregisterReference_slot h s1 hslot1
  simp only [hmod2] at hslot2
  have hflag : s2._hasChanged = s._hasChanged := by rw [hs2, hs1]; rfl
  have hback : s2 = s := by
    apply store_ext_of_slots s s2 k hflag
    · intro j
      by_cases hj : j = h.index
      · rw [hj, hslot2, hslot]
      · rw [hframe2 j hj, hframe1 j hj]
    · intro k' hk'
      rw [hother2 k' hk', hother1 k' hk']
  have hnum1 := num_references_of_slot h s1 hstore hpos hslot1
  have hdes : h.destroy s1 = Except.ok s := by
    rw [destroy_of_slot h s1 hstore hpos, hdereg, hback]
  have hnum : h.num_references s = Except.ok e.references :=
    num_references_of_slot h s hstore hpos hslot
  refine ⟨h, s1, ?_, hslot1, hnum1, hnum1, hframe1, hother1, s, hdes, hdes, hslot, hnum, hnum,
    fun _ _ => rfl, fun _ _ => rfl⟩
  rw [copy_of_slot h s hstore hpos, hreg]

end Claims

section CleanFacts
variable {U : Type}

theorem gNextHole_ok_iff (e : ObjectOrHole U) (n : Nat) :
    e.gNextHole = Except.ok n ↔ e.var = Variant.hole { next_hole := n } := by
  obtain ⟨r, v⟩ := e
  cases v with
  | hole h =>
    obtain ⟨m⟩ := h
    simp [ObjectOrHole.gNextHole, ObjectOrHole.gHole]
  | object t => simp [ObjectOrHole.gNextHole, ObjectOrHole.gHole]

theorem isObject_false_iff (e : ObjectOrHole U) :
    e.IsObject = false ↔ ∃ n, e.var = Variant.hole { next_hole := n } := by
  obtain ⟨r, v⟩ := e
  cases v with
  | hole h =>
    obtain ⟨m⟩ := h
    simp [ObjectOrHole.IsObject]
  | object t => simp [ObjectOrHole.IsObject]

theorem isObject_true_iff (e : ObjectOrHole U) :
    e.IsObject = true ↔ ∃ t, e.var = Variant.object t := by
  obtain ⟨r, v⟩ := e
  cases v with
  | hole h => simp [ObjectOrHole.IsObject]
  | object t => simp [ObjectOrHole.IsObject]

/-- What `CleanEntry` does to an entry that is an unreferenced object, when slot 0 is a hole. -/
theorem CleanEntry_reclaim (vec : ObjectOrHoleVector U) (i : Nat) (e front : ObjectOrHole U)
    (n : Nat) (he : vec[i]? = some e) (hobj : e.IsObject = true) (hzero : e.references = 0)
    (hfront : vec[0]? = some front) (hn : front.var = Variant.hole { next_hole := n }) :
    CleanEntry vec i = Except.ok
      ((vec.set i { e with var := Variant.hole { next_hole := n } }).set 0
        { front with var := Variant.hole { next_hole := i % 4294967296 } }) := by
  have hi0 : i ≠ 0 := by
    rintro rfl
    rw [hfront] at he
    injection he with he
    subst he
    rw [isObject_true_iff] at hobj
    obtain ⟨t, ht⟩ := hobj
    rw [hn] at ht
    cases ht
  have hlen : 0 < vec.length := by
    rcases List.getElem?_eq_some.1 hfront with ⟨h, _⟩
    exact h
  have hnext : front.gNextHole = Except.ok n := (gNextHole_ok_iff front n).2 hn
  have hhead1 : (vec.set i { references := 0, var := Variant.hole { next_hole := n } })[0]? =
      some front := by
    rw [List.getElem?_set_ne hi0]
    exact hfront
  have hg : front.gHole = some { next_hole := n } := by
    simp [ObjectOrHole.gHole, hn]
  simp [CleanEntry, he, hobj, hzero, hfront, hnext, hhead1, hg]

/-- An entry that is a hole or still referenced is left alone. -/
theorem CleanEntry_skip (vec : ObjectOrHoleVector U) (i : Nat) (e : ObjectOrHole U)
    (he : vec[i]? = some e) (hkeep : e.IsObject = false ∨ e.references ≠ 0) :
    CleanEntry vec i = Except.ok vec := by
  rcases hkeep with h | h
  · simp [CleanEntry, he, h]
  · simp [CleanEntry, he, h]

end CleanFacts

section CleanLoopFacts
variable {U : Type}

/-- The two possible outcomes of a successful `CleanEntry`. -/
theorem CleanEntry_inv (vec vec1 : ObjectOrHoleVector U) (i : Nat)
    (h : CleanEntry vec i = Except.ok vec1) :
    (vec1 = vec ∧ ∃ e, vec[i]? = some e ∧ (e.IsObject = false ∨ e.references ≠ 0)) ∨
      ∃ e front n, vec[i]? = some e ∧ e.IsObject = true ∧ e.references = 0 ∧ i ≠ 0 ∧
        vec[0]? = some front ∧ front.var = Variant.hole { next_hole := n } ∧
        vec1 = (vec.set i { e with var := Variant.hole { next_hole := n } }).set 0
          { front with var := Variant.hole { next_hole := i % 4294967296 } } := by
  cases he : vec[i]? with
  | none => simp [CleanEntry, he] at h
  | some e =>
    by_cases hkeep : e.IsObject = false ∨ e.references ≠ 0
    · rw [CleanEntry_skip vec i e he hkeep] at h
      injection h with h
      exact Or.inl ⟨h.symm, e, rfl, hkeep⟩
    · have hobj : e.IsObject = true := by
        cases hb : e.IsObject with
        | true => rfl
        | false => exact absurd (Or.inl hb) hkeep
      have hzero : e.references = 0 := by
        by_contra hne
        exact hkeep (Or.inr hne)
      cases hfront : vec[0]? with
      | none => simp [CleanEntry, he, hobj, hzero, hfront] at h
      | some front =>
        cases hnext : front.gNextHole with
        | error f => simp [CleanEntry, he, hobj, hzero, hfront, hnext] at h
        | ok n =>
          have hn := (gNextHole_ok_iff front n).1 hnext
          have hi0 : i ≠ 0 := by
            rintro rfl
            rw [hfront] at he
            injection he with he
            subst he
            rw [isObject_true_iff] at hobj
            obtain ⟨t, ht⟩ := hobj
            rw [hn] at ht
            cases ht
          rw [CleanEntry_reclaim vec i e front n he hobj hzero hfront hn] at h
          injection h with h
          exact Or.inr ⟨e, front, n, rfl, hobj, hzero, hi0, rfl, hn, h.symm⟩

theorem CleanEntry_length (vec vec1 : ObjectOrHoleVector U) (i : Nat)
    (h : CleanEntry vec i = Except.ok vec1) : vec1.length = vec.length := by
  rcases CleanEntry_inv vec vec1 i h with ⟨h1, _⟩ | ⟨e, front, n, _, _, _, _, _, _, h1⟩
  · rw [h1]
  · rw [h1]
    simp

/-- A referenced object is not touched by `CleanEntry`. -/
theorem CleanEntry_keeps (vec vec1 : ObjectOrHoleVector U) (i j : Nat) (c : Nat) (v : U)
    (h : CleanEntry vec i = Except.ok vec1)
    (hj : vec[j]? = some { references := c, var := Variant.object v }) (hc : c ≠ 0) :
    vec1[j]? = some { references := c, var := Variant.object v } := by
  rcases CleanEntry_inv vec vec1 i h with ⟨h1, _⟩ | ⟨e, front, n, he, _, hzero, _, hfront, hn, h1⟩
  · rw [h1]
    exact hj
  · have hji : i ≠ j := by
      rintro rfl
      rw [he] at hj
      injection hj with hj
      subst hj
      exact hc hzero
    have hj0 : 0 ≠ j := by
      rintro rfl
      rw [hfront] at hj
      injection hj with hj
      subst hj
      cases hn
    rw [h1, List.getElem?_set_ne hj0, List.getElem?_set_ne hji]
    exact hj

theorem CleanEntry_sentinel (vec vec1 : ObjectOrHoleVector U) (i : Nat)
    (h : CleanEntry vec i = Except.ok vec1) (hs : Sentinel vec) : Sentinel vec1 := by
  rcases CleanEntry_inv vec vec1 i h with ⟨h1, _⟩ | ⟨e, front, n, he, _, hzero, hi0, hfront, hn, h1⟩
  · rw [h1]
    exact hs
  · have hlen : 0 < (vec.set i { e with var := Variant.hole { next_hole := n } }).length := by
      rcases List.getElem?_eq_some.1 hfront with ⟨hl, _⟩
      simpa using hl
    refine ⟨{ front with var := Variant.hole { next_hole := i % 4294967296 } }, ?_, rfl⟩
    rw [h1, List.getElem?_set_self hlen]

theorem CleanEntry_total (vec : ObjectOrHoleVector U) (i : Nat) (hi : i < vec.length)
    (hs : Sentinel vec) : ∃ vec1, CleanEntry vec i = Except.ok vec1 := by
  obtain ⟨front, hfront, hhole⟩ := hs
  obtain ⟨n, hn⟩ := (isObject_false_iff front).1 hhole
  have he : vec[i]? = some vec[i] := List.getElem?_eq_getElem hi
  by_cases hkeep : vec[i].IsObject = false ∨ vec[i].references ≠ 0
  · exact ⟨vec, CleanEntry_skip vec i _ he hkeep⟩
  · have hobj : vec[i].IsObject = true := by
      cases hb : vec[i].IsObject with
      | true => rfl
      | false => exact absurd (Or.inl hb) hkeep
    have hzero : vec[i].references = 0 := by
      by_contra hne
      exact hkeep (Or.inr hne)
    exact ⟨_, CleanEntry_reclaim vec i _ front n he hobj hzero hfront hn⟩

theorem CleanLoop_length : ∀ (n i : Nat) (vec vec1 : ObjectOrHoleVector U),
    CleanLoop n i vec = Except.ok vec1 → vec1.length = vec.length
  | 0, i, vec, vec1, h => by
    simp only [CleanLoop] at h
    injection h with h
    rw [h]
  | n + 1, i, vec, vec1, h => by
    simp only [CleanLoop] at h
    cases hce : CleanEntry vec i with
    | error f => simp [hce] at h
    | ok vec2 =>
      simp only [hce] at h
      split at h
      · rw [CleanLoop_length n (i + 1) vec2 vec1 h, CleanEntry_length vec vec2 i hce]
      · cases h

theorem CleanLoop_keeps : ∀ (n i : Nat) (vec vec1 : ObjectOrHoleVector U) (j c : Nat) (v : U),
    CleanLoop n i vec = Except.ok vec1 →
    vec[j]? = some { references := c, var := Variant.object v } → c ≠ 0 →
    vec1[j]? = some { references := c, var := Variant.object v }
  | 0, i, vec, vec1, j, c, v, h, hj, _ => by
    simp only [CleanLoop] at h
    injection h with h
    rw [← h]
    exact hj
  | n + 1, i, vec, vec1, j, c, v, h, hj, hc => by
    simp only [CleanLoop] at h
    cases hce : CleanEntry vec i with
    | error f => simp [hce] at h
    | ok vec2 =>
      simp only [hce] at h
      split at h
      · exact CleanLoop_keeps n (i + 1) vec2 vec1 j c v h (CleanEntry_keeps vec vec2 i j c v hce hj hc) hc
      · cases h

theorem CleanLoop_total : ∀ (n i : Nat) (vec : ObjectOrHoleVector U),
    i + n ≤ vec.length → i + n < 2147483648 → Sentinel vec →
    ∃ vec1, CleanLoop n i vec = Except.ok vec1
  | 0, i, vec, _, _, _ => ⟨vec, rfl⟩
  | n + 1, i, vec, hlen, hsmall, hs => by
    obtain ⟨vec2, hce⟩ := CleanEntry_total vec i (by omega) hs
    have hlt : i + 1 < 2147483648 := by omega
    obtain ⟨vec1, h1⟩ := CleanLoop_total n (i + 1) vec2
      (by rw [CleanEntry_length vec vec2 i hce]; omega) (by omega)
      (CleanEntry_sentinel vec vec2 i hce hs)
    refine ⟨vec1, ?_⟩
    simp only [CleanLoop, hce, hlt, if_true]
    exact h1

end CleanLoopFacts

section CleanStore
variable {κ : Type} [DecidableEq κ] [Fintype κ] {T : κ → Type}

theorem toBool_eq_true_iff {α : Type} (x : Except Fault α) :
    x.toBool = true ↔ ∃ a, x = Except.ok a := by
  cases x with
  | error f => simp [Except.toBool]
  | ok a => simp [Except.toBool]

theorem Clean_ok_iff (s s1 : ObjectStorage κ T) :
    Clean s = Except.ok s1 ↔
      (∀ k, CleanVector (s.data k) = Except.ok (s1.data k)) ∧ s1._hasChanged = s._hasChanged := by
  constructor
  · intro h
    unfold Clean at h
    split at h
    · rename_i hall
      injection h with h
      subst h
      refine ⟨fun k => ?_, rfl⟩
      obtain ⟨a, ha⟩ := (toBool_eq_true_iff _).1 (hall k)
      simp only [ha]
    · cases h
  · rintro ⟨hall, hflag⟩
    have hb : ∀ k, (CleanVector (s.data k)).toBool = true := fun k =>
      (toBool_eq_true_iff _).2 ⟨_, hall k⟩
    unfold Clean
    rw [if_pos hb]
    obtain ⟨d1, c1⟩ := s1
    simp only at hall hflag
    subst hflag
    congr
    funext k
    rw [hall k]

theorem Clean_total (s : ObjectStorage κ T) (h : ∀ k, Sweepable (s.data k)) :
    ∃ s1, Clean s = Except.ok s1 := by
  have hall : ∀ k, ∃ vec1, CleanVector (s.data k) = Except.ok vec1 := fun k =>
    CleanLoop_total _ 0 (s.data k) (by omega) (by have := (h k).2; omega) (h k).1
  refine ⟨{ s with data := fun k => (hall k).choose }, ?_⟩
  rw [Clean_ok_iff]
  exact ⟨fun k => (hall k).choose_spec, rfl⟩

end CleanStore

section Claims
variable {κ : Type} [DecidableEq κ] {T : κ → Type}

theorem copy_then_destroy_reference_count_witness :
    ∃ h2 s1, firstHandle.copy oneObjectStore = Except.ok (h2, s1) ∧
      h2.num_references s1 = Except.ok 2 ∧
      ∃ s2, h2.destroy s1 = Except.ok s2 ∧
        slot s2 () 1 = some { references := 1, var := Variant.object 7 } := by
  obtain ⟨h2, s1, hcopy, _, _, hnum, _, _, s2, hdes, _, hslot, _⟩ :=
    copy_then_destroy_reference_count oneObjectStore firstHandle
      { references := 1, var := Variant.object 7 } rfl (by decide) rfl (by decide)
  exact ⟨h2, s1, hcopy, hnum, s2, hdes, hslot⟩

/-- C7: an empty handle (`index == 0`) yields no object from `operator->` and `operator*`,
reports 0 references, and copying it, moving it, copy- or move-assigning it to an empty handle
and destroying it all return the store unchanged. -/
theorem empty_handle_is_inert {k : κ} (s : ObjectStorage κ T) (h d : OHandle κ k)
    (h0 : h.index = 0) (d0 : d.index = 0) :
    h.operator_arrow s = Except.ok none ∧ h.operator_star s = Except.ok none ∧
    h.num_references s = Except.ok 0 ∧
    (∃ c, h.copy s = Except.ok (c, s) ∧ c.index = 0) ∧
    (∃ c, h.move s = Except.ok (c, h, s) ∧ c.index = 0) ∧
    (∃ c, d.assign h s = Except.ok (c, s) ∧ c.index = 0) ∧
    (∃ c, d.moveAssign h s = Except.ok (c, h, s) ∧ c.index = 0) ∧
    h.destroy s = Except.ok s := by
  obtain ⟨b, i⟩ := h
  obtain ⟨b1, i1⟩ := d
  simp only at h0 d0
  subst h0
  subst d0
  refine ⟨by simp [OHandle.operator_arrow], by simp [OHandle.operator_star],
    by simp [OHandle.num_references], ⟨⟨b, 0⟩, by simp [OHandle.copy], rfl⟩,
    ⟨⟨b, 0⟩, by simp [OHandle.move], rfl⟩, ⟨⟨b, 0⟩, by simp [OHandle.assign], rfl⟩,
    ⟨⟨b, 0⟩, by simp [OHandle.moveAssign], rfl⟩, by simp [OHandle.destroy]⟩

theorem empty_handle_is_inert_witness :
    (OHandle.empty : OHandle Unit ()).num_references oneObjectStore = Except.ok 0 ∧
    (OHandle.empty : OHandle Unit ()).destroy oneObjectStore = Except.ok oneObjectStore :=
  have h := empty_handle_is_inert oneObjectStore (OHandle.empty : OHandle Unit ())
    OHandle.empty rfl rfl
  ⟨h.2.2.1, h.2.2.2.2.2.2.2⟩

/-- C8: for a handle of the store whose index is within the vector, `operator->` and
`operator*` return no object exactly when the index is 0 or the slot is not tagged `Object`;
otherwise they return the object stored in that slot. -/
theorem dereference_none_iff {k : κ} (s : ObjectStorage κ T) (h : OHandle κ k)
    (e : ObjectOrHole (T k)) (hstore : h.index ≠ 0 → h.objectStore = true)
    (hslot : slot s k h.index = some e) :
    ∃ r, h.operator_arrow s = Except.ok r ∧ h.operator_star s = Except.ok r ∧
      (r = none ↔ (h.index = 0 ∨ e.IsObject = false)) ∧
      (∀ x, h.index ≠ 0 → e.var = Variant.object x → r = some x) := by
  by_cases h0 : h.index = 0
  · refine ⟨none, by simp [OHandle.operator_arrow, h0], by simp [OHandle.operator_star, h0],
      by simp [h0], fun x hx => absurd h0 hx⟩
  · have hpos : 0 < h.index := Nat.pos_of_ne_zero h0
    have hget : (s.data k)[h.index]? = some e := hslot
    refine ⟨e.gObject, ?_, ?_, ?_, ?_⟩
    · simp [OHandle.operator_arrow, OHandle.viaStore, hpos, hstore h0, Get, hget]
    · simp [OHandle.operator_star, OHandle.viaStore, hpos, hstore h0, Get, hget]
    · obtain ⟨r, v⟩ := e
      cases v <;> simp [ObjectOrHole.gObject, ObjectOrHole.IsObject, h0]
    · intro x _ hx
      simp [ObjectOrHole.gObject, hx]

theorem dereference_none_iff_witness :
    ∃ r, firstHandle.operator_arrow oneObjectStore = Except.ok r ∧ r = some 7 := by
  obtain ⟨r, harrow, _, _, hsome⟩ :=
    dereference_none_iff oneObjectStore firstHandle
      { references := 1, var := Variant.object 7 } (fun _ => rfl) rfl
  exact ⟨r, harrow, hsome 7 (by decide) rfl⟩

end Claims

section CreateFacts
variable {κ : Type} [DecidableEq κ] {T : κ → Type}

/-- The grow branch of `Create`: the new slot is appended with counter 0 and the handle
constructor registers a reference on the truncated index. -/
theorem Create_grow (k : κ) (v : T k) (s : ObjectStorage κ T) (front : ObjectOrHole (T k))
    (hfront : slot s k 0 = some front) (hn : front.var = Variant.hole { next_hole := 0 }) :
    ∃ e, ((s.data k) ++ [{ references := 0, var := Variant.object v }])[
        (s.data k).length % 4294967296]? = some e ∧
      Create k v s = Except.ok
        ({ objectStore := true, index := (s.data k).length % 4294967296 },
          ({ s with _hasChanged := true } : ObjectStorage κ T).setVec k
            (((s.data k) ++ [({ references := 0, var := Variant.object v } :
                ObjectOrHole (T k))]).set ((s.data k).length % 4294967296)
              { e with references := (e.references + 1) % 65536 })) := by
  have hlt : (s.data k).length % 4294967296 <
      ((s.data k) ++ [({ references := 0, var := Variant.object v } : ObjectOrHole (T k))]).length := by
    have := Nat.mod_le (s.data k).length 4294967296
    simp only [List.length_append, List.length_singleton]
    omega
  refine ⟨_, List.getElem?_eq_getElem hlt, ?_⟩
  have hnext : front.gNextHole = Except.ok 0 := (gNextHole_ok_iff front 0).2 hn
  have hget : (s.data k)[0]? = some front := hfront
  simp only [Create, hget, hnext, if_true, List.length_append, List.length_singleton,
    Nat.add_sub_cancel, OHandle.create]
  rw [RegisterReference_eq _ _ (e := ((s.data k) ++
    [({ references := 0, var := Variant.object v } : ObjectOrHole (T k))])[
      (s.data k).length % 4294967296])]
  · simp only [data_setVec_same, setVec_setVec]
  · simp only [data_setVec_same]
    exact List.getElem?_eq_getElem hlt

theorem Create_reuse (k : κ) (v : T k) (s : ObjectStorage κ T) (front e : ObjectOrHole (T k))
    (i n : Nat) (hfront : slot s k 0 = some front)
    (hi : front.var = Variant.hole { next_hole := i }) (hi0 : i ≠ 0)
    (he : slot s k i = some e) (hn : e.var = Variant.hole { next_hole := n }) :
    Create k v s = Except.ok
      ({ objectStore := true, index := i },
        ({ s with _hasChanged := true } : ObjectStorage κ T).setVec k
          (((s.data k).set 0 { front with var := Variant.hole { next_hole := n } }).set i
            { references := 2, var := Variant.object v })) := by
  have hnext : front.gNextHole = Except.ok i := (gNextHole_ok_iff front i).2 hi
  have hnext2 : e.gNextHole = Except.ok n := (gNextHole_ok_iff e n).2 hn
  have hget : (s.data k)[0]? = some front := hfront
  have hgeti : (s.data k)[i]? = some e := he
  have hilt : i < (s.data k).length := by
    rcases List.getElem?_eq_some.1 hgeti with ⟨h, _⟩
    exact h
  simp only [Create, hget, hnext, hi0, if_false, hgeti, hnext2, OHandle.create]
  rw [RegisterReference_eq _ _ (e := { references := 1, var := Variant.object v })]
  · simp only [data_setVec_same, setVec_setVec, List.set_set]
  · simp only [data_setVec_same]
    rw [List.getElem?_set_self (by simpa using hilt)]

end CreateFacts

section FreeListFacts
variable {U : Type}

theorem Linked_cons_iff (vec : ObjectOrHoleVector U) (link i : Nat) (L : List Nat) :
    Linked vec link (i :: L) ↔
      link = i ∧ i ≠ 0 ∧
        ∃ e n, vec[i]? = some e ∧ e.var = Variant.hole { next_hole := n } ∧ Linked vec n L := by
  simp only [Linked]
  constructor
  · rintro ⟨h1, h2, h3⟩
    refine ⟨h1, h2, ?_⟩
    cases he : vec[i]? with
    | none => simp [he] at h3
    | some e =>
      obtain ⟨r, var⟩ := e
      cases var with
      | hole h =>
        obtain ⟨n⟩ := h
        simp only [he] at h3
        exact ⟨_, n, rfl, rfl, h3⟩
      | object t => simp [he] at h3
  · rintro ⟨h1, h2, e, n, he, hn, hl⟩
    refine ⟨h1, h2, ?_⟩
    simp only [he, hn]
    exact hl

theorem FreeList_iff (vec : ObjectOrHoleVector U) (L : List Nat) :
    FreeList vec L ↔
      L.Nodup ∧ ∃ front n, vec[0]? = some front ∧
        front.var = Variant.hole { next_hole := n } ∧ Linked vec n L := by
  simp only [FreeList]
  constructor
  · rintro ⟨h1, h3⟩
    refine ⟨h1, ?_⟩
    cases he : vec[0]? with
    | none => simp [he] at h3
    | some e =>
      obtain ⟨r, var⟩ := e
      cases var with
      | hole h =>
        obtain ⟨n⟩ := h
        simp only [he] at h3
        exact ⟨_, n, rfl, rfl, h3⟩
      | object t => simp [he] at h3
  · rintro ⟨h1, e, n, he, hn, hl⟩
    refine ⟨h1, ?_⟩
    simp only [he, hn]
    exact hl

theorem Linked_mem : ∀ (L : List Nat) (vec : ObjectOrHoleVector U) (link : Nat),
    Linked vec link L → ∀ i ∈ L, i ≠ 0 ∧ ∃ e, vec[i]? = some e ∧ e.IsObject = false
  | [], _, _, _, i, hi => by cases hi
  | j :: L, vec, link, h, i, hi => by
    obtain ⟨_, hj0, e, n, he, hn, hl⟩ := (Linked_cons_iff vec link j L).1 h
    rcases List.mem_cons.1 hi with rfl | hi
    · exact ⟨hj0, e, he, (isObject_false_iff e).2 ⟨n, hn⟩⟩
    · exact Linked_mem L vec n hl i hi

theorem Linked_congr : ∀ (L : List Nat) (vec vec1 : ObjectOrHoleVector U) (link : Nat),
    (∀ i ∈ L, vec1[i]? = vec[i]?) → Linked vec link L → Linked vec1 link L
  | [], _, _, _, _, h => h
  | j :: L, vec, vec1, link, hagree, h => by
    obtain ⟨h1, hj0, e, n, he, hn, hl⟩ := (Linked_cons_iff vec link j L).1 h
    refine (Linked_cons_iff vec1 link j L).2 ⟨h1, hj0, e, n, ?_, hn, ?_⟩
    · rw [hagree j (List.mem_cons_self j L)]
      exact he
    · exact Linked_congr L vec vec1 n (fun i hi => hagree i (List.mem_cons_of_mem j hi)) hl

theorem Linked_lt_length (L : List Nat) (vec : ObjectOrHoleVector U) (link : Nat)
    (h : Linked vec link L) : ∀ i ∈ L, i ≠ 0 ∧ i < vec.length := by
  intro i hi
  obtain ⟨h0, e, he, _⟩ := Linked_mem L vec link h i hi
  rcases List.getElem?_eq_some.1 he with ⟨hlt, _⟩
  exact ⟨h0, hlt⟩

/-- A duplicate-free list of non-zero indices below `n` has fewer than `n` entries. -/
theorem nodup_length_lt (L : List Nat) (n : Nat) (hn : 0 < n) (hnd : L.Nodup)
    (hb : ∀ i ∈ L, i ≠ 0 ∧ i < n) : L.length + 1 ≤ n := by
  have hnd0 : (0 :: L).Nodup := List.nodup_cons.2 ⟨fun h0 => (hb 0 h0).1 rfl, hnd⟩
  have hsub : (0 :: L).toFinset ⊆ Finset.range n := by
    intro x hx
    rw [List.mem_toFinset] at hx
    rw [Finset.mem_range]
    rcases List.mem_cons.1 hx with rfl | hx
    · exact hn
    · exact (hb x hx).2
  have hcard := Finset.card_le_card hsub
  rw [List.toFinset_card_of_nodup hnd0, Finset.card_range] at hcard
  simpa using hcard

/-- The walk of `free_capacity` along a chain counts its indices. -/
theorem free_capacity_loop_linked : ∀ (L : List Nat) (vec : ObjectOrHoleVector U)
    (fuel index count link : Nat) (e : ObjectOrHole U),
    vec[index]? = some e → e.var = Variant.hole { next_hole := link } → Linked vec link L →
    L.length < fuel → count + L.length < 4294967296 →
    free_capacity_loop vec fuel index count = Except.ok (count + L.length)
  | [], vec, fuel, index, count, link, e, he, hlink, hl, hfuel, _ => by
    have h0 : link = 0 := hl
    subst h0
    obtain ⟨fuel, rfl⟩ : ∃ f, fuel = f + 1 := ⟨fuel - 1, by simp at hfuel; omega⟩
    simp [free_capacity_loop, he, (gNextHole_ok_iff e 0).2 hlink]
  | j :: L, vec, fuel, index, count, link, e, he, hlink, hl, hfuel, hsmall => by
    obtain ⟨h1, hj0, e1, n, he1, hn, hl1⟩ := (Linked_cons_iff vec link j L).1 hl
    subst h1
    obtain ⟨fuel, rfl⟩ : ∃ f, fuel = f + 1 := ⟨fuel - 1, by simp at hfuel; omega⟩
    simp only [List.length_cons] at hfuel hsmall
    have hrec := free_capacity_loop_linked L vec fuel link ((count + 1) % 4294967296) n e1 he1 hn
      hl1 (by omega) (by rw [Nat.mod_eq_of_lt (by omega)]; omega)
    simp only [free_capacity_loop, he, (gNextHole_ok_iff e link).2 hlink, hj0, if_false]
    rw [hrec, Nat.mod_eq_of_lt (by omega)]
    simp only [List.length_cons]
    congr 1
    omega

theorem freeList_length_lt (vec : ObjectOrHoleVector U) (L : List Nat) (hfl : FreeList vec L)
    (hu32 : ∀ j ∈ L, j < 4294967296) : L.length < 4294967296 := by
  obtain ⟨hnd, front, n, hfront, hn, hl⟩ := (FreeList_iff vec L).1 hfl
  have := nodup_length_lt L 4294967296 (by decide) hnd
    (fun j hj => ⟨(Linked_mem L vec n hl j hj).1, hu32 j hj⟩)
  omega

theorem free_capacity_loop_freeList (vec : ObjectOrHoleVector U) (L : List Nat) (fuel : Nat)
    (hfl : FreeList vec L) (hu32 : ∀ j ∈ L, j < 4294967296) (hfuel : L.length < fuel) :
    free_capacity_loop vec fuel 0 0 = Except.ok L.length := by
  have hcount := freeList_length_lt vec L hfl hu32
  obtain ⟨hnd, front, n, hfront, hn, hl⟩ := (FreeList_iff vec L).1 hfl
  have h := free_capacity_loop_linked L vec fuel 0 0 n front hfront hn hl hfuel (by omega)
  simpa using h

end FreeListFacts
section Claims
variable {κ : Type} [DecidableEq κ] {T : κ → Type}

/-- The reuse branch of `Create` on a well-formed free list `i :: L`. -/
theorem Create_reuse_freeList (k : κ) (v : T k) (s : ObjectStorage κ T) (i : Nat)
    (L : List Nat) (hfl : FreeList (s.data k) (i :: L))
    (hu32 : ∀ j ∈ i :: L, j < 4294967296) :
    ∃ h s1, Create k v s = Except.ok (h, s1) ∧
      h.index = i ∧ 1 ≤ i ∧ i ≤ capacity k s ∧
      (∃ e, slot s k i = some e ∧ e.IsObject = false) ∧
      capacity k s1 = capacity k s ∧
      FreeList (s1.data k) L ∧
      (∀ fuel, L.length + 1 < fuel →
        free_capacity fuel k s = Except.ok (L.length + 1) ∧
        free_capacity fuel k s1 = Except.ok L.length) ∧
      h.operator_arrow s1 = Except.ok (some v) ∧ h.operator_star s1 = Except.ok (some v) := by
  obtain ⟨hnd, front, n0, hfront, hn0, hl⟩ := (FreeList_iff (s.data k) (i :: L)).1 hfl
  obtain ⟨h1, hi0, e, n, he, hn, hl1⟩ := (Linked_cons_iff (s.data k) n0 i L).1 hl
  subst h1
  have hilt : n0 < (s.data k).length := by
    rcases List.getElem?_eq_some.1 he with ⟨h, _⟩
    exact h
  have hcreate := Create_reuse k v s front e n0 n hfront hn0 hi0 he hn
  have hdata : (({ s with _hasChanged := true } : ObjectStorage κ T).setVec k
      (((s.data k).set 0 { front with var := Variant.hole { next_hole := n } }).set n0
        { references := 2, var := Variant.object v })).data k =
      ((s.data k).set 0 { front with var := Variant.hole { next_hole := n } }).set n0
        { references := 2, var := Variant.object v } := data_setVec_same _ _ _
  have hfl1 : FreeList (((s.data k).set 0 { front with var := Variant.hole { next_hole := n } }).set
      n0 { references := 2, var := Variant.object v }) L := by
    rw [FreeList_iff]
    refine ⟨(List.nodup_cons.1 hnd).2, { front with var := Variant.hole { next_hole := n } }, n,
      ?_, rfl, ?_⟩
    · rw [List.getElem?_set_ne hi0, List.getElem?_set_self (by omega)]
    · apply Linked_congr L (s.data k) _ n _ hl1
      intro j hj
      have hj0 : j ≠ 0 := (Linked_mem L (s.data k) n hl1 j hj).1
      have hji : j ≠ n0 := by
        rintro rfl
        exact (List.nodup_cons.1 hnd).1 hj
      rw [List.getElem?_set_ne (Ne.symm hji), List.getElem?_set_ne (Ne.symm hj0)]
  have hslot1 : (((s.data k).set 0 { front with var := Variant.hole { next_hole := n } }).set
      n0 { references := 2, var := Variant.object v })[n0]? =
      some { references := 2, var := Variant.object v } := by
    rw [List.getElem?_set_self (by simpa using hilt)]
  have hpos : 0 < n0 := Nat.pos_of_ne_zero hi0
  refine ⟨_, _, hcreate, rfl, hpos, ?_, ⟨e, he, (isObject_false_iff e).2 ⟨n, hn⟩⟩, ?_, ?_, ?_, ?_, ?_⟩
  · unfold capacity
    rw [if_neg (by omega)]
    omega
  · unfold capacity
    rw [hdata]
    simp only [List.length_set]
  · rw [hdata]
    exact hfl1
  · intro fuel hfuel
    constructor
    · exact free_capacity_loop_freeList (s.data k) (n0 :: L) fuel hfl hu32
        (by simpa using hfuel)
    · unfold free_capacity
      rw [hdata]
      exact free_capacity_loop_freeList _ L fuel hfl1
        (fun j hj => hu32 j (List.mem_cons_of_mem _ hj)) (by omega)
  · simp only [OHandle.operator_arrow, OHandle.viaStore, hpos, if_true, Get, hdata, hslot1]
    rfl
  · simp only [OHandle.operator_star, OHandle.viaStore, hpos, if_true, Get, hdata, hslot1]
    rfl


/-- C5: with a well-formed, non-empty free list `i :: L` for kind `k` (whose links are
`uint32_t` values), `Create` returns a handle whose index is the head `i`, a hole index in
`1..capacity`; the capacity is unchanged, the free list becomes `L` so that `free_capacity`
drops from `L.length + 1` to `L.length`, and dereferencing the handle yields the new value. -/
theorem create_reuses_free_list_head (k : κ) (v : T k) (s : ObjectStorage κ T) (i : Nat)
    (L : List Nat) (hfl : FreeList (s.data k) (i :: L))
    (hu32 : ∀ j ∈ i :: L, j < 4294967296) :
    ∃ h s1, Create k v s = Except.ok (h, s1) ∧
      h.index = i ∧ 1 ≤ i ∧ i ≤ capacity k s ∧
      (∃ e, slot s k i = some e ∧ e.IsObject = false) ∧
      capacity k s1 = capacity k s ∧
      FreeList (s1.data k) L ∧
      (∀ fuel, L.length + 1 < fuel →
        free_capacity fuel k s = Except.ok (L.length + 1) ∧
        free_capacity fuel k s1 = Except.ok L.length) ∧
      h.operator_arrow s1 = Except.ok (some v) ∧ h.operator_star s1 = Except.ok (some v) :=
  Create_reuse_freeList k v s i L hfl hu32

end Claims

section Claims
variable {κ : Type} [DecidableEq κ] {T : κ → Type}

theorem sweptStore_freeList : FreeList (sweptStore.data ()) [2] :=
  ⟨by decide, rfl, by decide, rfl⟩

theorem create_reuses_free_list_head_witness :
    ∃ h s1, Create () 9 sweptStore = Except.ok (h, s1) ∧ h.index = 2 ∧
      capacity () s1 = capacity () sweptStore ∧
      free_capacity 2 () sweptStore = Except.ok 1 ∧ free_capacity 2 () s1 = Except.ok 0 ∧
      h.operator_arrow s1 = Except.ok (some 9) := by
  obtain ⟨h, s1, hc, hi, _, _, _, hcap, _, hfree, harrow, _⟩ :=
    create_reuses_free_list_head () (9 : Nat) sweptStore 2 [] sweptStore_freeList (by decide)
  exact ⟨h, s1, hc, hi, hcap, (hfree 2 (by decide)).1, (hfree 2 (by decide)).2, harrow⟩

end Claims
section CreateCases
variable {κ : Type} [DecidableEq κ] {T : κ → Type}

/-- A successful `Create` took the grow branch or the reuse branch. -/
theorem Create_cases (k : κ) (v : T k) (s : ObjectStorage κ T) (h : OHandle κ k)
    (s1 : ObjectStorage κ T) (hc : Create k v s = Except.ok (h, s1)) :
    (∃ front e, slot s k 0 = some front ∧ front.var = Variant.hole { next_hole := 0 } ∧
      ((s.data k) ++ [({ references := 0, var := Variant.object v } : ObjectOrHole (T k))])[
        (s.data k).length % 4294967296]? = some e ∧
      h = { objectStore := true, index := (s.data k).length % 4294967296 } ∧
      s1 = ({ s with _hasChanged := true } : ObjectStorage κ T).setVec k
        (((s.data k) ++ [({ references := 0, var := Variant.object v } :
          ObjectOrHole (T k))]).set ((s.data k).length % 4294967296)
            { e with references := (e.references + 1) % 65536 })) ∨
    (∃ front e i n, slot s k 0 = some front ∧ front.var = Variant.hole { next_hole := i } ∧
      i ≠ 0 ∧ slot s k i = some e ∧ e.var = Variant.hole { next_hole := n } ∧
      h = { objectStore := true, index := i } ∧
      s1 = ({ s with _hasChanged := true } : ObjectStorage κ T).setVec k
        (((s.data k).set 0 { front with var := Variant.hole { next_hole := n } }).set i
          { references := 2, var := Variant.object v })) := by
  cases hfront : slot s k 0 with
  | none =>
    have hget : (s.data k)[0]? = none := hfront
    simp [Create, hget] at hc
  | some front =>
    have hget : (s.data k)[0]? = some front := hfront
    cases hnext : front.gNextHole with
    | error f => simp [Create, hget, hnext] at hc
    | ok i =>
      have hi := (gNextHole_ok_iff front i).1 hnext
      by_cases hi0 : i = 0
      · subst hi0
        obtain ⟨e, he, hcreate⟩ := Create_grow k v s front hfront hi
        rw [hcreate] at hc
        injection hc with hc
        injection hc with hh hs
        exact Or.inl ⟨front, e, rfl, hi, he, hh.symm, hs.symm⟩
      · cases hslot : slot s k i with
        | none =>
          have hgeti : (s.data k)[i]? = none := hslot
          simp [Create, hget, hnext, hi0, hgeti] at hc
        | some e =>
          have hgeti : (s.data k)[i]? = some e := hslot
          cases hnext2 : e.gNextHole with
          | error f => simp [Create, hget, hnext, hi0, hgeti, hnext2] at hc
          | ok n =>
            have hn := (gNextHole_ok_iff e n).1 hnext2
            rw [Create_reuse k v s front e i n hfront hi hi0 hslot hn] at hc
            injection hc with hc
            injection hc with hh hs
            exact Or.inr ⟨front, e, i, n, rfl, hi, hi0, hslot, hn, hh.symm, hs.symm⟩

end CreateCases

section KeptFacts
variable {κ : Type} [DecidableEq κ] {T : κ → Type}

theorem ObjectsKept.refl (s : ObjectStorage κ T) : ObjectsKept s s :=
  fun _ _ e _ he hx => ⟨e, he, hx⟩

theorem ObjectsKept.trans {s s1 s2 : ObjectStorage κ T} (h1 : ObjectsKept s s1)
    (h2 : ObjectsKept s1 s2) : ObjectsKept s s2 := by
  intro k j e x he hx
  obtain ⟨e1, he1, hx1⟩ := h1 k j e x he hx
  exact h2 k j e1 x he1 hx1

/-- Replacing one slot by a slot with the same variant keeps the objects. -/
theorem ObjectsKept_of_frame (s s1 : ObjectStorage κ T) (k : κ) (i : Nat)
    (e e1 : ObjectOrHole (T k)) (hi : slot s k i = some e) (hi1 : slot s1 k i = some e1)
    (hvar : ∀ x, e.var = Variant.object x → e1.var = Variant.object x)
    (hframe : ∀ j, j ≠ i → slot s1 k j = slot s k j)
    (hother : ∀ k', k' ≠ k → s1.data k' = s.data k') : ObjectsKept s s1 := by
  intro k' j e' x he' hx
  by_cases hk : k' = k
  · subst hk
    by_cases hj : j = i
    · subst hj
      rw [hi] at he'
      injection he' with he'
      subst he'
      exact ⟨e1, hi1, hvar x hx⟩
    · exact ⟨e', by rw [hframe j hj]; exact he', hx⟩
  · refine ⟨e', ?_, hx⟩
    unfold slot
    rw [hother k' hk]
    exact he'

theorem RegisterReference_kept {k : κ} (h : OHandle κ k) (s s1 : ObjectStorage κ T)
    (hr : RegisterReference h s = Except.ok s1) : ObjectsKept s s1 := by
  cases he : slot s k h.index with
  | none =>
    have hget : (s.data k)[h.index]? = none := he
    simp [RegisterReference, hget] at hr
  | some e =>
    obtain ⟨s2, hreg, _, hslot, hframe, hother⟩ := RegisterReference_slot h s he
    rw [hreg] at hr
    injection hr with hr
    subst hr
    exact ObjectsKept_of_frame s s2 k h.index e _ he hslot (fun x hx => hx) hframe hother

theorem DeregisterReference_kept {k : κ} (h : OHandle κ k) (s s1 : ObjectStorage κ T)
    (hr : DeregisterReference h s = Except.ok s1) : ObjectsKept s s1 := by
  cases he : slot s k h.index with
  | none =>
    have hget : (s.data k)[h.index]? = none := he
    simp [DeregisterReference, hget] at hr
  | some e =>
    obtain ⟨s2, hreg, _, hslot, hframe, hother⟩ := DeregisterReference_slot h s he
    rw [hreg] at hr
    injection hr with hr
    subst hr
    exact ObjectsKept_of_frame s s2 k h.index e _ he hslot (fun x hx => hx) hframe hother

theorem viaStore_ok {k : κ} {α : Type} (h : OHandle κ k) (f : Except Fault α) (a : α)
    (hv : h.viaStore f = Except.ok a) : f = Except.ok a := by
  unfold OHandle.viaStore at hv
  split at hv
  · exact hv
  · cases hv

theorem Create_kept (k : κ) (v : T k) (s : ObjectStorage κ T) (h : OHandle κ k)
    (s1 : ObjectStorage κ T) (hc : Create k v s = Except.ok (h, s1)) : ObjectsKept s s1 := by
  rcases Create_cases k v s h s1 hc with
    ⟨front, e, hfront, hn, he, _, hs1⟩ | ⟨front, e, i, n, hfront, hi, hi0, he, hn, _, hs1⟩
  · intro k' j e' x he' hx
    by_cases hk : k' = k
    · subst hk
      have hget : (s.data k')[j]? = some e' := he'
      have hjlt : j < (s.data k').length := by
        rcases List.getElem?_eq_some.1 hget with ⟨hlt, _⟩
        exact hlt
      have happ : ((s.data k') ++ [({ references := 0, var := Variant.object v } :
          ObjectOrHole (T k'))])[j]? = some e' := by
        rw [List.getElem?_append_left hjlt]
        exact hget
      rw [hs1, slot_setVec_same]
      by_cases hj : (s.data k').length % 4294967296 = j
      · rw [hj] at he ⊢
        rw [happ] at he
        injection he with he
        subst he
        refine ⟨_, List.getElem?_set_self (by simp; omega), hx⟩
      · rw [List.getElem?_set_ne hj]
        exact ⟨e', happ, hx⟩
    · refine ⟨e', ?_, hx⟩
      rw [hs1, slot_setVec_ne _ _ hk]
      exact he'
  · intro k' j e' x he' hx
    by_cases hk : k' = k
    · subst hk
      have hj0 : 0 ≠ j := by
        rintro rfl
        rw [hfront] at he'
        injection he' with he'
        subst he'
        rw [hi] at hx
        cases hx
      have hji : i ≠ j := by
        rintro rfl
        rw [he] at he'
        injection he' with he'
        subst he'
        rw [hn] at hx
        cases hx
      refine ⟨e', ?_, hx⟩
      rw [hs1, slot_setVec_same, List.getElem?_set_ne hji, List.getElem?_set_ne hj0]
      exact he'
    · refine ⟨e', ?_, hx⟩
      rw [hs1, slot_setVec_ne _ _ hk]
      exact he'

/-- `Create` returns whenever the free list of the kind is well formed. -/
theorem Create_total (k : κ) (v : T k) (s : ObjectStorage κ T) (L : List Nat)
    (hfl : FreeList (s.data k) L) : ∃ h s1, Create k v s = Except.ok (h, s1) := by
  obtain ⟨_, front, n0, hfront, hn0, hl⟩ := (FreeList_iff (s.data k) L).1 hfl
  cases L with
  | nil =>
    have h0 : n0 = 0 := hl
    subst h0
    obtain ⟨e, _, hcreate⟩ := Create_grow k v s front hfront hn0
    exact ⟨_, _, hcreate⟩
  | cons i L =>
    obtain ⟨h1, hi0, e, n, he, hn, _⟩ := (Linked_cons_iff (s.data k) n0 i L).1 hl
    subst h1
    exact ⟨_, _, Create_reuse k v s front e n0 n hfront hn0 hi0 he hn⟩

variable {k : κ}

theorem OHandle.create_kept (i : Nat) (s : ObjectStorage κ T) (h : OHandle κ k)
    (s1 : ObjectStorage κ T) (hc : OHandle.create k i s = Except.ok (h, s1)) :
    ObjectsKept s s1 := by
  unfold OHandle.create at hc
  cases hr : RegisterReference ({ objectStore := true, index := i } : OHandle κ k) s with
  | error f => simp [hr] at hc
  | ok s2 =>
    simp only [hr] at hc
    injection hc with hc
    injection hc with _ hs
    subst hs
    exact RegisterReference_kept _ s s2 hr

theorem OHandle.destroy_kept (h : OHandle κ k) (s s1 : ObjectStorage κ T)
    (hd : h.destroy s = Except.ok s1) : ObjectsKept s s1 := by
  unfold OHandle.destroy at hd
  split at hd
  · exact DeregisterReference_kept h s s1 (viaStore_ok h _ _ hd)
  · injection hd with hd
    subst hd
    exact ObjectsKept.refl s

theorem OHandle.copy_kept (h c : OHandle κ k) (s s1 : ObjectStorage κ T)
    (hc : h.copy s = Except.ok (c, s1)) : ObjectsKept s s1 := by
  unfold OHandle.copy at hc
  simp only at hc
  split at hc
  · split at hc
    · cases hc
    · rename_i s2 hv
      injection hc with hc
      injection hc with _ hs
      subst hs
      exact RegisterReference_kept _ s s2 (viaStore_ok _ _ _ hv)
  · injection hc with hc
    injection hc with _ hs
    subst hs
    exact ObjectsKept.refl s

theorem OHandle.move_kept (h c r : OHandle κ k) (s s1 : ObjectStorage κ T)
    (hc : h.move s = Except.ok (c, r, s1)) : ObjectsKept s s1 := by
  unfold OHandle.move at hc
  simp only at hc
  split at hc
  · split at hc
    · cases hc
    · rename_i s2 hv
      injection hc with hc
      injection hc with _ hs
      injection hs with _ hs
      subst hs
      exact RegisterReference_kept _ s s2 (viaStore_ok _ _ _ hv)
  · injection hc with hc
    injection hc with _ hs
    injection hs with _ hs
    subst hs
    exact ObjectsKept.refl s

theorem OHandle.assign_kept (lhs rhs c : OHandle κ k) (s s1 : ObjectStorage κ T)
    (hc : lhs.assign rhs s = Except.ok (c, s1)) : ObjectsKept s s1 := by
  unfold OHandle.assign at hc
  split at hc
  · cases hc
  · rename_i s2 hd
    have h1 : ObjectsKept s s2 := OHandle.destroy_kept lhs s s2 hd
    simp only at hc
    split at hc
    · split at hc
      · cases hc
      · rename_i s3 hv
        injection hc with hc
        injection hc with _ hs
        subst hs
        exact h1.trans (RegisterReference_kept _ s2 s3 (viaStore_ok _ _ _ hv))
    · injection hc with hc
      injection hc with _ hs
      subst hs
      exact h1

theorem OHandle.moveAssign_kept (lhs rhs c r : OHandle κ k) (s s1 : ObjectStorage κ T)
    (hc : lhs.moveAssign rhs s = Except.ok (c, r, s1)) : ObjectsKept s s1 := by
  unfold OHandle.moveAssign at hc
  split at hc
  · cases hc
  · rename_i s2 hd
    have h1 : ObjectsKept s s2 := OHandle.destroy_kept lhs s s2 hd
    simp only at hc
    split at hc
    · split at hc
      · cases hc
      · rename_i s3 hv
        injection hc with hc
        injection hc with _ hs
        injection hs with _ hs
        subst hs
        exact h1.trans (RegisterReference_kept _ s2 s3 (viaStore_ok _ _ _ hv))
    · injection hc with hc
      injection hc with _ hs
      injection hs with _ hs
      subst hs
      exact h1

end KeptFacts

section RunFacts
variable {κ : Type} [DecidableEq κ] {T : κ → Type}

/-- Registering a reference changes no vector length and no variant. -/
theorem RegisterReference_vars {k : κ} (h : OHandle κ k) (s s1 : ObjectStorage κ T)
    (hr : RegisterReference h s = Except.ok s1) (k' : κ) :
    (s1.data k').length = (s.data k').length ∧
      ∀ j, (slot s1 k' j).map (fun e => e.var) = (slot s k' j).map (fun e => e.var) := by
  cases he : slot s k h.index with
  | none =>
    have hget : (s.data k)[h.index]? = none := he
    simp [RegisterReference, hget] at hr
  | some e =>
    obtain ⟨s2, hreg, hs2, hslot, hframe, hother⟩ := RegisterReference_slot h s he
    rw [hreg] at hr
    injection hr with hr
    subst hr
    by_cases hk : k' = k
    · subst hk
      constructor
      · rw [hs2, data_setVec_same, List.length_set]
      · intro j
        by_cases hj : j = h.index
        · rw [hj, hslot, he]
          simp only [Option.map_some']
        · rw [hframe j hj]
    · unfold slot
      rw [hother k' hk]
      exact ⟨rfl, fun _ => rfl⟩

theorem DeregisterReference_vars {k : κ} (h : OHandle κ k) (s s1 : ObjectStorage κ T)
    (hr : DeregisterReference h s = Except.ok s1) (k' : κ) :
    (s1.data k').length = (s.data k').length ∧
      ∀ j, (slot s1 k' j).map (fun e => e.var) = (slot s k' j).map (fun e => e.var) := by
  cases he : slot s k h.index with
  | none =>
    have hget : (s.data k)[h.index]? = none := he
    simp [DeregisterReference, hget] at hr
  | some e =>
    obtain ⟨s2, hreg, hs2, hslot, hframe, hother⟩ := DeregisterReference_slot h s he
    rw [hreg] at hr
    injection hr with hr
    subst hr
    by_cases hk : k' = k
    · subst hk
      constructor
      · rw [hs2, data_setVec_same, List.length_set]
      · intro j
        by_cases hj : j = h.index
        · rw [hj, hslot, he]
          simp only [Option.map_some']
        · rw [hframe j hj]
    · unfold slot
      rw [hother k' hk]
      exact ⟨rfl, fun _ => rfl⟩

theorem NoFreeSlot_of_vars {U : Type} (vec vec1 : ObjectOrHoleVector U)
    (h : (vec1[0]?).map (fun e => e.var) = (vec[0]?).map (fun e => e.var))
    (hn : NoFreeSlot vec) : NoFreeSlot vec1 := by
  obtain ⟨front, hfront, hvar⟩ := hn
  rw [hfront] at h
  cases h1 : vec1[0]? with
  | none => simp [h1] at h
  | some front1 =>
    simp only [h1, Option.map_some', Option.some.injEq] at h
    exact ⟨front1, h1, h.trans hvar⟩

theorem NoFreeSlot_freeList {U : Type} (vec : ObjectOrHoleVector U) (hn : NoFreeSlot vec) :
    FreeList vec [] := by
  obtain ⟨front, hfront, hvar⟩ := hn
  exact (FreeList_iff vec []).2 ⟨List.nodup_nil, front, 0, hfront, hvar, rfl⟩

theorem free_capacity_of_noFreeSlot (k : κ) (s : ObjectStorage κ T)
    (hn : NoFreeSlot (s.data k)) (fuel : Nat) (hfuel : 0 < fuel) :
    free_capacity fuel k s = Except.ok 0 :=
  free_capacity_loop_freeList (s.data k) [] fuel (NoFreeSlot_freeList _ hn)
    (fun _ hj => by cases hj) hfuel

/-- The grow branch of `Create` on a vector whose length fits 32 bits. -/
theorem Create_grow_small (k : κ) (v : T k) (s : ObjectStorage κ T)
    (hn : NoFreeSlot (s.data k)) (hlen : (s.data k).length < 4294967296) :
    Create k v s = Except.ok
      ({ objectStore := true, index := (s.data k).length },
        ({ s with _hasChanged := true } : ObjectStorage κ T).setVec k
          ((s.data k) ++ [{ references := 1, var := Variant.object v }])) := by
  obtain ⟨front, hfront, hvar⟩ := hn
  obtain ⟨e, he, hcreate⟩ := Create_grow k v s front hfront hvar
  rw [Nat.mod_eq_of_lt hlen] at he hcreate
  rw [List.getElem?_append_right (Nat.le_refl _)] at he
  simp only [Nat.sub_self, List.getElem?_cons_zero, Option.some.injEq] at he
  subst he
  rw [hcreate]
  congr 3
  rw [List.set_append_right _ _ (Nat.le_refl _)]
  simp

end RunFacts

section RunNoClean
variable {κ : Type} [DecidableEq κ] [Fintype κ] {T : κ → Type}

theorem Create_grow_shape (k : κ) (v : T k) (s : ObjectStorage κ T) (h : OHandle κ k)
    (s1 : ObjectStorage κ T) (hn : NoFreeSlot (s.data k))
    (hc : Create k v s = Except.ok (h, s1)) :
    h.index = (s.data k).length % 4294967296 ∧
      (s1.data k).length = (s.data k).length + 1 ∧ NoFreeSlot (s1.data k) ∧
      ∀ k', k' ≠ k → s1.data k' = s.data k' := by
  obtain ⟨front, hfront, hvar⟩ := hn
  obtain ⟨e, he, hcreate⟩ := Create_grow k v s front hfront hvar
  rw [hcreate] at hc
  injection hc with hc
  injection hc with hh hs
  subst hh
  subst hs
  have hpos : 0 < (s.data k).length := by
    rcases List.getElem?_eq_some.1 hfront with ⟨hl, _⟩
    exact hl
  refine ⟨rfl, ?_, ?_, fun k' hk' => data_setVec_ne _ _ hk'⟩
  · rw [data_setVec_same]
    simp
  · rw [data_setVec_same]
    have happ : ((s.data k) ++ [({ references := 0, var := Variant.object v } :
        ObjectOrHole (T k))])[0]? = some front := by
      rw [List.getElem?_append_left hpos]
      exact hfront
    by_cases h0 : (s.data k).length % 4294967296 = 0
    · rw [h0] at he ⊢
      rw [happ] at he
      injection he with he
      subst he
      exact ⟨_, List.getElem?_set_self (by simp), hvar⟩
    · exact ⟨front, by rw [List.getElem?_set_ne h0]; exact happ, hvar⟩

theorem step_noClean (op : Op κ T) (s : ObjectStorage κ T) (out : Option (Sigma (OHandle κ)))
    (s1 : ObjectStorage κ T) (hop : op.isClean = false) (hs : step op s = Except.ok (out, s1))
    (hinv : ∀ k, NoFreeSlot (s.data k)) (k : κ) :
    NoFreeSlot (s1.data k) ∧
      (s1.data k).length = (s.data k).length + (if op.isCreate k = true then 1 else 0) ∧
      createdIndices k out.toList =
        if op.isCreate k = true then [(s.data k).length % 4294967296] else [] := by
  cases op with
  | create k0 v =>
    simp only [step] at hs
    cases hc : Create k0 v s with
    | error f => simp [hc] at hs
    | ok p =>
      obtain ⟨h, s2⟩ := p
      simp only [hc, Except.ok.injEq, Prod.mk.injEq] at hs
      obtain ⟨hout, hs2⟩ := hs
      subst hout
      subst hs2
      obtain ⟨hidx, hlen, hnf, hother⟩ := Create_grow_shape k0 v s h s2 (hinv k0) hc
      by_cases hk : k0 = k
      · subst hk
        refine ⟨hnf, ?_, ?_⟩
        · simp [Op.isCreate, hlen]
        · simp [Op.isCreate, createdIndices, hidx]
      · have hk' : k ≠ k0 := fun h => hk h.symm
        rw [hother k hk']
        refine ⟨hinv k, ?_, ?_⟩
        · simp [Op.isCreate, hk]
        · simp [Op.isCreate, createdIndices, hk]
  | register k0 i =>
    simp only [step] at hs
    cases hc : RegisterReference ({ objectStore := true, index := i } : OHandle κ k0) s with
    | error f => simp [hc] at hs
    | ok s2 =>
      simp only [hc, Except.ok.injEq, Prod.mk.injEq] at hs
      obtain ⟨hout, hs2⟩ := hs
      subst hout
      subst hs2
      obtain ⟨hlen, hvars⟩ := RegisterReference_vars _ s s2 hc k
      exact ⟨NoFreeSlot_of_vars _ _ (hvars 0) (hinv k), by simp [Op.isCreate, hlen],
        by simp [Op.isCreate, createdIndices]⟩
  | deregister k0 i =>
    simp only [step] at hs
    cases hc : DeregisterReference ({ objectStore := true, index := i } : OHandle κ k0) s with
    | error f => simp [hc] at hs
    | ok s2 =>
      simp only [hc, Except.ok.injEq, Prod.mk.injEq] at hs
      obtain ⟨hout, hs2⟩ := hs
      subst hout
      subst hs2
      obtain ⟨hlen, hvars⟩ := DeregisterReference_vars _ s s2 hc k
      exact ⟨NoFreeSlot_of_vars _ _ (hvars 0) (hinv k), by simp [Op.isCreate, hlen],
        by simp [Op.isCreate, createdIndices]⟩
  | clean => simp [Op.isClean] at hop

theorem createdIndices_append (k : κ) (a b : List (Sigma (OHandle κ))) :
    createdIndices k (a ++ b) = createdIndices k a ++ createdIndices k b := by
  simp [createdIndices, List.filterMap_append]

theorem creations_cons (k : κ) (op : Op κ T) (ops : List (Op κ T)) :
    creations k (op :: ops) = (if op.isCreate k = true then 1 else 0) + creations k ops := by
  unfold creations
  by_cases h : op.isCreate k = true
  · simp [List.filter_cons, h]
    omega
  · simp [List.filter_cons, h]

/-- Without `Clean`, every `Create` appends: the vectors grow by the number of creations and
the returned indices are the successive lengths, truncated to 32 bits. -/
theorem run_noClean : ∀ (ops : List (Op κ T)) (s : ObjectStorage κ T)
    (outs : List (Sigma (OHandle κ))) (s1 : ObjectStorage κ T),
    (∀ op ∈ ops, op.isClean = false) → run ops s = Except.ok (outs, s1) →
    (∀ k, NoFreeSlot (s.data k)) →
    ∀ k, NoFreeSlot (s1.data k) ∧
      (s1.data k).length = (s.data k).length + creations k ops ∧
      createdIndices k outs =
        (List.range' (s.data k).length (creations k ops)).map (fun i => i % 4294967296)
  | [], s, outs, s1, _, hrun, hinv, k => by
    simp only [run, Except.ok.injEq, Prod.mk.injEq] at hrun
    obtain ⟨ho, hs⟩ := hrun
    subst ho
    subst hs
    exact ⟨hinv k, by simp [creations], by simp [creations, createdIndices]⟩
  | op :: ops, s, outs, s1, hno, hrun, hinv, k => by
    simp only [run] at hrun
    cases hst : step op s with
    | error f => simp [hst] at hrun
    | ok p =>
      obtain ⟨out, s2⟩ := p
      simp only [hst] at hrun
      cases hr : run ops s2 with
      | error f => simp [hr] at hrun
      | ok q =>
        obtain ⟨outs2, s3⟩ := q
        simp only [hr, Except.ok.injEq, Prod.mk.injEq] at hrun
        obtain ⟨ho, hs⟩ := hrun
        subst ho
        subst hs
        have hstep := step_noClean op s out s2 (hno op (List.mem_cons_self op ops)) hst hinv
        obtain ⟨hnf, hlen, hidx⟩ := run_noClean ops s2 outs2 s3
          (fun o ho => hno o (List.mem_cons_of_mem op ho)) hr (fun k' => (hstep k').1) k
        obtain ⟨_, hlen1, hidx1⟩ := hstep k
        refine ⟨hnf, ?_, ?_⟩
        · rw [hlen, hlen1, creations_cons]
          omega
        · rw [createdIndices_append, hidx, hidx1, hlen1, creations_cons]
          by_cases hc : op.isCreate k = true
          · simp only [hc, if_true]
            rw [Nat.add_comm 1 (creations k ops), List.range'_succ]
            simp
          · simp only [hc, if_false]
            simp

end RunNoClean

section RunCreates
variable {κ : Type} [DecidableEq κ] [Fintype κ] {T : κ → Type}

theorem new_noFreeSlot (k : κ) : NoFreeSlot ((ObjectStorage.new : ObjectStorage κ T).data k) :=
  ⟨{}, rfl, rfl⟩

theorem creations_map_create (k : κ) (vs : List (T k)) :
    creations k (vs.map (Op.create k) : List (Op κ T)) = vs.length := by
  induction vs with
  | nil => rfl
  | cons v vs ih =>
    rw [List.map_cons, creations_cons, ih]
    simp [Op.isCreate]
    omega

theorem map_create_noClean (k : κ) (vs : List (T k)) :
    ∀ op ∈ (vs.map (Op.create k) : List (Op κ T)), op.isClean = false := by
  intro op hop
  obtain ⟨v, _, rfl⟩ := List.mem_map.1 hop
  rfl

theorem run_creates_total (k : κ) : ∀ (vs : List (T k)) (s : ObjectStorage κ T),
    (∀ k', NoFreeSlot (s.data k')) →
    ∃ outs s1, run (vs.map (Op.create k)) s = Except.ok (outs, s1)
  | [], s, _ => ⟨[], s, rfl⟩
  | v :: vs, s, hinv => by
    obtain ⟨h, s2, hc⟩ := Create_total k v s [] (NoFreeSlot_freeList _ (hinv k))
    have hst : step (Op.create k v) s = Except.ok (some ⟨k, h⟩, s2) := by
      simp only [step, hc]
    have hinv2 := fun k' => (step_noClean (Op.create k v) s _ s2 rfl hst hinv k').1
    obtain ⟨outs, s1, hr⟩ := run_creates_total k vs s2 hinv2
    refine ⟨(some (⟨k, h⟩ : Sigma (OHandle κ))).toList ++ outs, s1, ?_⟩
    simp only [List.map_cons, run, hst, hr]

theorem map_mod_range' (n : Nat) (hn : n < 4294967296) :
    (List.range' 1 n).map (fun i => i % 4294967296) = List.range' 1 n := by
  have h : ∀ i ∈ List.range' 1 n, (fun i => i % 4294967296) i = id i := by
    intro i hi
    rw [List.mem_range'_1] at hi
    exact Nat.mod_eq_of_lt (by omega)
  rw [List.map_congr_left h, List.map_id]

end RunCreates

section Claims
variable {κ : Type} [DecidableEq κ] [Fintype κ] {T : κ → Type}

/-- The effect of a sequence of calls without `Clean` on a fresh store, and the totality of
sequences of `Create` calls. -/
theorem run_from_new (k : κ) :
    (∀ (ops : List (Op κ T)) (outs : List (Sigma (OHandle κ))) (s : ObjectStorage κ T),
      (∀ op ∈ ops, op.isClean = false) →
      run ops (ObjectStorage.new : ObjectStorage κ T) = Except.ok (outs, s) →
      capacity k s = creations k ops ∧
      (∀ fuel, 0 < fuel → free_capacity fuel k s = Except.ok 0) ∧
      createdIndices k outs =
        (List.range' 1 (creations k ops)).map (fun i => i % 4294967296) ∧
      (creations k ops < 4294967296 →
        createdIndices k outs = List.range' 1 (creations k ops))) ∧
    (∀ vs : List (T k), ∃ outs s,
      run (vs.map (Op.create k)) (ObjectStorage.new : ObjectStorage κ T) = Except.ok (outs, s) ∧
      creations k (vs.map (Op.create k) : List (Op κ T)) = vs.length) := by
  constructor
  · intro ops outs s hno hrun
    obtain ⟨hnf, hlen, hidx⟩ := run_noClean ops _ outs s hno hrun new_noFreeSlot k
    have hlen1 : (s.data k).length = 1 + creations k ops := hlen
    have hidx1 : createdIndices k outs =
        (List.range' 1 (creations k ops)).map (fun i => i % 4294967296) := hidx
    refine ⟨?_, fun fuel hfuel => free_capacity_of_noFreeSlot k s hnf fuel hfuel, hidx1, ?_⟩
    · unfold capacity
      rw [if_neg (by omega), hlen1]
      omega
    · intro hsmall
      rw [hidx1, map_mod_range' _ hsmall]
  · intro vs
    obtain ⟨outs, s, hr⟩ := run_creates_total k vs (ObjectStorage.new : ObjectStorage κ T)
      new_noFreeSlot
    exact ⟨outs, s, hr, creations_map_create k vs⟩

/-- C6 (amended): starting from a freshly constructed store, after any sequence of calls
without `Clean` that contains `n` calls of `Create<T>` for the kind `k`, `capacity` is `n`,
`free_capacity` is 0 and the `i`-th of these calls returned the index `i mod 2^32`, which is
`i` as long as `n < 2^32`; and every sequence of `Create<T>` calls does return. -/
theorem create_sequence_capacity (k : κ) :
    (∀ (ops : List (Op κ T)) (outs : List (Sigma (OHandle κ))) (s : ObjectStorage κ T),
      (∀ op ∈ ops, op.isClean = false) →
      run ops (ObjectStorage.new : ObjectStorage κ T) = Except.ok (outs, s) →
      capacity k s = creations k ops ∧
      (∀ fuel, 0 < fuel → free_capacity fuel k s = Except.ok 0) ∧
      createdIndices k outs =
        (List.range' 1 (creations k ops)).map (fun i => i % 4294967296) ∧
      (creations k ops < 4294967296 →
        createdIndices k outs = List.range' 1 (creations k ops))) ∧
    (∀ vs : List (T k), ∃ outs s,
      run (vs.map (Op.create k)) (ObjectStorage.new : ObjectStorage κ T) = Except.ok (outs, s) ∧
      creations k (vs.map (Op.create k) : List (Op κ T)) = vs.length) :=
  run_from_new k

theorem create_sequence_capacity_witness :
    ∃ outs s, run [Op.create () 5, Op.register () 1, Op.create () 6]
        (ObjectStorage.new : NatStore) = Except.ok (outs, s) ∧
      capacity () s = 2 ∧ createdIndices () outs = [1, 2] := by
  obtain ⟨p, hp⟩ := (toBool_eq_true_iff (run [Op.create () 5, Op.register () 1, Op.create () 6]
    (ObjectStorage.new : NatStore))).1 rfl
  obtain ⟨outs, s⟩ := p
  have h := (create_sequence_capacity (T := fun _ => Nat) ()).1
    [Op.create () 5, Op.register () 1, Op.create () 6] outs s (by decide) hp
  exact ⟨outs, s, hp, h.1, h.2.2.2 (by decide)⟩

/-- C6, as stated, fails at `n = 2^32`: the `2^32`-th `Create` on a fresh store returns a
handle with index 0 instead of `2^32`. -/
theorem create_index_wraps :
    ∃ outs s, run ((List.replicate 4294967296 (0 : Nat)).map (Op.create ()))
        (ObjectStorage.new : NatStore) = Except.ok (outs, s) ∧
      capacity () s = 4294967296 ∧
      (createdIndices () outs)[4294967295]? = some 0 ∧
      (List.range' 1 4294967296)[4294967295]? = some 4294967296 := by
  obtain ⟨outs, s, hr, hcount⟩ := (run_from_new (T := fun _ => Nat) ()).2
    (List.replicate 4294967296 (0 : Nat))
  rw [List.length_replicate] at hcount
  obtain ⟨hcap, _, hidx, _⟩ := (run_from_new (T := fun _ => Nat) ()).1 _ outs s
    (map_create_noClean () _) hr
  rw [hcount] at hcap hidx
  have hlt : (4294967295 : Nat) < 4294967296 := by decide
  have hlast : (List.range' 1 4294967296)[4294967295]? = some 4294967296 := by
    rw [List.getElem?_range' 1 1 hlt]
  refine ⟨outs, s, hr, hcap, ?_, hlast⟩
  rw [hidx, List.getElem?_map, hlast]
  rfl

end Claims

section SweepFreeList
variable {U : Type}

theorem reclaimable_succ (vec : ObjectOrHoleVector U) (i n : Nat) :
    reclaimable vec i (n + 1) =
      (if (match vec[i]? with
          | some e => e.IsObject && e.references == 0
          | none => false) = true then [i] else []) ++ reclaimable vec (i + 1) n := by
  unfold reclaimable
  rw [List.range'_succ, List.filter_cons]
  split <;> simp

theorem reclaimable_congr (vec vec1 : ObjectOrHoleVector U) (i n : Nat)
    (h : ∀ j, i ≤ j → j < i + n → vec1[j]? = vec[j]?) :
    reclaimable vec1 i n = reclaimable vec i n := by
  unfold reclaimable
  apply List.filter_congr
  intro j hj
  rw [List.mem_range'_1] at hj
  rw [h j hj.1 hj.2]

theorem mem_reclaimable (vec : ObjectOrHoleVector U) (i n j : Nat) :
    j ∈ reclaimable vec i n ↔
      (i ≤ j ∧ j < i + n) ∧ ∃ e, vec[j]? = some e ∧ e.IsObject = true ∧ e.references = 0 := by
  unfold reclaimable
  rw [List.mem_filter, List.mem_range'_1]
  constructor
  · rintro ⟨hr, hp⟩
    refine ⟨hr, ?_⟩
    cases he : vec[j]? with
    | none => simp [he] at hp
    | some e =>
      simp only [he, Bool.and_eq_true, beq_iff_eq] at hp
      exact ⟨e, rfl, hp.1, hp.2⟩
  · rintro ⟨hr, e, he, ho, hz⟩
    refine ⟨hr, ?_⟩
    simp [he, ho, hz]

/-- The free list after one step of the loop of `Clean`. -/
theorem CleanEntry_freeList (vec vec1 : ObjectOrHoleVector U) (i : Nat) (L : List Nat)
    (h : CleanEntry vec i = Except.ok vec1) (hi : i < 4294967296) (hfl : FreeList vec L) :
    FreeList vec1 (reclaimable vec i 1 ++ L) ∧
      ∀ j, j ≠ 0 → j ≠ i → vec1[j]? = vec[j]? := by
  rcases CleanEntry_inv vec vec1 i h with
    ⟨h1, e, he, hkeep⟩ | ⟨e, front, n, he, hobj, hzero, hi0, hfront, hn, h1⟩
  · rw [h1]
    have hnil : reclaimable vec i 1 = [] := by
      rw [reclaimable_succ]
      rcases hkeep with hk | hk
      · simp [he, hk, reclaimable]
      · simp [he, hk, reclaimable]
    rw [hnil]
    exact ⟨hfl, fun _ _ _ => rfl⟩
  · have hone : reclaimable vec i 1 = [i] := by
      rw [reclaimable_succ]
      simp [he, hobj, hzero, reclaimable]
    rw [hone, Nat.mod_eq_of_lt hi] at *
    obtain ⟨hnd, front0, n0, hfront0, hn0, hl⟩ := (FreeList_iff vec L).1 hfl
    rw [hfront] at hfront0
    injection hfront0 with hfront0
    subst hfront0
    rw [hn] at hn0
    injection hn0 with hn0
    injection hn0 with hn0
    subst hn0
    have hilt : i < vec.length := by
      rcases List.getElem?_eq_some.1 he with ⟨hl, _⟩
      exact hl
    have hnotin : i ∉ L := by
      intro hmem
      obtain ⟨_, e2, he2, hhole⟩ := Linked_mem L vec n hl i hmem
      rw [he] at he2
      injection he2 with he2
      subst he2
      rw [hobj] at hhole
      cases hhole
    have hframe : ∀ j, j ≠ 0 → j ≠ i → vec1[j]? = vec[j]? := by
      intro j hj0 hji
      rw [h1, List.getElem?_set_ne (Ne.symm hj0), List.getElem?_set_ne (Ne.symm hji)]
    refine ⟨?_, hframe⟩
    rw [FreeList_iff]
    refine ⟨List.nodup_cons.2 ⟨hnotin, hnd⟩,
      { front with var := Variant.hole { next_hole := i } }, i, ?_, rfl, ?_⟩
    · rw [h1, List.getElem?_set_self (by simp; omega)]
    · show Linked vec1 i (i :: L)
      rw [Linked_cons_iff]
      refine ⟨rfl, hi0, { e with var := Variant.hole { next_hole := n } }, n, ?_, rfl, ?_⟩
      · rw [h1, List.getElem?_set_ne (Ne.symm hi0), List.getElem?_set_self hilt]
      · apply Linked_congr L vec vec1 n _ hl
        intro j hj
        have hj0 : j ≠ 0 := (Linked_mem L vec n hl j hj).1
        have hji : j ≠ i := by
          rintro rfl
          exact hnotin hj
        exact hframe j hj0 hji

/-- The free list after the loop of `Clean` has visited the positions `i, ..., i + n - 1`:
the reclaimed positions, the last one first, in front of the previous free list. -/
theorem CleanLoop_freeList : ∀ (n i : Nat) (vec vec1 : ObjectOrHoleVector U) (L : List Nat),
    CleanLoop n i vec = Except.ok vec1 → FreeList vec L →
    FreeList vec1 ((reclaimable vec i n).reverse ++ L)
  | 0, i, vec, vec1, L, h, hfl => by
    simp only [CleanLoop] at h
    injection h with h
    subst h
    simpa [reclaimable] using hfl
  | n + 1, i, vec, vec1, L, h, hfl => by
    simp only [CleanLoop] at h
    cases hce : CleanEntry vec i with
    | error f => simp [hce] at h
    | ok vec2 =>
      simp only [hce] at h
      split at h
      · rename_i hsmall
        obtain ⟨hfl2, hframe⟩ := CleanEntry_freeList vec vec2 i L hce (by omega) hfl
        have hrec := CleanLoop_freeList n (i + 1) vec2 vec1 _ h hfl2
        have hcongr : reclaimable vec2 (i + 1) n = reclaimable vec (i + 1) n :=
          reclaimable_congr vec vec2 (i + 1) n
            (fun j hj1 _ => hframe j (by omega) (by omega))
        rw [hcongr] at hrec
        have hsplit : reclaimable vec i (n + 1) =
            reclaimable vec i 1 ++ reclaimable vec (i + 1) n := by
          rw [reclaimable_succ vec i n, reclaimable_succ vec i 0]
          simp [reclaimable]
        rw [hsplit, List.reverse_append, List.append_assoc]
        have hrev : (reclaimable vec i 1).reverse = reclaimable vec i 1 := by
          rw [reclaimable_succ vec i 0]
          split <;> simp [reclaimable]
        rw [hrev]
        exact hrec
      · cases h

end SweepFreeList

section CleanReclaims
variable {κ : Type} [DecidableEq κ] [Fintype κ] {T : κ → Type}

/-- The free list of a kind after `Clean`. -/
theorem Clean_freeList (s s1 : ObjectStorage κ T) (h : Clean s = Except.ok s1) (k : κ)
    (L : List Nat) (hfl : FreeList (s.data k) L) :
    FreeList (s1.data k) ((reclaimable (s.data k) 0 (s.data k).length).reverse ++ L) :=
  CleanLoop_freeList _ 0 (s.data k) (s1.data k) L (((Clean_ok_iff s s1).1 h).1 k) hfl

theorem Clean_length (s s1 : ObjectStorage κ T) (h : Clean s = Except.ok s1) (k : κ) :
    (s1.data k).length = (s.data k).length :=
  CleanLoop_length _ 0 (s.data k) (s1.data k) (((Clean_ok_iff s s1).1 h).1 k)

theorem FreeList_mem_hole {U : Type} (vec : ObjectOrHoleVector U) (L : List Nat)
    (hfl : FreeList vec L) (j : Nat) (hj : j ∈ L) :
    j ≠ 0 ∧ ∃ e, vec[j]? = some e ∧ e.IsObject = false := by
  obtain ⟨_, front, n, _, _, hl⟩ := (FreeList_iff vec L).1 hfl
  exact Linked_mem L vec n hl j hj

/-- An object with counter 0 is a hole after `Clean`. -/
theorem Clean_reclaims (s s1 : ObjectStorage κ T) (h : Clean s = Except.ok s1) (k : κ)
    (L : List Nat) (hfl : FreeList (s.data k) L) (j : Nat) (e : ObjectOrHole (T k))
    (he : slot s k j = some e) (hobj : e.IsObject = true) (hzero : e.references = 0) :
    ∃ e1, slot s1 k j = some e1 ∧ e1.IsObject = false := by
  have hget : (s.data k)[j]? = some e := he
  have hjlt : j < (s.data k).length := by
    rcases List.getElem?_eq_some.1 hget with ⟨hl, _⟩
    exact hl
  have hmem : j ∈ (reclaimable (s.data k) 0 (s.data k).length).reverse ++ L := by
    apply List.mem_append_left
    rw [List.mem_reverse, mem_reclaimable]
    exact ⟨⟨Nat.zero_le j, by omega⟩, e, hget, hobj, hzero⟩
  exact (FreeList_mem_hole _ _ (Clean_freeList s s1 h k L hfl) j hmem).2

end CleanReclaims

section Claims
variable {κ : Type} [DecidableEq κ] [Fintype κ] {T : κ → Type}

/-- In a store whose free lists are well formed, `Create` returns and keeps every `Object`
slot tagged `Object` with its value, and so do `RegisterReference`, `DeregisterReference` and
every construction, copy, move, assignment and destruction of a handle; destroying a handle on
a slot with counter 1 leaves the slot tagged `Object` with counter 0; and `Clean` turns every
`Object` slot with counter 0 into a hole. -/
theorem objects_kept_outside_clean (s : ObjectStorage κ T)
    (hwf : ∀ k, ∃ L, FreeList (s.data k) L) :
    (∀ (k : κ) (v : T k), ∃ h s1, Create k v s = Except.ok (h, s1) ∧ ObjectsKept s s1) ∧
    (∀ (k : κ) (h : OHandle κ k) e, slot s k h.index = some e →
      ∃ s1, RegisterReference h s = Except.ok s1) ∧
    (∀ (k : κ) (h : OHandle κ k) s1, RegisterReference h s = Except.ok s1 → ObjectsKept s s1) ∧
    (∀ (k : κ) (h : OHandle κ k) e, slot s k h.index = some e →
      ∃ s1, DeregisterReference h s = Except.ok s1) ∧
    (∀ (k : κ) (h : OHandle κ k) s1, DeregisterReference h s = Except.ok s1 →
      ObjectsKept s s1) ∧
    (∀ (k : κ) i (h : OHandle κ k) s1, OHandle.create k i s = Except.ok (h, s1) →
      ObjectsKept s s1) ∧
    (∀ (k : κ) (h c : OHandle κ k) s1, h.copy s = Except.ok (c, s1) → ObjectsKept s s1) ∧
    (∀ (k : κ) (h c r : OHandle κ k) s1, h.move s = Except.ok (c, r, s1) → ObjectsKept s s1) ∧
    (∀ (k : κ) (lhs rhs c : OHandle κ k) s1, lhs.assign rhs s = Except.ok (c, s1) →
      ObjectsKept s s1) ∧
    (∀ (k : κ) (lhs rhs c r : OHandle κ k) s1, lhs.moveAssign rhs s = Except.ok (c, r, s1) →
      ObjectsKept s s1) ∧
    (∀ (k : κ) (h : OHandle κ k) s1, h.destroy s = Except.ok s1 → ObjectsKept s s1) ∧
    (∀ (k : κ) (h : OHandle κ k) (x : T k), h.objectStore = true → 0 < h.index →
      slot s k h.index = some { references := 1, var := Variant.object x } →
      ∃ s1, h.destroy s = Except.ok s1 ∧
        slot s1 k h.index = some { references := 0, var := Variant.object x }) ∧
    (∀ s1, Clean s = Except.ok s1 → ∀ (k : κ) j e, slot s k j = some e →
      e.IsObject = true → e.references = 0 →
      ∃ e1, slot s1 k j = some e1 ∧ e1.IsObject = false) := by
  refine ⟨?_, ?_, ?_, ?_, ?_, ?_, ?_, ?_, ?_, ?_, ?_, ?_, ?_⟩
  · intro k v
    obtain ⟨L, hfl⟩ := hwf k
    obtain ⟨h, s1, hc⟩ := Create_total k v s L hfl
    exact ⟨h, s1, hc, Create_kept k v s h s1 hc⟩
  · intro k h e he
    obtain ⟨s1, hr, _⟩ := RegisterReference_slot h s he
    exact ⟨s1, hr⟩
  · intro k h s1 hr
    exact RegisterReference_kept h s s1 hr
  · intro k h e he
    obtain ⟨s1, hr, _⟩ := DeregisterReference_slot h s he
    exact ⟨s1, hr⟩
  · intro k h s1 hr
    exact DeregisterReference_kept h s s1 hr
  · intro k i h s1 hc
    exact OHandle.create_kept i s h s1 hc
  · intro k h c s1 hc
    exact OHandle.copy_kept h c s s1 hc
  · intro k h c r s1 hc
    exact OHandle.move_kept h c r s s1 hc
  · intro k lhs rhs c s1 hc
    exact OHandle.assign_kept lhs rhs c s s1 hc
  · intro k lhs rhs c r s1 hc
    exact OHandle.moveAssign_kept lhs rhs c r s s1 hc
  · intro k h s1 hd
    exact OHandle.destroy_kept h s s1 hd
  · intro k h x hstore hpos hslot
    obtain ⟨s1, hd, _, hslot1, _⟩ := DeregisterReference_slot h s hslot
    refine ⟨s1, ?_, ?_⟩
    · rw [destroy_of_slot h s hstore hpos, hd]
    · have hmod : (1 + 65535) % 65536 = 0 := by decide
      rw [hslot1]
      show some ({ references := (1 + 65535) % 65536, var := Variant.object x } :
        ObjectOrHole (T k)) = _
      rw [hmod]
  · intro s1 hcl k j e he hobj hzero
    obtain ⟨L, hfl⟩ := hwf k
    exact Clean_reclaims s s1 hcl k L hfl j e he hobj hzero

end Claims

section Scenario
variable {κ : Type} [DecidableEq κ] [Fintype κ] {T : κ → Type}

theorem reclaimable_append {U : Type} (vec : ObjectOrHoleVector U) (i m n : Nat) :
    reclaimable vec i (n + m) = reclaimable vec i m ++ reclaimable vec (i + m) n := by
  unfold reclaimable
  rw [← List.range'_append_1, List.filter_append]

theorem reclaimable_eq_nil {U : Type} (vec : ObjectOrHoleVector U) (i n : Nat)
    (h : ∀ j e, i ≤ j → j < i + n → vec[j]? = some e →
      e.IsObject = false ∨ e.references ≠ 0) : reclaimable vec i n = [] := by
  rw [List.eq_nil_iff_forall_not_mem]
  intro j hj
  obtain ⟨⟨h1, h2⟩, e, he, hobj, hzero⟩ := (mem_reclaimable vec i n j).1 hj
  rcases h j e h1 h2 he with hk | hk
  · rw [hobj] at hk
    cases hk
  · exact hk hzero

/-- A sequence of `Create<T>` calls on a vector without free slot whose final length fits 32
bits: the returned handles and the final store. -/
theorem run_creates_small (k : κ) : ∀ (vs : List (T k)) (s : ObjectStorage κ T),
    NoFreeSlot (s.data k) → (s.data k).length + vs.length ≤ 4294967296 →
    ∃ s1, run (vs.map (Op.create k)) s = Except.ok
        ((List.range' (s.data k).length vs.length).map
          (fun i => (⟨k, { objectStore := true, index := i }⟩ : Sigma (OHandle κ))), s1) ∧
      s1.data k = s.data k ++ vs.map (fun v => { references := 1, var := Variant.object v }) ∧
      ∀ k', k' ≠ k → s1.data k' = s.data k'
  | [], s, _, _ => ⟨s, rfl, by simp, fun _ _ => rfl⟩
  | v :: vs, s, hn, hlen => by
    simp only [List.length_cons] at hlen
    have hc := Create_grow_small k v s hn (by omega)
    have hst : step (Op.create k v) s = Except.ok
        (some ⟨k, { objectStore := true, index := (s.data k).length }⟩,
          ({ s with _hasChanged := true } : ObjectStorage κ T).setVec k
            ((s.data k) ++ [{ references := 1, var := Variant.object v }])) := by
      simp only [step, hc]
    obtain ⟨front, hfront, hvar⟩ := hn
    have hpos : 0 < (s.data k).length := by
      rcases List.getElem?_eq_some.1 hfront with ⟨hl, _⟩
      exact hl
    have hn2 : NoFreeSlot ((({ s with _hasChanged := true } : ObjectStorage κ T).setVec k
        ((s.data k) ++ [{ references := 1, var := Variant.object v }])).data k) := by
      rw [data_setVec_same]
      exact ⟨front, by rw [List.getElem?_append_left hpos]; exact hfront, hvar⟩
    obtain ⟨s1, hr, hdata, hother⟩ := run_creates_small k vs _ hn2
      (by rw [data_setVec_same]; simp; omega)
    rw [data_setVec_same] at hr hdata
    refine ⟨s1, ?_, ?_, ?_⟩
    · simp only [List.map_cons, run, hst, hr, List.length_cons, List.length_append,
        List.length_singleton, List.range'_succ, Option.toList, List.singleton_append,
        List.length_nil, Nat.zero_add, List.map_cons]
    · rw [hdata]
      simp
    · intro k' hk'
      rw [hother k' hk']
      exact data_setVec_ne _ _ hk'

theorem created_slot (U : Type) (vs : List U) (front : ObjectOrHole U) (j : Nat)
    (h1 : 1 ≤ j) (h2 : j ≤ vs.length) :
    ∃ x, ([front] ++ vs.map (fun v => { references := 1, var := Variant.object v }))[j]? =
      some ({ references := 1, var := Variant.object x } : ObjectOrHole U) := by
  have hlt : j - 1 < vs.length := by omega
  refine ⟨vs[j - 1], ?_⟩
  rw [List.getElem?_append_right (by simpa using h1)]
  simp only [List.length_singleton, List.getElem?_map]
  rw [List.getElem?_eq_getElem hlt]
  rfl

end Scenario

section Claims
variable {κ : Type} [DecidableEq κ] [Fintype κ] {T : κ → Type}

/-- C9: on a fresh store, 100 `Create` calls for the kind `k` return handles with the indices
1..100, each reporting one reference; after destroying the handle with index 100 and calling
`Clean`, the capacity is 100 and the free capacity 1; one more `Create` returns a handle with
index 100 and leaves the free capacity 0. -/
theorem end_to_end_scenario (k : κ) (val : Nat → T k) (w : T k) :
    ∃ s1, run (((List.range 100).map val).map (Op.create k))
        (ObjectStorage.new : ObjectStorage κ T) = Except.ok
          ((List.range' 1 100).map
            (fun i => (⟨k, { objectStore := true, index := i }⟩ : Sigma (OHandle κ))), s1) ∧
      (∀ i, 1 ≤ i → i ≤ 100 →
        OHandle.num_references ({ objectStore := true, index := i } : OHandle κ k) s1 =
          Except.ok 1) ∧
      ∃ s2, OHandle.destroy ({ objectStore := true, index := 100 } : OHandle κ k) s1 =
          Except.ok s2 ∧
      ∃ s3, Clean s2 = Except.ok s3 ∧ capacity k s3 = 100 ∧
        (∀ fuel, 1 < fuel → free_capacity fuel k s3 = Except.ok 1) ∧
      ∃ h s4, Create k w s3 = Except.ok (h, s4) ∧ h.index = 100 ∧
        (∀ fuel, 0 < fuel → free_capacity fuel k s4 = Except.ok 0) := by
  have hvs : ((List.range 100).map val).length = 100 := by
    rw [List.length_map, List.length_range]
  have hnew : ∀ k', (ObjectStorage.new : ObjectStorage κ T).data k' = [{}] := fun _ => rfl
  obtain ⟨s1, hr, hdata, hother⟩ := run_creates_small k ((List.range 100).map val)
    (ObjectStorage.new : ObjectStorage κ T) (new_noFreeSlot k) (by rw [hvs, hnew]; simp)
  rw [hvs, hnew] at hr
  rw [hnew] at hdata
  have hlen1 : (s1.data k).length = 101 := by
    rw [hdata, List.length_append, List.length_map, hvs]
    rfl
  have hslot1 : ∀ i, 1 ≤ i → i ≤ 100 →
      ∃ x, slot s1 k i = some { references := 1, var := Variant.object x } := by
    intro i h1 h2
    unfold slot
    rw [hdata]
    exact created_slot (T k) _ {} i h1 (by rw [hvs]; exact h2)
  have hfront1 : slot s1 k 0 = some {} := by
    unfold slot
    rw [hdata]
    rfl
  refine ⟨s1, hr, ?_, ?_⟩
  · intro i h1 h2
    obtain ⟨x, hx⟩ := hslot1 i h1 h2
    exact num_references_of_slot ({ objectStore := true, index := i } : OHandle κ k) s1 rfl h1 hx
  obtain ⟨x, hx⟩ := hslot1 100 (by decide) (Nat.le_refl _)
  obtain ⟨s2, hd, hs2, hslot2, hframe2, hother2⟩ := DeregisterReference_slot
    ({ objectStore := true, index := 100 } : OHandle κ k) s1 hx
  have hmod : (1 + 65535) % 65536 = 0 := by decide
  have hslot2' : slot s2 k 100 = some { references := 0, var := Variant.object x } := by
    rw [hslot2]
    show some ({ references := (1 + 65535) % 65536, var := Variant.object x } :
      ObjectOrHole (T k)) = _
    rw [hmod]
  have hlen2 : (s2.data k).length = 101 := by
    rw [hs2, data_setVec_same, List.length_set, hlen1]
  have hfront2 : slot s2 k 0 = some {} := by
    rw [hframe2 0 (by show (0 : Nat) ≠ 100; decide), hfront1]
  have hnf2 : NoFreeSlot (s2.data k) := ⟨{}, hfront2, rfl⟩
  have hsweep : ∀ k', Sweepable (s2.data k') := by
    intro k'
    by_cases hk : k' = k
    · subst hk
      exact ⟨⟨{}, hfront2, rfl⟩, by rw [hlen2]; decide⟩
    · rw [hother2 k' hk, hother k' hk, hnew]
      exact ⟨⟨{}, rfl, rfl⟩, by simp⟩
  refine ⟨s2, by rw [destroy_of_slot _ s1 rfl (by show 0 < 100; decide), hd], ?_⟩
  obtain ⟨s3, hcl⟩ := Clean_total s2 hsweep
  have hrec : reclaimable (s2.data k) 0 (s2.data k).length = [100] := by
    rw [hlen2, show (101 : Nat) = 1 + 100 from rfl, reclaimable_append,
      reclaimable_eq_nil (s2.data k) 0 100, reclaimable_succ]
    · have h100 : (s2.data k)[0 + 100]? =
          some { references := 0, var := Variant.object x } := hslot2'
      simp [h100, ObjectOrHole.IsObject, reclaimable]
    · intro j e _ hj he
      by_cases hj0 : j = 0
      · subst hj0
        have he0 : slot s2 k 0 = some e := he
        rw [hfront2] at he0
        injection he0 with he0
        subst he0
        exact Or.inl rfl
      · obtain ⟨y, hy⟩ := hslot1 j (by omega) (by omega)
        have hej : slot s2 k j = some e := he
        rw [hframe2 j (by show j ≠ 100; omega), hy] at hej
        injection hej with hej
        subst hej
        exact Or.inr (by show (1 : Nat) ≠ 0; decide)
  have hfl3 : FreeList (s3.data k) [100] := by
    have h := Clean_freeList s2 s3 hcl k [] (NoFreeSlot_freeList _ hnf2)
    rw [hrec] at h
    exact h
  have hlen3 : (s3.data k).length = 101 := by
    rw [Clean_length s2 s3 hcl k, hlen2]
  have hu32 : ∀ j ∈ [100], j < 4294967296 := by
    intro j hj
    rw [List.mem_singleton] at hj
    subst hj
    decide
  refine ⟨s3, hcl, ?_, ?_, ?_⟩
  · unfold capacity
    rw [hlen3]
    rfl
  · intro fuel hfuel
    exact free_capacity_loop_freeList (s3.data k) [100] fuel hfl3 hu32 hfuel
  · obtain ⟨h, s4, hc, hi, _, _, _, _, hfl4, _⟩ :=
      Create_reuse_freeList k w s3 100 [] hfl3 hu32
    exact ⟨h, s4, hc, hi, fun fuel hfuel =>
      free_capacity_loop_freeList (s4.data k) [] fuel hfl4 (fun _ hj => by cases hj) hfuel⟩

end Claims

section CounterFacts
variable {κ : Type} [DecidableEq κ] {T : κ → Type}

/-- A handle created in a freshly appended slot reports one reference. -/
theorem Create_grow_num_references (k : κ) (v : T k) (s : ObjectStorage κ T)
    (hn : NoFreeSlot (s.data k)) (hlen : (s.data k).length < 4294967296) :
    ∃ h s1, Create k v s = Except.ok (h, s1) ∧ h.index = (s.data k).length ∧
      h.num_references s1 = Except.ok 1 := by
  have hpos : 0 < (s.data k).length := by
    obtain ⟨front, hfront, _⟩ := hn
    rcases List.getElem?_eq_some.1 hfront with ⟨hl, _⟩
    exact hl
  refine ⟨_, _, Create_grow_small k v s hn hlen, rfl, ?_⟩
  have hslot : slot (({ s with _hasChanged := true } : ObjectStorage κ T).setVec k
      ((s.data k) ++ [{ references := 1, var := Variant.object v }])) k (s.data k).length =
      some { references := 1, var := Variant.object v } := by
    rw [slot_setVec_same, List.getElem?_append_right (Nat.le_refl _)]
    simp
  exact num_references_of_slot
    ({ objectStore := true, index := (s.data k).length } : OHandle κ k) _ rfl hpos hslot

/-- A handle created in a slot taken from the free list reports two references: the slot's
counter is set to 1 and the handle constructor registers one more. -/
theorem Create_reuse_num_references (k : κ) (v : T k) (s : ObjectStorage κ T) (i : Nat)
    (L : List Nat) (hfl : FreeList (s.data k) (i :: L)) :
    ∃ h s1, Create k v s = Except.ok (h, s1) ∧ h.index = i ∧
      slot s1 k i = some { references := 2, var := Variant.object v } ∧
      h.num_references s1 = Except.ok 2 := by
  obtain ⟨hnd, front, n0, hfront, hn0, hl⟩ := (FreeList_iff (s.data k) (i :: L)).1 hfl
  obtain ⟨h1, hi0, e, n, he, hn, hl1⟩ := (Linked_cons_iff (s.data k) n0 i L).1 hl
  subst h1
  have hilt : n0 < (s.data k).length := by
    rcases List.getElem?_eq_some.1 he with ⟨h, _⟩
    exact h
  have hslot : slot (({ s with _hasChanged := true } : ObjectStorage κ T).setVec k
      (((s.data k).set 0 { front with var := Variant.hole { next_hole := n } }).set n0
        { references := 2, var := Variant.object v })) k n0 =
      some { references := 2, var := Variant.object v } := by
    rw [slot_setVec_same, List.getElem?_set_self (by simpa using hilt)]
  exact ⟨_, _, Create_reuse k v s front e n0 n hfront hn0 hi0 he hn, rfl, hslot,
    num_references_of_slot ({ objectStore := true, index := n0 } : OHandle κ k) _ rfl
      (Nat.pos_of_ne_zero hi0) hslot⟩

end CounterFacts

section Claims

/-- C1, the failing input: a fresh store creates an object (its handle reports 1 reference),
the handle is destroyed and `Clean` puts slot 1 on the free list; the next `Create` takes slot 1
from the free list, and the handle it returns reports 2 references, not 1. -/
theorem create_in_reused_slot_reports_two :
    ∃ h1 s1 s2 s3 h2 s4,
      Create () 7 (ObjectStorage.new : NatStore) = Except.ok (h1, s1) ∧
      h1.num_references s1 = Except.ok 1 ∧
      h1.destroy s1 = Except.ok s2 ∧ Clean s2 = Except.ok s3 ∧
      FreeList (s3.data ()) [1] ∧ free_capacity 2 () s3 = Except.ok 1 ∧
      Create () 9 s3 = Except.ok (h2, s4) ∧ h2.index = 1 ∧
      h2.operator_arrow s4 = Except.ok (some 9) ∧
      h2.num_references s4 = Except.ok 2 := by
  refine ⟨_, _, _, _, _, _, rfl, rfl, rfl, rfl, ?_, rfl, rfl, rfl, rfl, rfl⟩
  exact ⟨by decide, rfl, by decide, rfl⟩

/-- C3, the failing input: after create, destroy, `Clean` and a second create (which reuses
slot 1), the free list is empty and the one object has exactly one live handle; destroying that
handle and calling `Clean` leaves the free capacity 0, not 1: the counter of the reused slot
is 1 after the destruction and the slot is not reclaimed. -/
theorem reused_slot_is_not_reclaimed :
    ∃ h1 s1 s2 s3 h2 s4 s5 s6,
      Create () 7 (ObjectStorage.new : NatStore) = Except.ok (h1, s1) ∧
      h1.destroy s1 = Except.ok s2 ∧ Clean s2 = Except.ok s3 ∧
      Create () 9 s3 = Except.ok (h2, s4) ∧
      FreeList (s4.data ()) [] ∧ free_capacity 2 () s4 = Except.ok 0 ∧ capacity () s4 = 1 ∧
      h2.destroy s4 = Except.ok s5 ∧ Clean s5 = Except.ok s6 ∧
      slot s6 () 1 = some { references := 1, var := Variant.object 9 } ∧
      capacity () s6 = 1 ∧ FreeList (s6.data ()) [] ∧ free_capacity 2 () s6 = Except.ok 0 := by
  refine ⟨_, _, _, _, _, _, _, _, rfl, rfl, rfl, rfl, ?_, rfl, rfl, rfl, rfl, rfl, rfl, ?_, rfl⟩
  · exact ⟨List.nodup_nil, rfl⟩
  · exact ⟨List.nodup_nil, rfl⟩

end Claims

section VarFacts
variable {U : Type}

theorem isObject_of_var (e e1 : ObjectOrHole U) (h : e1.var = e.var) :
    e1.IsObject = e.IsObject := by
  unfold ObjectOrHole.IsObject
  rw [h]

theorem slot_of_vars (vec vec1 : ObjectOrHoleVector U) (j : Nat) (e : ObjectOrHole U)
    (h : (vec1[j]?).map (fun e : ObjectOrHole U => e.var) = (vec[j]?).map (fun e : ObjectOrHole U => e.var))
    (he : vec[j]? = some e) : ∃ e1, vec1[j]? = some e1 ∧ e1.var = e.var := by
  rw [he] at h
  cases h1 : vec1[j]? with
  | none => simp [h1] at h
  | some e1 =>
    simp only [h1, Option.map_some', Option.some.injEq] at h
    exact ⟨e1, rfl, h⟩

theorem Linked_of_vars : ∀ (L : List Nat) (vec vec1 : ObjectOrHoleVector U) (link : Nat),
    (∀ j : Nat, (vec1[j]?).map (fun e : ObjectOrHole U => e.var) = (vec[j]?).map (fun e : ObjectOrHole U => e.var)) →
    Linked vec link L → Linked vec1 link L
  | [], _, _, _, _, h => h
  | i :: L, vec, vec1, link, hv, h => by
    obtain ⟨h1, hi0, e, n, he, hn, hl⟩ := (Linked_cons_iff vec link i L).1 h
    obtain ⟨e1, he1, hvar⟩ := slot_of_vars vec vec1 i e (hv i) he
    exact (Linked_cons_iff vec1 link i L).2
      ⟨h1, hi0, e1, n, he1, hvar.trans hn, Linked_of_vars L vec vec1 n hv hl⟩

theorem FreeList_of_vars (vec vec1 : ObjectOrHoleVector U) (L : List Nat)
    (hv : ∀ j : Nat, (vec1[j]?).map (fun e : ObjectOrHole U => e.var) = (vec[j]?).map (fun e : ObjectOrHole U => e.var))
    (h : FreeList vec L) : FreeList vec1 L := by
  obtain ⟨hnd, front, n, hfront, hn, hl⟩ := (FreeList_iff vec L).1 h
  obtain ⟨front1, hfront1, hvar⟩ := slot_of_vars vec vec1 0 front (hv 0) hfront
  exact (FreeList_iff vec1 L).2
    ⟨hnd, front1, n, hfront1, hvar.trans hn, Linked_of_vars L vec vec1 n hv hl⟩

theorem ArenaInv_of_vars (vec vec1 : ObjectOrHoleVector U) (L : List Nat)
    (hv : ∀ j : Nat, (vec1[j]?).map (fun e : ObjectOrHole U => e.var) = (vec[j]?).map (fun e : ObjectOrHole U => e.var))
    (h : ArenaInv vec L) : ArenaInv vec1 L := by
  obtain ⟨hfl, hlinks, hobj⟩ := h
  refine ⟨FreeList_of_vars vec vec1 L hv hfl, hlinks, ?_⟩
  intro j e1 hj he1 hnot
  obtain ⟨e, he, hvar⟩ := slot_of_vars vec1 vec j e1 (hv j).symm he1
  rw [← isObject_of_var e1 e hvar]
  exact hobj j e hj he hnot

theorem vars_set_same (l : List (ObjectOrHole U)) (i : Nat) (e e1 : ObjectOrHole U)
    (he : l[i]? = some e) (hvar : e1.var = e.var) (j : Nat) :
    ((l.set i e1)[j]?).map (fun e : ObjectOrHole U => e.var) = (l[j]?).map (fun e : ObjectOrHole U => e.var) := by
  by_cases hj : i = j
  · subst hj
    rw [getElem?_set_self_of_some l i e e1 he, he]
    simp only [Option.map_some', hvar]
  · rw [List.getElem?_set_ne hj]

theorem freeList_nil_of_head (vec : ObjectOrHoleVector U) (L : List Nat)
    (front : ObjectOrHole U) (hfront : vec[0]? = some front)
    (hn : front.var = Variant.hole { next_hole := 0 }) (hfl : FreeList vec L) : L = [] := by
  obtain ⟨_, front1, n, hfront1, hn1, hl⟩ := (FreeList_iff vec L).1 hfl
  rw [hfront] at hfront1
  injection hfront1 with hfront1
  subst hfront1
  rw [hn] at hn1
  injection hn1 with hn1
  injection hn1 with hn1
  subst hn1
  cases L with
  | nil => rfl
  | cons i L =>
    obtain ⟨h1, hi0, _⟩ := (Linked_cons_iff vec 0 i L).1 hl
    exact absurd h1.symm hi0

theorem freeList_cons_of_head (vec : ObjectOrHoleVector U) (L : List Nat)
    (front : ObjectOrHole U) (i : Nat) (hfront : vec[0]? = some front)
    (hn : front.var = Variant.hole { next_hole := i }) (hi0 : i ≠ 0) (hfl : FreeList vec L) :
    ∃ L1, L = i :: L1 := by
  obtain ⟨_, front1, n, hfront1, hn1, hl⟩ := (FreeList_iff vec L).1 hfl
  rw [hfront] at hfront1
  injection hfront1 with hfront1
  subst hfront1
  rw [hn] at hn1
  injection hn1 with hn1
  injection hn1 with hn1
  subst hn1
  cases L with
  | nil => exact absurd hl hi0
  | cons j L =>
    obtain ⟨h1, _⟩ := (Linked_cons_iff vec i j L).1 hl
    exact ⟨L, by rw [h1]⟩

theorem ArenaInv_append (vec : ObjectOrHoleVector U) (v : U) (h : ArenaInv vec []) :
    ArenaInv (vec ++ [{ references := 0, var := Variant.object v }]) [] := by
  obtain ⟨hfl, _, hobj⟩ := h
  obtain ⟨hnd, front, n, hfront, hn, hl⟩ := (FreeList_iff vec []).1 hfl
  have hpos : 0 < vec.length := by
    rcases List.getElem?_eq_some.1 hfront with ⟨h, _⟩
    exact h
  refine ⟨(FreeList_iff _ []).2 ⟨hnd, front, n, ?_, hn, hl⟩, ?_, ?_⟩
  · rw [List.getElem?_append_left hpos]
    exact hfront
  · intro j hj
    cases hj
  · intro j e hj he _
    by_cases hlt : j < vec.length
    · rw [List.getElem?_append_left hlt] at he
      exact hobj j e hj he (by simp)
    · rw [List.getElem?_append_right (by omega)] at he
      cases hk : j - vec.length with
      | zero =>
        rw [hk] at he
        simp only [List.getElem?_cons_zero, Option.some.injEq] at he
        rw [← he]
        rfl
      | succ m =>
        rw [hk] at he
        simp at he

end VarFacts

section StepInv
variable {κ : Type} [DecidableEq κ] {T : κ → Type}

theorem Create_other (k : κ) (v : T k) (s : ObjectStorage κ T) (h : OHandle κ k)
    (s1 : ObjectStorage κ T) (hc : Create k v s = Except.ok (h, s1)) (k' : κ) (hk : k' ≠ k) :
    s1.data k' = s.data k' := by
  rcases Create_cases k v s h s1 hc with
    ⟨_, _, _, _, _, _, hs1⟩ | ⟨_, _, _, _, _, _, _, _, _, _, hs1⟩
  · rw [hs1]
    exact data_setVec_ne _ _ hk
  · rw [hs1]
    exact data_setVec_ne _ _ hk

/-- `Create` keeps the invariant of the vector of its kind. -/
theorem Create_inv (k : κ) (v : T k) (s : ObjectStorage κ T) (h : OHandle κ k)
    (s1 : ObjectStorage κ T) (hc : Create k v s = Except.ok (h, s1)) (L : List Nat)
    (hinv : ArenaInv (s.data k) L) : ∃ L1, ArenaInv (s1.data k) L1 := by
  rcases Create_cases k v s h s1 hc with
    ⟨front, e, hfront, hn, he, _, hs1⟩ | ⟨front, e, i, n, hfront, hi, hi0, he, hn, _, hs1⟩
  · have hnil := freeList_nil_of_head (s.data k) L front hfront hn hinv.1
    subst hnil
    refine ⟨[], ?_⟩
    rw [hs1, data_setVec_same]
    exact ArenaInv_of_vars _ _ [] (vars_set_same _ _ e _ he rfl) (ArenaInv_append _ v hinv)
  · obtain ⟨L1, hL⟩ := freeList_cons_of_head (s.data k) L front i hfront hi hi0 hinv.1
    subst hL
    obtain ⟨hfl, hlinks, hobj⟩ := hinv
    obtain ⟨h2, s2, hc2, _, _, _, _, _, hfl2, _⟩ := Create_reuse_freeList k v s i L1 hfl
      (fun j hj => by have := hlinks j hj; omega)
    rw [hc] at hc2
    injection hc2 with hc2
    injection hc2 with _ hs2
    subst hs2
    refine ⟨L1, hfl2, fun j hj => hlinks j (List.mem_cons_of_mem i hj), ?_⟩
    intro j e1 hj he1 hnot
    have hilt : i < (s.data k).length := by
      rcases List.getElem?_eq_some.1 he with ⟨hl, _⟩
      exact hl
    rw [hs1, data_setVec_same] at he1
    by_cases hji : i = j
    · subst hji
      rw [List.getElem?_set_self (by simpa using hilt)] at he1
      injection he1 with he1
      rw [← he1]
      rfl
    · rw [List.getElem?_set_ne hji, List.getElem?_set_ne (by omega)] at he1
      refine hobj j e1 hj he1 ?_
      intro hmem
      rcases List.mem_cons.1 hmem with h1 | h1
      · exact hji h1.symm
      · exact hnot h1

theorem CleanLoop_bound {U : Type} : ∀ (n i : Nat) (vec vec1 : ObjectOrHoleVector U),
    CleanLoop n i vec = Except.ok vec1 → 0 < n → i + n < 2147483648
  | 0, _, _, _, _, hn => by cases hn
  | n + 1, i, vec, vec1, h, _ => by
    simp only [CleanLoop] at h
    cases hce : CleanEntry vec i with
    | error f => simp [hce] at h
    | ok vec2 =>
      simp only [hce] at h
      split at h
      · rename_i hsmall
        cases n with
        | zero => omega
        | succ m =>
          have := CleanLoop_bound (m + 1) (i + 1) vec2 vec1 h (Nat.succ_pos m)
          omega
      · cases h

/-- The loop of `Clean` keeps the invariant of the vector. -/
theorem CleanVector_inv {U : Type} (vec vec1 : ObjectOrHoleVector U) (L : List Nat)
    (h : CleanVector vec = Except.ok vec1) (hinv : ArenaInv vec L) :
    ArenaInv vec1 ((reclaimable vec 0 vec.length).reverse ++ L) := by
  obtain ⟨hfl, hlinks, hobj⟩ := hinv
  have hlen : vec1.length = vec.length := CleanLoop_length _ 0 vec vec1 h
  refine ⟨CleanLoop_freeList _ 0 vec vec1 L h hfl, ?_, ?_⟩
  · intro j hj
    rcases List.mem_append.1 hj with hj | hj
    · rw [List.mem_reverse, mem_reclaimable] at hj
      have hb := CleanLoop_bound vec.length 0 vec vec1 h (by omega)
      omega
    · exact hlinks j hj
  · intro j e1 hj he1 hnot
    have hjlt : j < vec.length := by
      rcases List.getElem?_eq_some.1 he1 with ⟨hl, _⟩
      omega
    have he : vec[j]? = some vec[j] := List.getElem?_eq_getElem hjlt
    have hnotL : j ∉ L := fun hm => hnot (List.mem_append_right _ hm)
    have hob : vec[j].IsObject = true := hobj j _ hj he hnotL
    have hrefs : vec[j].references ≠ 0 := by
      intro hz
      apply hnot
      apply List.mem_append_left
      rw [List.mem_reverse, mem_reclaimable]
      exact ⟨⟨Nat.zero_le j, by omega⟩, _, he, hob, hz⟩
    obtain ⟨x, hx⟩ := (isObject_true_iff _).1 hob
    have hshape : vec[j]? = some { references := vec[j].references, var := Variant.object x } := by
      rw [he, ← hx]
    have hkeep := CleanLoop_keeps _ 0 vec vec1 j _ x h hshape hrefs
    rw [hkeep] at he1
    injection he1 with he1
    rw [← he1]
    rfl

end StepInv

section RunInv
variable {κ : Type} [DecidableEq κ] [Fintype κ] {T : κ → Type}

theorem new_inv (k : κ) : ArenaInv ((ObjectStorage.new : ObjectStorage κ T).data k) [] := by
  refine ⟨⟨List.nodup_nil, rfl⟩, ?_, ?_⟩
  · intro j hj
    cases hj
  intro j e hj he _
  have hdata : (ObjectStorage.new : ObjectStorage κ T).data k = [{}] := rfl
  rw [hdata] at he
  rcases List.getElem?_eq_some.1 he with ⟨hl, _⟩
  simp at hl
  omega

/-- Every call keeps the invariant of every vector. -/
theorem step_inv (op : Op κ T) (s : ObjectStorage κ T) (out : Option (Sigma (OHandle κ)))
    (s1 : ObjectStorage κ T) (hs : step op s = Except.ok (out, s1))
    (hinv : ∀ k, ∃ L, ArenaInv (s.data k) L) : ∀ k, ∃ L, ArenaInv (s1.data k) L := by
  intro k
  obtain ⟨L, hL⟩ := hinv k
  cases op with
  | create k0 v =>
    simp only [step] at hs
    cases hc : Create k0 v s with
    | error f => simp [hc] at hs
    | ok p =>
      obtain ⟨h, s2⟩ := p
      simp only [hc, Except.ok.injEq, Prod.mk.injEq] at hs
      obtain ⟨_, hs2⟩ := hs
      subst hs2
      by_cases hk : k = k0
      · subst hk
        exact Create_inv k v s h s2 hc L hL
      · rw [Create_other k0 v s h s2 hc k hk]
        exact ⟨L, hL⟩
  | register k0 i =>
    simp only [step] at hs
    cases hc : RegisterReference ({ objectStore := true, index := i } : OHandle κ k0) s with
    | error f => simp [hc] at hs
    | ok s2 =>
      simp only [hc, Except.ok.injEq, Prod.mk.injEq] at hs
      obtain ⟨_, hs2⟩ := hs
      subst hs2
      exact ⟨L, ArenaInv_of_vars _ _ L (RegisterReference_vars _ s s2 hc k).2 hL⟩
  | deregister k0 i =>
    simp only [step] at hs
    cases hc : DeregisterReference ({ objectStore := true, index := i } : OHandle κ k0) s with
    | error f => simp [hc] at hs
    | ok s2 =>
      simp only [hc, Except.ok.injEq, Prod.mk.injEq] at hs
      obtain ⟨_, hs2⟩ := hs
      subst hs2
      exact ⟨L, ArenaInv_of_vars _ _ L (DeregisterReference_vars _ s s2 hc k).2 hL⟩
  | clean =>
    simp only [step] at hs
    cases hc : Clean s with
    | error f => simp [hc] at hs
    | ok s2 =>
      simp only [hc, Except.ok.injEq, Prod.mk.injEq] at hs
      obtain ⟨_, hs2⟩ := hs
      subst hs2
      exact ⟨_, CleanVector_inv _ _ L (((Clean_ok_iff s s2).1 hc).1 k) hL⟩

theorem run_inv : ∀ (ops : List (Op κ T)) (s : ObjectStorage κ T)
    (outs : List (Sigma (OHandle κ))) (s1 : ObjectStorage κ T),
    run ops s = Except.ok (outs, s1) → (∀ k, ∃ L, ArenaInv (s.data k) L) →
    ∀ k, ∃ L, ArenaInv (s1.data k) L
  | [], s, outs, s1, hrun, hinv => by
    simp only [run, Except.ok.injEq, Prod.mk.injEq] at hrun
    obtain ⟨_, hs⟩ := hrun
    subst hs
    exact hinv
  | op :: ops, s, outs, s1, hrun, hinv => by
    simp only [run] at hrun
    cases hst : step op s with
    | error f => simp [hst] at hrun
    | ok p =>
      obtain ⟨out, s2⟩ := p
      simp only [hst] at hrun
      cases hr : run ops s2 with
      | error f => simp [hr] at hrun
      | ok q =>
        obtain ⟨outs2, s3⟩ := q
        simp only [hr, Except.ok.injEq, Prod.mk.injEq] at hrun
        obtain ⟨_, hs⟩ := hrun
        subst hs
        exact run_inv ops s2 outs2 s3 hr (step_inv op s out s2 hst hinv)

/-- The vectors of a reachable store satisfy the invariant. -/
theorem Reachable_inv (s : ObjectStorage κ T) (h : Reachable s) :
    ∀ k, ∃ L, ArenaInv (s.data k) L := by
  obtain ⟨ops, outs, hrun⟩ := h
  exact run_inv ops _ outs s hrun (fun k => ⟨[], new_inv k⟩)

theorem FreeList_sentinel {U : Type} (vec : ObjectOrHoleVector U) (L : List Nat)
    (h : FreeList vec L) : Sentinel vec := by
  obtain ⟨_, front, n, hfront, hn, _⟩ := (FreeList_iff vec L).1 h
  exact ⟨front, hfront, (isObject_false_iff front).2 ⟨n, hn⟩⟩

theorem Reachable_new : Reachable (ObjectStorage.new : ObjectStorage κ T) :=
  ⟨[], [], rfl⟩

end RunInv

section Claims
variable {κ : Type} [DecidableEq κ] [Fintype κ] {T : κ → Type}

/-- C11: in every store reachable from a freshly constructed store by `Create`,
`RegisterReference` / `DeregisterReference` and `Clean` calls, slot 0 of every vector exists
and is tagged `Hole`; so `Get` on a handle with index 0 returns no object. -/
theorem reachable_sentinel_is_hole (s : ObjectStorage κ T) (hr : Reachable s) (k : κ) :
    Sentinel (s.data k) ∧
      (∃ e, slot s k 0 = some e ∧ e.IsObject = false ∧ e.gObject = none) ∧
      ∀ h : OHandle κ k, h.index = 0 → Get h s = Except.ok none := by
  obtain ⟨L, hfl, _⟩ := Reachable_inv s hr k
  obtain ⟨front, hfront, hhole⟩ := FreeList_sentinel _ L hfl
  have hnone : front.gObject = none := by
    obtain ⟨n, hn⟩ := (isObject_false_iff front).1 hhole
    simp [ObjectOrHole.gObject, hn]
  refine ⟨⟨front, hfront, hhole⟩, ⟨front, hfront, hhole, hnone⟩, ?_⟩
  intro h h0
  simp only [Get, h0, hfront, hnone]

theorem reachable_sentinel_is_hole_witness :
    Sentinel ((ObjectStorage.new : NatStore).data ()) ∧
      Get (OHandle.empty : OHandle Unit ()) (ObjectStorage.new : NatStore) = Except.ok none :=
  have h := reachable_sentinel_is_hole (ObjectStorage.new : NatStore) Reachable_new ()
  ⟨h.1, h.2.2 OHandle.empty rfl⟩

end Claims

section Counting
variable {U : Type}

/-- Counting the entries of a list that satisfy `p` is counting the positions that hold such
an entry. -/
theorem countP_eq_filter_range' (p : U → Bool) : ∀ (l : List U) (s : Nat),
    l.countP p = ((List.range' s l.length).filter (fun j => (l[j - s]?).any p)).length
  | [], _ => rfl
  | a :: l, s => by
    have hcongr : (List.range' (s + 1) l.length).filter (fun j => ((a :: l)[j - s]?).any p) =
        (List.range' (s + 1) l.length).filter (fun j => (l[j - (s + 1)]?).any p) := by
      apply List.filter_congr
      intro j hj
      rw [List.mem_range'_1] at hj
      have hsub : j - s = (j - (s + 1)) + 1 := by omega
      rw [hsub, List.getElem?_cons_succ]
    rw [List.length_cons, List.range'_succ, List.filter_cons, List.countP_cons,
      countP_eq_filter_range' p l (s + 1), hcongr]
    simp only [Nat.sub_self, List.getElem?_cons_zero, Option.any_some]
    split <;> simp

/-- The slots of a vector that satisfies the invariant are slot 0, the slots of the free list
and the slots tagged `Object`. -/
theorem ArenaInv_length (vec : ObjectOrHoleVector U) (L : List Nat) (h : ArenaInv vec L) :
    vec.length = 1 + L.length + objectCount vec := by
  obtain ⟨hfl, _, hobj⟩ := h
  obtain ⟨hnd, front, n, hfront, hn, hl⟩ := (FreeList_iff vec L).1 hfl
  have hsplit := List.length_eq_countP_add_countP (p := fun e : ObjectOrHole U => e.IsObject) vec
  have hidx := countP_eq_filter_range'
    (fun e : ObjectOrHole U => decide ¬(e.IsObject = true)) vec 0
  have hnd0 : (0 :: L).Nodup :=
    List.nodup_cons.2 ⟨fun h0 => (Linked_mem L vec n hl 0 h0).1 rfl, hnd⟩
  have hndF : ((List.range' 0 vec.length).filter (fun j => (vec[j - 0]?).any
      (fun e : ObjectOrHole U =>
        decide ¬(e.IsObject = true)))).Nodup :=
    (List.nodup_range' 0 vec.length).filter _
  have hperm := (List.perm_ext_iff_of_nodup hndF hnd0).2 (by
    intro j
    rw [List.mem_filter, List.mem_range'_1, List.mem_cons]
    constructor
    · rintro ⟨⟨_, hlt⟩, hp⟩
      by_cases hj0 : j = 0
      · exact Or.inl hj0
      · right
        by_contra hnot
        have he : vec[j]? = some vec[j] := List.getElem?_eq_getElem (by omega)
        have hob := hobj j _ (Nat.pos_of_ne_zero hj0) he hnot
        simp [he, hob] at hp
    · rintro (rfl | hj)
      · have hlt : 0 < vec.length := by
          rcases List.getElem?_eq_some.1 hfront with ⟨hl0, _⟩
          exact hl0
        refine ⟨⟨Nat.le_refl 0, by omega⟩, ?_⟩
        have hno : front.IsObject = false := (isObject_false_iff front).2 ⟨n, hn⟩
        simp [hfront, hno]
      · obtain ⟨_, e, he, hno⟩ := Linked_mem L vec n hl j hj
        have hlt : j < vec.length := by
          rcases List.getElem?_eq_some.1 he with ⟨hl0, _⟩
          exact hl0
        refine ⟨⟨Nat.zero_le j, by omega⟩, ?_⟩
        simp [he, hno])
  have hlenF := hperm.length_eq
  rw [← hidx, List.length_cons] at hlenF
  unfold objectCount
  have hholes : List.countP (fun a : ObjectOrHole U => decide ¬(fun e : ObjectOrHole U =>
      e.IsObject) a = true) vec = L.length + 1 := by
    rw [← hlenF]
  rw [hholes] at hsplit
  omega

end Counting

section ReachableDemo

theorem Reachable_sweptStore : Reachable sweptStore :=
  ⟨[Op.create () 7, Op.create () 8, Op.deregister () 2, Op.clean],
    [⟨(), { objectStore := true, index := 1 }⟩, ⟨(), { objectStore := true, index := 2 }⟩], rfl⟩

end ReachableDemo

section Claims
variable {κ : Type} [DecidableEq κ] [Fintype κ] {T : κ → Type}

/-- C14: in every reachable store the chain of `next_hole` links from slot 0 of a vector is a
list `L` of pairwise distinct, non-zero, in-bounds indices whose slots are all tagged `Hole`,
and it ends with the link 0; the walk of `free_capacity` returns (its length) with any fuel
above the length of the chain, without reading the link of an `Object` slot. -/
theorem reachable_free_list_walk (s : ObjectStorage κ T) (hr : Reachable s) (k : κ) :
    ∃ L : List Nat, FreeList (s.data k) L ∧ L.Nodup ∧
      (∀ j ∈ L, j ≠ 0 ∧ j < (s.data k).length ∧
        ∃ e, slot s k j = some e ∧ e.IsObject = false) ∧
      ∀ fuel, L.length < fuel → free_capacity fuel k s = Except.ok L.length := by
  obtain ⟨L, hfl, hlinks, _⟩ := Reachable_inv s hr k
  refine ⟨L, hfl, hfl.1, ?_, ?_⟩
  · intro j hj
    obtain ⟨hj0, e, he, hhole⟩ := FreeList_mem_hole _ L hfl j hj
    have hlt : j < (s.data k).length := by
      rcases List.getElem?_eq_some.1 he with ⟨hl, _⟩
      exact hl
    exact ⟨hj0, hlt, e, he, hhole⟩
  · intro fuel hfuel
    exact free_capacity_loop_freeList (s.data k) L fuel hfl
      (fun j hj => by have := hlinks j hj; omega) hfuel

theorem reachable_free_list_walk_witness :
    ∃ L : List Nat, FreeList (sweptStore.data ()) L ∧
      ∀ fuel, L.length < fuel → free_capacity fuel () sweptStore = Except.ok L.length := by
  obtain ⟨L, hfl, _, _, hwalk⟩ := reachable_free_list_walk sweptStore Reachable_sweptStore ()
  exact ⟨L, hfl, hwalk⟩

/-- C15: in every reachable store, every slot of a vector other than slot 0 that is not on the
free list is tagged `Object`, and `capacity` is `free_capacity` (the length of the free list)
plus the number of slots tagged `Object`. -/
theorem reachable_no_lost_hole (s : ObjectStorage κ T) (hr : Reachable s) (k : κ) :
    ∃ L : List Nat, FreeList (s.data k) L ∧
      (∀ j e, 0 < j → slot s k j = some e → j ∉ L → e.IsObject = true) ∧
      (∀ fuel, L.length < fuel → free_capacity fuel k s = Except.ok L.length) ∧
      capacity k s = L.length + objectCount (s.data k) := by
  obtain ⟨L, hinv⟩ := Reachable_inv s hr k
  have hlen := ArenaInv_length (s.data k) L hinv
  obtain ⟨hfl, hlinks, hobj⟩ := hinv
  refine ⟨L, hfl, hobj, ?_, ?_⟩
  · intro fuel hfuel
    exact free_capacity_loop_freeList (s.data k) L fuel hfl
      (fun j hj => by have := hlinks j hj; omega) hfuel
  · unfold capacity
    rw [if_neg (by omega)]
    omega

theorem reachable_no_lost_hole_witness :
    ∃ L : List Nat, FreeList (sweptStore.data ()) L ∧
      capacity () sweptStore = L.length + objectCount (sweptStore.data ()) := by
  obtain ⟨L, hfl, _, _, hcap⟩ := reachable_no_lost_hole sweptStore Reachable_sweptStore ()
  exact ⟨L, hfl, hcap⟩

end Claims

section Frames
variable {κ : Type} [DecidableEq κ] {T : κ → Type}

theorem RegisterReference_other {k : κ} (h : OHandle κ k) (s s1 : ObjectStorage κ T)
    (hr : RegisterReference h s = Except.ok s1) (k' : κ) (hk : k' ≠ k) :
    s1.data k' = s.data k' := by
  cases he : slot s k h.index with
  | none =>
    have hget : (s.data k)[h.index]? = none := he
    simp [RegisterReference, hget] at hr
  | some e =>
    obtain ⟨s2, hreg, _, _, _, hother⟩ := RegisterReference_slot h s he
    rw [hreg] at hr
    injection hr with hr
    subst hr
    exact hother k' hk

theorem DeregisterReference_other {k : κ} (h : OHandle κ k) (s s1 : ObjectStorage κ T)
    (hr : DeregisterReference h s = Except.ok s1) (k' : κ) (hk : k' ≠ k) :
    s1.data k' = s.data k' := by
  cases he : slot s k h.index with
  | none =>
    have hget : (s.data k)[h.index]? = none := he
    simp [DeregisterReference, hget] at hr
  | some e =>
    obtain ⟨s2, hreg, _, _, _, hother⟩ := DeregisterReference_slot h s he
    rw [hreg] at hr
    injection hr with hr
    subst hr
    exact hother k' hk

theorem destroy_other {k : κ} (h : OHandle κ k) (s s1 : ObjectStorage κ T)
    (hd : h.destroy s = Except.ok s1) (k' : κ) (hk : k' ≠ k) : s1.data k' = s.data k' := by
  unfold OHandle.destroy at hd
  split at hd
  · exact DeregisterReference_other h s s1 (viaStore_ok h _ _ hd) k' hk
  · injection hd with hd
    rw [hd]

/-- The loop of `Clean` returns the vector as it is when no object has counter 0. -/
theorem CleanLoop_noop {U : Type} : ∀ (n i : Nat) (vec vec1 : ObjectOrHoleVector U),
    CleanLoop n i vec = Except.ok vec1 →
    (∀ (j : Nat) (e : ObjectOrHole U), vec[j]? = some e → e.IsObject = true →
      e.references ≠ 0) → vec1 = vec
  | 0, _, vec, vec1, h, _ => by
    simp only [CleanLoop] at h
    injection h with h
    exact h.symm
  | n + 1, i, vec, vec1, h, hno => by
    simp only [CleanLoop] at h
    cases hce : CleanEntry vec i with
    | error f => simp [hce] at h
    | ok vec2 =>
      simp only [hce] at h
      split at h
      · rcases CleanEntry_inv vec vec2 i hce with ⟨h2, _⟩ | ⟨e, _, _, he, hobj, hzero, _⟩
        · rw [h2] at h
          exact CleanLoop_noop n (i + 1) vec vec1 h hno
        · exact absurd hzero (hno i e he hobj)
      · cases h

end Frames

section Claims
variable {κ : Type} [DecidableEq κ] [Fintype κ] {T : κ → Type}

/-- C12: `Create`, `RegisterReference` and `DeregisterReference` for the kind `k` leave the
vector of every other kind unchanged; the vector of a kind after `Clean` is the sweep of the
vector of that kind before `Clean`, whatever the other vectors hold; so destroying a handle of
the kind `k` and calling `Clean` leaves `capacity` and `free_capacity` of another kind `u`
unchanged when no object of the kind `u` has counter 0. -/
theorem kinds_are_independent (k : κ) :
    (∀ (v : T k) (s : ObjectStorage κ T) h s1, Create k v s = Except.ok (h, s1) →
      ∀ u, u ≠ k → s1.data u = s.data u) ∧
    (∀ (h : OHandle κ k) (s s1 : ObjectStorage κ T), RegisterReference h s = Except.ok s1 →
      ∀ u, u ≠ k → s1.data u = s.data u) ∧
    (∀ (h : OHandle κ k) (s s1 : ObjectStorage κ T), DeregisterReference h s = Except.ok s1 →
      ∀ u, u ≠ k → s1.data u = s.data u) ∧
    (∀ (s s1 : ObjectStorage κ T), Clean s = Except.ok s1 →
      ∀ u, CleanVector (s.data u) = Except.ok (s1.data u)) ∧
    (∀ (s t s1 t1 : ObjectStorage κ T) (u : κ), Clean s = Except.ok s1 →
      Clean t = Except.ok t1 → s.data u = t.data u → s1.data u = t1.data u) ∧
    (∀ (h : OHandle κ k) (s s1 s2 : ObjectStorage κ T) (u : κ), u ≠ k →
      h.destroy s = Except.ok s1 → Clean s1 = Except.ok s2 →
      (∀ j e, slot s u j = some e → e.IsObject = true → e.references ≠ 0) →
      s2.data u = s.data u ∧ capacity u s2 = capacity u s ∧
        ∀ fuel, free_capacity fuel u s2 = free_capacity fuel u s) := by
  refine ⟨?_, ?_, ?_, ?_, ?_, ?_⟩
  · intro v s h s1 hc u hu
    exact Create_other k v s h s1 hc u hu
  · intro h s s1 hr u hu
    exact RegisterReference_other h s s1 hr u hu
  · intro h s s1 hr u hu
    exact DeregisterReference_other h s s1 hr u hu
  · intro s s1 hc u
    exact ((Clean_ok_iff s s1).1 hc).1 u
  · intro s t s1 t1 u hs ht heq
    have h1 := ((Clean_ok_iff s s1).1 hs).1 u
    have h2 := ((Clean_ok_iff t t1).1 ht).1 u
    rw [heq, h2] at h1
    injection h1 with h1
    exact h1.symm
  · intro h s s1 s2 u hu hd hc hno
    have hsame : s1.data u = s.data u := destroy_other h s s1 hd u hu
    have hclean := ((Clean_ok_iff s1 s2).1 hc).1 u
    rw [hsame] at hclean
    have hdata : s2.data u = s.data u := CleanLoop_noop _ 0 (s.data u) (s2.data u) hclean hno
    refine ⟨hdata, ?_, ?_⟩
    · unfold capacity
      rw [hdata]
    · intro fuel
      unfold free_capacity
      rw [hdata]

theorem kinds_are_independent_witness :
    ∃ s1 s2, twoKindHandle.destroy twoKindDemo = Except.ok s1 ∧ Clean s1 = Except.ok s2 ∧
      capacity false s2 = capacity false twoKindDemo := by
  refine ⟨_, _, rfl, rfl, ?_⟩
  exact ((kinds_are_independent (T := fun _ => Nat) true).2.2.2.2.2 twoKindHandle twoKindDemo
    _ _ false (by decide) rfl rfl (by
      intro j e he hobj
      cases j with
      | zero =>
        have h0 : e = {} := by
          injection he with he
          exact he.symm
        rw [h0] at hobj
        cases hobj
      | succ m => cases he)).2.1

end Claims

section AssignFacts
variable {κ : Type} [DecidableEq κ] {T : κ → Type}

theorem flag_of_register {k : κ} (h : OHandle κ k) (s s1 : ObjectStorage κ T)
    (hr : RegisterReference h s = Except.ok s1) : s1._hasChanged = s._hasChanged := by
  unfold RegisterReference at hr
  split at hr
  · cases hr
  · injection hr with hr
    rw [← hr]
    rfl

theorem flag_of_deregister {k : κ} (h : OHandle κ k) (s s1 : ObjectStorage κ T)
    (hr : DeregisterReference h s = Except.ok s1) : s1._hasChanged = s._hasChanged := by
  unfold DeregisterReference at hr
  split at hr
  · cases hr
  · injection hr with hr
    rw [← hr]
    rfl

/-- Registering and then deregistering a reference on a slot whose counter is below 65535
gives the store back. -/
theorem deregister_register_cancel {k : κ} (h : OHandle κ k) (s : ObjectStorage κ T)
    (e : ObjectOrHole (T k)) (he : slot s k h.index = some e) (h2 : e.references < 65535) :
    ∃ s1, RegisterReference h s = Except.ok s1 ∧
      slot s1 k h.index = some { e with references := e.references + 1 } ∧
      DeregisterReference h s1 = Except.ok s := by
  obtain ⟨s1, hr, _, hslot1, hframe1, hother1⟩ := RegisterReference_slot h s he
  obtain ⟨s2, hd, _, hslot2, hframe2, hother2⟩ := DeregisterReference_slot h s1 hslot1
  have hmod1 : (e.references + 1) % 65536 = e.references + 1 := by omega
  have hmod : ((e.references + 1) % 65536 + 65535) % 65536 = e.references := by omega
  simp only [hmod] at hslot2
  rw [hmod1] at hslot1
  have hback : s2 = s := by
    apply store_ext_of_slots s s2 k
    · rw [flag_of_deregister h s1 s2 hd, flag_of_register h s s1 hr]
    · intro j
      by_cases hj : j = h.index
      · rw [hj, hslot2, he]
      · rw [hframe2 j hj, hframe1 j hj]
    · intro k' hk'
      rw [hother2 k' hk', hother1 k' hk']
  rw [hback] at hd
  exact ⟨s1, hr, hslot1, hd⟩

end AssignFacts

section Claims
variable {κ : Type} [DecidableEq κ] {T : κ → Type}

end Claims

section SweepDetails
variable {U : Type}

theorem CleanEntry_references (vec vec1 : ObjectOrHoleVector U) (i : Nat)
    (h : CleanEntry vec i = Except.ok vec1) (j : Nat) :
    (vec1[j]?).map (fun e : ObjectOrHole U => e.references) =
      (vec[j]?).map (fun e : ObjectOrHole U => e.references) := by
  rcases CleanEntry_inv vec vec1 i h with
    ⟨h1, _⟩ | ⟨e, front, n, he, _, _, hi0, hfront, _, h1⟩
  · rw [h1]
  · have hfront1 : (vec.set i { e with var := Variant.hole { next_hole := n } })[0]? =
        some front := by
      rw [List.getElem?_set_ne hi0]
      exact hfront
    rw [h1]
    by_cases hj0 : 0 = j
    · subst hj0
      rw [getElem?_set_self_of_some _ 0 front _ hfront1, hfront]
      rfl
    · rw [List.getElem?_set_ne hj0]
      by_cases hji : i = j
      · subst hji
        rw [getElem?_set_self_of_some _ i e _ he, he]
        rfl
      · rw [List.getElem?_set_ne hji]

theorem CleanLoop_references : ∀ (n i : Nat) (vec vec1 : ObjectOrHoleVector U),
    CleanLoop n i vec = Except.ok vec1 → ∀ j : Nat,
    (vec1[j]?).map (fun e : ObjectOrHole U => e.references) =
      (vec[j]?).map (fun e : ObjectOrHole U => e.references)
  | 0, _, vec, vec1, h, j => by
    simp only [CleanLoop] at h
    injection h with h
    rw [h]
  | n + 1, i, vec, vec1, h, j => by
    simp only [CleanLoop] at h
    cases hce : CleanEntry vec i with
    | error f => simp [hce] at h
    | ok vec2 =>
      simp only [hce] at h
      split at h
      · rw [CleanLoop_references n (i + 1) vec2 vec1 h j, CleanEntry_references vec vec2 i hce j]
      · cases h

theorem CleanEntry_hole (vec vec1 : ObjectOrHoleVector U) (i : Nat)
    (h : CleanEntry vec i = Except.ok vec1) (j : Nat) (e : ObjectOrHole U)
    (hj : vec[j]? = some e) (hhole : e.IsObject = false) :
    ∃ e1, vec1[j]? = some e1 ∧ e1.IsObject = false := by
  rcases CleanEntry_inv vec vec1 i h with
    ⟨h1, _⟩ | ⟨e0, front, n, he, hobj, _, hi0, hfront, _, h1⟩
  · rw [h1]
    exact ⟨e, hj, hhole⟩
  · have hfront1 : (vec.set i { e0 with var := Variant.hole { next_hole := n } })[0]? =
        some front := by
      rw [List.getElem?_set_ne hi0]
      exact hfront
    have hji : i ≠ j := by
      rintro rfl
      rw [he] at hj
      injection hj with hj
      rw [hj, hhole] at hobj
      cases hobj
    rw [h1]
    by_cases hj0 : 0 = j
    · subst hj0
      exact ⟨_, getElem?_set_self_of_some _ 0 front _ hfront1, rfl⟩
    · rw [List.getElem?_set_ne hj0, List.getElem?_set_ne hji]
      exact ⟨e, hj, hhole⟩

theorem CleanLoop_hole : ∀ (n i : Nat) (vec vec1 : ObjectOrHoleVector U),
    CleanLoop n i vec = Except.ok vec1 → ∀ (j : Nat) (e : ObjectOrHole U),
    vec[j]? = some e → e.IsObject = false → ∃ e1, vec1[j]? = some e1 ∧ e1.IsObject = false
  | 0, _, vec, vec1, h, j, e, hj, hhole => by
    simp only [CleanLoop] at h
    injection h with h
    rw [← h]
    exact ⟨e, hj, hhole⟩
  | n + 1, i, vec, vec1, h, j, e, hj, hhole => by
    simp only [CleanLoop] at h
    cases hce : CleanEntry vec i with
    | error f => simp [hce] at h
    | ok vec2 =>
      simp only [hce] at h
      split at h
      · obtain ⟨e2, he2, hhole2⟩ := CleanEntry_hole vec vec2 i hce j e hj hhole
        exact CleanLoop_hole n (i + 1) vec2 vec1 h j e2 he2 hhole2
      · cases h

theorem reclaimable_pairwise (vec : ObjectOrHoleVector U) (i n : Nat) :
    (reclaimable vec i n).Pairwise (fun a b => a < b) :=
  (List.pairwise_lt_range' i n).filter _

/-- After the sweep of a vector with a well-formed free list no slot is an object with
counter 0. -/
theorem CleanVector_none_left (vec vec1 : ObjectOrHoleVector U) (L : List Nat)
    (h : CleanVector vec = Except.ok vec1) (hfl : FreeList vec L) (j : Nat)
    (e1 : ObjectOrHole U) (he1 : vec1[j]? = some e1) :
    ¬(e1.IsObject = true ∧ e1.references = 0) := by
  rintro ⟨hobj1, hzero1⟩
  have hlen : vec1.length = vec.length := CleanLoop_length _ 0 vec vec1 h
  have hjlt : j < vec.length := by
    rcases List.getElem?_eq_some.1 he1 with ⟨hl, _⟩
    omega
  have he : vec[j]? = some vec[j] := List.getElem?_eq_getElem hjlt
  have hrefs := CleanLoop_references _ 0 vec vec1 h j
  rw [he1, he] at hrefs
  simp only [Option.map_some', Option.some.injEq] at hrefs
  cases hob : vec[j].IsObject with
  | false =>
    obtain ⟨e2, he2, hhole2⟩ := CleanLoop_hole _ 0 vec vec1 h j _ he hob
    rw [he1] at he2
    injection he2 with he2
    rw [he2, hhole2] at hobj1
    cases hobj1
  | true =>
    have hmem : j ∈ (reclaimable vec 0 vec.length).reverse ++ L := by
      apply List.mem_append_left
      rw [List.mem_reverse, mem_reclaimable]
      exact ⟨⟨Nat.zero_le j, by omega⟩, _, he, hob, by rw [← hrefs]; exact hzero1⟩
    obtain ⟨_, e2, he2, hhole2⟩ :=
      FreeList_mem_hole vec1 _ (CleanLoop_freeList _ 0 vec vec1 L h hfl) j hmem
    rw [he1] at he2
    injection he2 with he2
    rw [he2, hhole2] at hobj1
    cases hobj1

end SweepDetails

section Claims
variable {κ : Type} [DecidableEq κ] [Fintype κ] {T : κ → Type}

/-- C16: for a vector with a well-formed free list `L` (of `uint32_t` links), the free list
after `Clean` is the list of the indices of the slots that were tagged `Object` with counter 0,
in descending order, followed by `L`; the highest reclaimed index is the new head, no `Object`
slot with counter 0 remains, `free_capacity` grows by the number of reclaimed slots, the length
of the vector is unchanged and no counter is modified. `Clean` returns when slot 0 of every
vector is a hole and the vectors have fewer than `2^31` slots. -/
theorem clean_free_list_order (s : ObjectStorage κ T) (k : κ) (L : List Nat)
    (hfl : FreeList (s.data k) L) (hu32 : ∀ j ∈ L, j < 4294967296) :
    (∀ j, j ∈ reclaimed s k ↔
      ∃ e, slot s k j = some e ∧ e.IsObject = true ∧ e.references = 0) ∧
    (reclaimed s k).reverse.Pairwise (fun a b => a > b) ∧
    (∀ s1, Clean s = Except.ok s1 →
      FreeList (s1.data k) ((reclaimed s k).reverse ++ L) ∧
      (∀ m, (reclaimed s k).reverse.head? = some m →
        (∃ front, slot s1 k 0 = some front ∧ front.var = Variant.hole { next_hole := m }) ∧
        ∀ j ∈ reclaimed s k, j ≤ m) ∧
      (∀ j e, slot s1 k j = some e → ¬(e.IsObject = true ∧ e.references = 0)) ∧
      (∀ fuel, L.length + (reclaimed s k).length < fuel →
        free_capacity fuel k s = Except.ok L.length ∧
        free_capacity fuel k s1 = Except.ok (L.length + (reclaimed s k).length)) ∧
      (s1.data k).length = (s.data k).length ∧
      (∀ j, (slot s1 k j).map (fun e => e.references) =
        (slot s k j).map (fun e => e.references))) ∧
    ((∀ k', Sweepable (s.data k')) → ∃ s1, Clean s = Except.ok s1) := by
  have hdesc : (reclaimed s k).reverse.Pairwise (fun a b => a > b) := by
    rw [List.pairwise_reverse]
    exact reclaimable_pairwise _ _ _
  refine ⟨?_, hdesc, ?_, fun hs => Clean_total s hs⟩
  · intro j
    unfold reclaimed
    rw [mem_reclaimable]
    constructor
    · rintro ⟨_, e, he, hobj, hzero⟩
      exact ⟨e, he, hobj, hzero⟩
    · rintro ⟨e, he, hobj, hzero⟩
      have hget : (s.data k)[j]? = some e := he
      have hlt : j < (s.data k).length := by
        rcases List.getElem?_eq_some.1 hget with ⟨hl, _⟩
        exact hl
      exact ⟨⟨Nat.zero_le j, by omega⟩, e, he, hobj, hzero⟩
  · intro s1 hc
    have hvec := ((Clean_ok_iff s s1).1 hc).1 k
    have hfl1 : FreeList (s1.data k) ((reclaimed s k).reverse ++ L) :=
      Clean_freeList s s1 hc k L hfl
    refine ⟨hfl1, ?_, ?_, ?_, Clean_length s s1 hc k, ?_⟩
    · intro m hm
      cases hrev : (reclaimed s k).reverse with
      | nil => simp [hrev] at hm
      | cons a tl =>
        rw [hrev] at hm hfl1 hdesc
        simp only [List.head?_cons, Option.some.injEq] at hm
        subst hm
        obtain ⟨_, front, n0, hfront, hn0, hl⟩ := (FreeList_iff _ _).1 hfl1
        obtain ⟨h1, _⟩ := (Linked_cons_iff (s1.data k) n0 a (tl ++ L)).1 hl
        subst h1
        refine ⟨⟨front, hfront, hn0⟩, ?_⟩
        intro j hj
        have hjrev : j ∈ n0 :: tl := by
          rw [← hrev, List.mem_reverse]
          exact hj
        rcases List.mem_cons.1 hjrev with h0 | h0
        · omega
        · have := (List.pairwise_cons.1 hdesc).1 j h0
          omega
    · intro j e he
      exact CleanVector_none_left (s.data k) (s1.data k) L hvec hfl j e he
    · intro fuel hfuel
      constructor
      · exact free_capacity_loop_freeList (s.data k) L fuel hfl hu32 (by omega)
      · have hlen : ((reclaimed s k).reverse ++ L).length = L.length + (reclaimed s k).length := by
          rw [List.length_append, List.length_reverse]
          omega
        have h := free_capacity_loop_freeList (s1.data k) _ fuel hfl1 (by
          intro j hj
          rcases List.mem_append.1 hj with hj | hj
          · rw [List.mem_reverse] at hj
            unfold reclaimed at hj
            rw [mem_reclaimable] at hj
            have hb := CleanLoop_bound (s.data k).length 0 _ _ hvec (by omega)
            omega
          · exact hu32 j hj) (by rw [hlen]; exact hfuel)
        rw [hlen] at h
        exact h
    · intro j
      exact CleanLoop_references _ 0 (s.data k) (s1.data k) hvec j

theorem clean_free_list_order_witness :
    ∃ s1, Clean pendingStore = Except.ok s1 ∧ FreeList (s1.data ()) [3, 1] ∧
      free_capacity 3 () s1 = Except.ok 2 ∧
      (s1.data ()).length = (pendingStore.data ()).length := by
  have h := clean_free_list_order pendingStore () [] ⟨List.nodup_nil, rfl⟩
    (fun _ hj => by cases hj)
  obtain ⟨s1, hc⟩ := h.2.2.2 (fun _ => ⟨⟨_, rfl, rfl⟩, by show 4 < 2147483648; decide⟩)
  obtain ⟨hfl, _, _, hfree, hlen, _⟩ := h.2.2.1 s1 hc
  have hrec : (reclaimed pendingStore ()).reverse ++ [] = [3, 1] := by decide
  rw [hrec] at hfl
  have hcount : ([] : List Nat).length + (reclaimed pendingStore ()).length = 2 := by decide
  have hf := (hfree 3 (by rw [hcount]; decide)).2
  rw [hcount] at hf
  exact ⟨s1, hc, hfl, hf, hlen⟩

end Claims

section Idempotence
variable {κ : Type} [DecidableEq κ] [Fintype κ] {T : κ → Type}

/-- The loop of `Clean` over a vector without object of counter 0 returns the vector. -/
theorem CleanLoop_skip_all {U : Type} : ∀ (n i : Nat) (vec : ObjectOrHoleVector U),
    (∀ (j : Nat) (e : ObjectOrHole U), vec[j]? = some e →
      e.IsObject = false ∨ e.references ≠ 0) →
    i + n ≤ vec.length → (0 < n → i + n < 2147483648) →
    CleanLoop n i vec = Except.ok vec
  | 0, _, _, _, _, _ => rfl
  | n + 1, i, vec, hno, hlen, hb => by
    have hi : i < vec.length := by omega
    have hce := CleanEntry_skip vec i vec[i] (List.getElem?_eq_getElem hi)
      (hno i _ (List.getElem?_eq_getElem hi))
    have hlt : i + 1 < 2147483648 := by
      have := hb (Nat.succ_pos n)
      omega
    simp only [CleanLoop, hce, hlt, if_true]
    exact CleanLoop_skip_all n (i + 1) vec hno (by omega)
      (fun hn => by have := hb (Nat.succ_pos n); omega)

theorem CleanVector_idempotent {U : Type} (vec vec1 : ObjectOrHoleVector U) (L : List Nat)
    (hfl : FreeList vec L) (h : CleanVector vec = Except.ok vec1) :
    CleanVector vec1 = Except.ok vec1 := by
  have hlen : vec1.length = vec.length := CleanLoop_length _ 0 vec vec1 h
  unfold CleanVector
  apply CleanLoop_skip_all
  · intro j e he
    have hnone := CleanVector_none_left vec vec1 L h hfl j e he
    cases hob : e.IsObject with
    | false => exact Or.inl rfl
    | true =>
      right
      intro hz
      exact hnone ⟨hob, hz⟩
  · omega
  · intro hpos
    have := CleanLoop_bound vec.length 0 vec vec1 h (by omega)
    omega

/-- A second `Clean` right after a `Clean` changes nothing. -/
theorem Clean_idempotent (s s1 : ObjectStorage κ T) (hwf : ∀ k, ∃ L, FreeList (s.data k) L)
    (h : Clean s = Except.ok s1) : Clean s1 = Except.ok s1 := by
  rw [Clean_ok_iff]
  refine ⟨fun k => ?_, rfl⟩
  obtain ⟨L, hfl⟩ := hwf k
  exact CleanVector_idempotent (s.data k) (s1.data k) L hfl (((Clean_ok_iff s s1).1 h).1 k)

end Idempotence

section Claims
variable {κ : Type} [DecidableEq κ] [Fintype κ] {T : κ → Type}

/-- C19: for a store whose free lists are well formed, calling `Clean` twice in a row yields
exactly the store that one call yields; and the calls return when the vectors have fewer than
`2^31` slots. -/
theorem clean_twice_is_clean_once (s : ObjectStorage κ T)
    (hwf : ∀ k, ∃ L, FreeList (s.data k) L) :
    CleanTimes 2 s = CleanTimes 1 s ∧
    (∀ s1, Clean s = Except.ok s1 → Clean s1 = Except.ok s1) ∧
    ((∀ k, (s.data k).length < 2147483648) →
      ∃ s1, Clean s = Except.ok s1 ∧ Clean s1 = Except.ok s1) := by
  refine ⟨?_, fun s1 h => Clean_idempotent s s1 hwf h, ?_⟩
  · cases hc : Clean s with
    | error f => simp only [CleanTimes, hc]
    | ok s1 => simp only [CleanTimes, hc, Clean_idempotent s s1 hwf hc]
  · intro hlen
    obtain ⟨s1, hc⟩ := Clean_total s (fun k => by
      obtain ⟨L, hfl⟩ := hwf k
      exact ⟨FreeList_sentinel _ L hfl, hlen k⟩)
    exact ⟨s1, hc, Clean_idempotent s s1 hwf hc⟩

theorem clean_twice_is_clean_once_witness :
    CleanTimes 2 pendingStore = CleanTimes 1 pendingStore ∧
      ∃ s1, Clean pendingStore = Except.ok s1 ∧ Clean s1 = Except.ok s1 :=
  have h := clean_twice_is_clean_once pendingStore (fun _ => ⟨[], List.nodup_nil, rfl⟩)
  ⟨h.1, h.2.2 (fun _ => by show 4 < 2147483648; decide)⟩

end Claims

section MoveFacts
variable {κ : Type} [DecidableEq κ] {T : κ → Type}

theorem move_eq_copy {k : κ} (rhs : OHandle κ k) (s : ObjectStorage κ T) :
    rhs.move s =
      (match rhs.copy s with
      | Except.error f => Except.error f
      | Except.ok (c, s1) => Except.ok (c, rhs, s1)) := by
  unfold OHandle.move OHandle.copy
  simp only
  split
  · split <;> rfl
  · rfl

/-- Moving from a non-empty handle of the store registers one more reference on its slot and
leaves the source as it was. -/
theorem move_of_slot {k : κ} (rhs : OHandle κ k) (s : ObjectStorage κ T)
    (e : ObjectOrHole (T k)) (hstore : rhs.objectStore = true) (hpos : 0 < rhs.index)
    (he : slot s k rhs.index = some e) :
    ∃ s1, RegisterReference rhs s = Except.ok s1 ∧ rhs.move s = Except.ok (rhs, rhs, s1) ∧
      rhs.copy s = Except.ok (rhs, s1) ∧
      slot s1 k rhs.index = some { e with references := (e.references + 1) % 65536 } := by
  obtain ⟨s1, hreg, _, hslot1, _, _⟩ := RegisterReference_slot rhs s he
  have hcopy : rhs.copy s = Except.ok (rhs, s1) := by
    rw [copy_of_slot rhs s hstore hpos, hreg]
  refine ⟨s1, hreg, ?_, hcopy, hslot1⟩
  rw [move_eq_copy, hcopy]

end MoveFacts

section Claims
variable {κ : Type} [DecidableEq κ] {T : κ → Type}

end Claims

section RelocateFacts
variable {κ : Type} [DecidableEq κ] {T : κ → Type}

/-- A move-then-destroy step on a handle whose slot has a counter below 65535 gives an equal
handle and the same store. -/
theorem moveThenDestroy_of_slot {k : κ} (h : OHandle κ k) (s : ObjectStorage κ T)
    (e : ObjectOrHole (T k)) (hstore : h.objectStore = true) (hpos : 0 < h.index)
    (he : slot s k h.index = some e) (hc : e.references < 65535) :
    h.moveThenDestroy s = Except.ok (h, s) := by
  obtain ⟨s1, hreg, hslot1, hdereg⟩ := deregister_register_cancel h s e he hc
  obtain ⟨s2, hreg2, hmove, _, _⟩ := move_of_slot h s e hstore hpos he
  rw [hreg] at hreg2
  injection hreg2 with hreg2
  subst hreg2
  unfold OHandle.moveThenDestroy
  simp only [hmove, destroy_of_slot h s1 hstore hpos, hdereg]

theorem relocate_of_slot {k : κ} (h : OHandle κ k) (s : ObjectStorage κ T)
    (e : ObjectOrHole (T k)) (hstore : h.objectStore = true) (hpos : 0 < h.index)
    (he : slot s k h.index = some e) (hc : e.references < 65535) :
    ∀ n, OHandle.relocate n h s = Except.ok (h, s)
  | 0 => rfl
  | n + 1 => by
    simp only [OHandle.relocate, moveThenDestroy_of_slot h s e hstore hpos he hc]
    exact relocate_of_slot h s e hstore hpos he hc n

theorem relocate_empty {k : κ} (h : OHandle κ k) (s : ObjectStorage κ T) (h0 : h.index = 0) :
    ∀ n, OHandle.relocate n h s = Except.ok (h, s)
  | 0 => rfl
  | n + 1 => by
    have hstep : h.moveThenDestroy s = Except.ok (h, s) := by
      obtain ⟨b, i⟩ := h
      simp only at h0
      subst h0
      simp [OHandle.moveThenDestroy, OHandle.move, OHandle.destroy]
    simp only [OHandle.relocate, hstep]
    exact relocate_empty h s h0 n

end RelocateFacts

section Claims
variable {κ : Type} [DecidableEq κ] {T : κ → Type}

/-- C18 (amended): for a non-empty handle of the store on a slot with counter `c`,
`1 <= c < 65535`, move-constructing a new handle from it and then destroying the moved-from
handle leaves the counter `c` (and the whole store as it was), for any number of such steps;
so a handle created by `Create` in a freshly appended slot of a vector with fewer than `2^32`
slots still reports one reference after any number of move-then-destroy steps. -/
theorem move_then_destroy_keeps_counter {k : κ} (s : ObjectStorage κ T) (h : OHandle κ k)
    (e : ObjectOrHole (T k)) (hstore : h.objectStore = true) (hpos : 0 < h.index)
    (he : slot s k h.index = some e) (_h1 : 1 ≤ e.references)
    (h2 : e.references < 65535) :
    (∃ c r s1 s2, h.move s = Except.ok (c, r, s1) ∧ r.destroy s1 = Except.ok s2 ∧
      slot s1 k h.index = some { e with references := e.references + 1 } ∧
      slot s2 k h.index = some e ∧ s2 = s ∧ c = h) ∧
    (∀ n, OHandle.relocate n h s = Except.ok (h, s)) ∧
    (∀ (v : T k) (t : ObjectStorage κ T), NoFreeSlot (t.data k) →
      (t.data k).length < 4294967296 →
      ∃ hc t1, Create k v t = Except.ok (hc, t1) ∧ hc.index = (t.data k).length ∧
        hc.num_references t1 = Except.ok 1 ∧
        ∀ n, ∃ c t2, OHandle.relocate n hc t1 = Except.ok (c, t2) ∧
          c.num_references t2 = Except.ok 1) := by
  refine ⟨?_, relocate_of_slot h s e hstore hpos he h2, ?_⟩
  · obtain ⟨s1, hreg, hslot1, hdereg⟩ := deregister_register_cancel h s e he h2
    obtain ⟨s2, hreg2, hmove, _, _⟩ := move_of_slot h s e hstore hpos he
    rw [hreg] at hreg2
    injection hreg2 with hreg2
    subst hreg2
    exact ⟨h, h, s1, s, hmove, by rw [destroy_of_slot h s1 hstore hpos, hdereg], hslot1, he,
      rfl, rfl⟩
  · intro v t hnf hlen
    have hposlen : 0 < (t.data k).length := by
      obtain ⟨front, hfront, _⟩ := hnf
      rcases List.getElem?_eq_some.1 hfront with ⟨hl, _⟩
      exact hl
    have hslot : slot (({ t with _hasChanged := true } : ObjectStorage κ T).setVec k
        ((t.data k) ++ [{ references := 1, var := Variant.object v }])) k (t.data k).length =
        some { references := 1, var := Variant.object v } := by
      rw [slot_setVec_same, List.getElem?_append_right (Nat.le_refl _)]
      simp
    have hnum := num_references_of_slot
      ({ objectStore := true, index := (t.data k).length } : OHandle κ k) _ rfl hposlen hslot
    refine ⟨_, _, Create_grow_small k v t hnf hlen, rfl, hnum, ?_⟩
    intro n
    exact ⟨_, _, relocate_of_slot
      ({ objectStore := true, index := (t.data k).length } : OHandle κ k) _ _ rfl hposlen hslot
      (by show 1 < 65535; decide) n, hnum⟩

theorem move_then_destroy_keeps_counter_witness :
    (∀ n, OHandle.relocate n firstHandle oneObjectStore =
      Except.ok (firstHandle, oneObjectStore)) ∧
    firstHandle.num_references oneObjectStore = Except.ok 1 :=
  ⟨(move_then_destroy_keeps_counter oneObjectStore firstHandle
    { references := 1, var := Variant.object 7 } rfl (by decide) rfl (by decide)
    (by decide)).2.1, rfl⟩

/-- After `2^32 - 1` creations on a fresh store the next `Create` returns the index 0. -/
theorem create_after_many (vs : List Nat) (hvs : vs.length = 4294967295) :
    ∃ outs s, run (vs.map (Op.create ())) (ObjectStorage.new : NatStore) =
        Except.ok (outs, s) ∧
      NoFreeSlot (s.data ()) ∧ (s.data ()).length = 4294967296 ∧
      ∃ h s1, Create () 0 s = Except.ok (h, s1) ∧ (s1.data ()).length = 4294967297 ∧
        h.index = 0 ∧ h.num_references s1 = Except.ok 0 ∧
        ∀ n, ∃ c s2, OHandle.relocate n h s1 = Except.ok (c, s2) ∧
          c.num_references s2 = Except.ok 0 := by
  obtain ⟨outs, s, hr⟩ := run_creates_total (T := fun _ => Nat) () vs
    (ObjectStorage.new : NatStore)
    new_noFreeSlot
  obtain ⟨hnf, hlen, _⟩ := run_noClean (vs.map (Op.create ())) (ObjectStorage.new : NatStore)
    outs s (map_create_noClean (T := fun _ => Nat) () vs) hr new_noFreeSlot ()
  have hnew : ((ObjectStorage.new : NatStore).data ()).length = 1 := rfl
  rw [creations_map_create (T := fun _ => Nat) () vs, hvs, hnew] at hlen
  have hlen1 : (s.data ()).length = 4294967296 := by omega
  obtain ⟨h, s1, hc⟩ := Create_total (T := fun _ => Nat) () (0 : Nat) s []
    (NoFreeSlot_freeList _ hnf)
  obtain ⟨hidx, hlen2, _, _⟩ := Create_grow_shape (T := fun _ => Nat) () (0 : Nat) s h s1
    hnf hc
  have hidx0 : h.index = 0 := by omega
  have hlen3 : (s1.data ()).length = 4294967297 := by omega
  have hnum : h.num_references s1 = Except.ok 0 := by
    unfold OHandle.num_references
    rw [if_neg (by omega)]
  exact ⟨outs, s, hr, hnf, hlen1, h, s1, hc, hlen3, hidx0, hnum,
    fun n => ⟨h, s1, relocate_empty h s1 hidx0 n, hnum⟩⟩

/-- C18, as stated, fails in a vector with `2^32` slots: the handle that `Create` returns for
the freshly appended slot has the truncated index 0, so it reports 0 references, before and
after any number of move-then-destroy steps. -/
theorem relocated_handle_reports_zero :
    ∃ outs s, run ((List.replicate 4294967295 (0 : Nat)).map (Op.create ()))
        (ObjectStorage.new : NatStore) = Except.ok (outs, s) ∧
      NoFreeSlot (s.data ()) ∧ (s.data ()).length = 4294967296 ∧
      ∃ h s1, Create () 0 s = Except.ok (h, s1) ∧ (s1.data ()).length = 4294967297 ∧
        h.index = 0 ∧ h.num_references s1 = Except.ok 0 ∧
        ∀ n, ∃ c s2, OHandle.relocate n h s1 = Except.ok (c, s2) ∧
          c.num_references s2 = Except.ok 0 :=
  create_after_many (List.replicate 4294967295 0) (List.length_replicate _ _)

end Claims

section CopiesFacts
variable {κ : Type} [DecidableEq κ] {T : κ → Type}

/-- The effect of `n` copy constructions from a non-empty handle of the store: the counter of
its slot grows by `n` modulo `2^16`, and no variant and no length changes. -/
theorem copies_of_slot {k : κ} (h : OHandle κ k) (hstore : h.objectStore = true)
    (hpos : 0 < h.index) : ∀ (n : Nat) (s : ObjectStorage κ T) (e : ObjectOrHole (T k)),
    slot s k h.index = some e → e.references < 65536 →
    ∃ s1, h.copies n s = Except.ok (List.replicate n h, s1) ∧
      slot s1 k h.index = some { e with references := (e.references + n) % 65536 } ∧
      ∀ k', (s1.data k').length = (s.data k').length ∧
        ∀ j, (slot s1 k' j).map (fun x => x.var) = (slot s k' j).map (fun x => x.var)
  | 0, s, e, he, hc => by
    refine ⟨s, rfl, ?_, fun _ => ⟨rfl, fun _ => rfl⟩⟩
    rw [he, Nat.add_zero, Nat.mod_eq_of_lt hc]
  | n + 1, s, e, he, hc => by
    obtain ⟨s1, hreg, _, hcopy, hslot1⟩ := move_of_slot h s e hstore hpos he
    obtain ⟨s2, hcopies, hslot2, hvars2⟩ := copies_of_slot h hstore hpos n s1 _ hslot1
      (Nat.mod_lt _ (by decide))
    have hmod : ((e.references + 1) % 65536 + n) % 65536 = (e.references + (n + 1)) % 65536 := by
      omega
    simp only [hmod] at hslot2
    refine ⟨s2, ?_, hslot2, ?_⟩
    · simp only [OHandle.copies, hcopy, hcopies, List.replicate_succ]
    · intro k'
      obtain ⟨hlen1, hv1⟩ := RegisterReference_vars h s s1 hreg k'
      obtain ⟨hlen2, hv2⟩ := hvars2 k'
      exact ⟨hlen2.trans hlen1, fun j => (hv2 j).trans (hv1 j)⟩

theorem Sentinel_of_vars {U : Type} (vec vec1 : ObjectOrHoleVector U)
    (h : (vec1[0]?).map (fun e : ObjectOrHole U => e.var) =
      (vec[0]?).map (fun e : ObjectOrHole U => e.var))
    (hs : Sentinel vec) : Sentinel vec1 := by
  obtain ⟨front, hfront, hhole⟩ := hs
  obtain ⟨front1, hfront1, hvar⟩ := slot_of_vars vec vec1 0 front h hfront
  exact ⟨front1, hfront1, by rw [isObject_of_var front front1 hvar]; exact hhole⟩

end CopiesFacts

section WrapFacts
variable {κ : Type} [DecidableEq κ] [Fintype κ] {T : κ → Type}

/-- The first `Create` on a fresh store. -/
theorem Create_on_new (k : κ) (v : T k) :
    ∃ s1, Create k v (ObjectStorage.new : ObjectStorage κ T) =
        Except.ok ({ objectStore := true, index := 1 }, s1) ∧
      s1.data k = [{ references := 0, var := Variant.hole { next_hole := 0 } },
        { references := 1, var := Variant.object v }] ∧
      ∀ k', k' ≠ k → s1.data k' = [{ references := 0, var := Variant.hole { next_hole := 0 } }] := by
  refine ⟨_, Create_grow_small k v (ObjectStorage.new : ObjectStorage κ T) (new_noFreeSlot k)
    (by show 1 < 4294967296; decide), ?_, ?_⟩
  · exact data_setVec_same _ _ _
  · intro k' hk'
    exact data_setVec_ne _ _ hk'

/-- One `Create` on a fresh store followed by 65535 copies of the handle brings the counter of
the slot to 0, and `Clean` then turns the slot into a hole. -/
theorem create_copies_clean (k : κ) (v : T k) :
    ∃ h s1, Create k v (ObjectStorage.new : ObjectStorage κ T) = Except.ok (h, s1) ∧
      h.index = 1 ∧ (s1.data k).length = 2 ∧ h.num_references s1 = Except.ok 1 ∧
      ∃ s2, h.copies 65535 s1 = Except.ok (List.replicate 65535 h, s2) ∧
        slot s2 k h.index = some { references := 0, var := Variant.object v } ∧
        ∃ s3, Clean s2 = Except.ok s3 ∧ ∃ e, slot s3 k h.index = some e ∧ e.IsObject = false := by
  obtain ⟨s1, hc, hdata1, hother1⟩ := Create_on_new (T := T) k v
  have hslot1 : slot s1 k 1 = some { references := 1, var := Variant.object v } := by
    unfold slot
    rw [hdata1]
    rfl
  refine ⟨_, s1, hc, rfl, by rw [hdata1]; rfl, ?_, ?_⟩
  · exact num_references_of_slot ({ objectStore := true, index := 1 } : OHandle κ k) s1 rfl
      (by show 0 < 1; decide) hslot1
  obtain ⟨s2, hcopies, hslot2, hvars⟩ := copies_of_slot
    ({ objectStore := true, index := 1 } : OHandle κ k) rfl (by show 0 < 1; decide) 65535 s1 _
    hslot1 (by show 1 < 65536; decide)
  have hmod : (1 + 65535) % 65536 = 0 := by decide
  have hslot2' : slot s2 k 1 = some { references := 0, var := Variant.object v } := by
    rw [hslot2]
    show some ({ references := (1 + 65535) % 65536, var := Variant.object v } :
      ObjectOrHole (T k)) = _
    rw [hmod]
  refine ⟨s2, hcopies, hslot2', ?_⟩
  have hsweep : ∀ k', Sweepable (s2.data k') := by
    intro k'
    obtain ⟨hlen, hv⟩ := hvars k'
    refine ⟨Sentinel_of_vars _ _ (hv 0) ?_, ?_⟩
    · by_cases hk : k' = k
      · subst hk
        rw [hdata1]
        exact ⟨_, rfl, rfl⟩
      · rw [hother1 k' hk]
        exact ⟨_, rfl, rfl⟩
    · rw [hlen]
      by_cases hk : k' = k
      · subst hk
        rw [hdata1]
        simp
      · rw [hother1 k' hk]
        simp
  have hfl2 : FreeList (s2.data k) [] := by
    apply FreeList_of_vars _ _ [] (hvars k).2
    rw [hdata1]
    exact ⟨List.nodup_nil, rfl⟩
  obtain ⟨s3, hclean⟩ := Clean_total s2 hsweep
  exact ⟨s3, hclean, Clean_reclaims s2 s3 hclean k [] hfl2 1 _ hslot2' rfl rfl⟩

end WrapFacts

section Claims
variable {κ : Type} [DecidableEq κ] [Fintype κ] {T : κ → Type}

/-- C20: the counter is a 16-bit value that wraps: `RegisterReference` on a counter 65535
gives 0 and `DeregisterReference` on a counter 0 gives 65535 (both work modulo `2^16`); one
`Create` into a freshly appended slot followed by 65535 copies of the handle, none of the
65536 handles being destroyed, leaves the counter 0, and `Clean` then turns the slot into a
hole. -/
theorem reference_counter_wraps (k : κ) (v : T k) :
    (∀ (h : OHandle κ k) (s : ObjectStorage κ T) e, slot s k h.index = some e →
      ∃ s1 s2, RegisterReference h s = Except.ok s1 ∧
        slot s1 k h.index = some { e with references := (e.references + 1) % 65536 } ∧
        DeregisterReference h s = Except.ok s2 ∧
        slot s2 k h.index = some { e with references := (e.references + 65535) % 65536 } ∧
        (e.references = 65535 → slot s1 k h.index = some { e with references := 0 }) ∧
        (e.references = 0 → slot s2 k h.index = some { e with references := 65535 })) ∧
    ∃ h s1, Create k v (ObjectStorage.new : ObjectStorage κ T) = Except.ok (h, s1) ∧
      h.index = 1 ∧ (s1.data k).length = 2 ∧ h.num_references s1 = Except.ok 1 ∧
      ∃ s2, h.copies 65535 s1 = Except.ok (List.replicate 65535 h, s2) ∧
        slot s2 k h.index = some { references := 0, var := Variant.object v } ∧
        ∃ s3, Clean s2 = Except.ok s3 ∧
          ∃ e, slot s3 k h.index = some e ∧ e.IsObject = false := by
  refine ⟨?_, create_copies_clean k v⟩
  intro h s e he
  obtain ⟨s1, hreg, _, hslot1, _, _⟩ := RegisterReference_slot h s he
  obtain ⟨s2, hdereg, _, hslot2, _, _⟩ := DeregisterReference_slot h s he
  refine ⟨s1, s2, hreg, hslot1, hdereg, hslot2, ?_, ?_⟩
  · intro hc
    have hmod : (e.references + 1) % 65536 = 0 := by omega
    rw [hslot1, hmod]
  · intro hc
    have hmod : (e.references + 65535) % 65536 = 65535 := by omega
    rw [hslot2, hmod]

theorem reference_counter_wraps_witness :
    ∃ s2, DeregisterReference firstHandle pendingStore = Except.ok s2 ∧
      slot s2 () 1 = some { references := 65535, var := Variant.object 7 } := by
  obtain ⟨_, s2, _, _, hdereg, _, _, hwrap⟩ :=
    (reference_counter_wraps (T := fun _ => Nat) () 0).1 firstHandle pendingStore
      { references := 0, var := Variant.object 7 } rfl
  exact ⟨s2, hdereg, hwrap rfl⟩

end Claims

section LiveHandles
variable {κ : Type} [DecidableEq κ] [Fintype κ] {T : κ → Type}

end LiveHandles

section Claims
variable {κ : Type} [DecidableEq κ] [Fintype κ] {T : κ → Type}

/-- C10, the failing input: after create, destroy, `Clean` and a second create (which reuses
slot 1) the object has one handle, which reports 2 references; destroying this last handle
leaves the slot tagged `Object` with counter 1, not 0. -/
theorem last_handle_of_reused_slot_leaves_one :
    ∃ h1 s1 s2 s3 h2 s4 s5,
      Create () 7 (ObjectStorage.new : NatStore) = Except.ok (h1, s1) ∧
      h1.destroy s1 = Except.ok s2 ∧ Clean s2 = Except.ok s3 ∧
      Create () 9 s3 = Except.ok (h2, s4) ∧ h2.index = 1 ∧
      slot s4 () 1 = some { references := 2, var := Variant.object 9 } ∧
      h2.num_references s4 = Except.ok 2 ∧
      h2.destroy s4 = Except.ok s5 ∧
      slot s5 () 1 = some { references := 1, var := Variant.object 9 } := by
  refine ⟨_, _, _, _, _, _, _, rfl, rfl, rfl, rfl, rfl, rfl, rfl, rfl, rfl⟩

end Claims

end Objects
